import Mathlib

/-!
# TlvInfo EEPROM parser (`main.c`): shallow embedding and verified properties

The C program keeps one 256-byte array `eeprom` and decodes a TlvInfo record from it.
The embedding represents the array as a `List Nat` of bytes; every read goes through
`rd`, which fails with `Err.oob i` when index `i` lies outside the array, so a read the
C code performs past the end of `eeprom` is visible as an error value.  Machine integers
are natural numbers reduced modulo `2^16` or `2^32` where the C types wrap.
-/

namespace TlvParser

/-! ## Errors and memory access -/

/-- Ways in which a run of the C code leaves defined behaviour (or the model its fuel). -/
inductive Err where
  /-- a read of `eeprom[i]` with `i` outside the array -/
  | oob (i : Nat)
  /-- `memcpy` wrote more bytes than the destination object holds -/
  | overflow (n : Nat)
  /-- the loop did not finish within the iteration budget of the model -/
  | nofuel
  deriving DecidableEq, Repr

deriving instance DecidableEq for Except

/-- The read `eeprom[i]`. -/
def rd (buf : List Nat) (i : Nat) : Except Err Nat :=
  match buf[i]? with
  | some b => Except.ok b
  | none => Except.error (Err.oob i)

/-- The read of `n` consecutive bytes starting at `off`, as `memcpy` and the print loops do. -/
def rdn (buf : List Nat) (off : Nat) : Nat → Except Err (List Nat)
  | 0 => Except.ok []
  | n + 1 =>
    match rd buf off with
    | Except.error e => Except.error e
    | Except.ok b =>
      match rdn buf (off + 1) n with
      | Except.error e => Except.error e
      | Except.ok bs => Except.ok (b :: bs)

/-! ## Constants of `main.c` -/

def TLV_CODE_PRODUCT_NAME : Nat := 0x21
def TLV_CODE_PART_NUMBER : Nat := 0x22
def TLV_CODE_SERIAL_NUMBER : Nat := 0x23
def TLV_CODE_MAC_BASE : Nat := 0x24
def TLV_CODE_MANUF_DATE : Nat := 0x25
def TLV_CODE_DEVICE_VERSION : Nat := 0x26
def TLV_CODE_PLATFORM_NAME : Nat := 0x28
def TLV_CODE_MAC_SIZE : Nat := 0x2A
def TLV_CODE_MANUF_NAME : Nat := 0x2B
def TLV_CODE_MANUF_COUNTRY : Nat := 0x2C
def TLV_CODE_VENDOR_NAME : Nat := 0x2D
def TLV_CODE_VENDOR_EXT : Nat := 0xFD
def TLV_CODE_CRC_32 : Nat := 0xFE

/-- Capacity of the `eeprom` array. -/
def TLV_MAX_LEN : Nat := 256

/-- The value of `sizeof(struct tlv_hdr)`: the packed header is 8 + 1 + 2 bytes. -/
def sizeof_tlv_hdr : Nat := 11

/-! ## CRC-32 engine (`tlv_calc_crc32`) -/

/-- One pass of the inner `for (j = 7; j >= 0; j--)` body:
`mask = -(crc & 1); crc = (crc >> 1) ^ (0xEDB88320 & mask);` on `uint32_t`. -/
def crc_bit (crc : Nat) : Nat :=
  let mask := (2 ^ 32 - (crc &&& 1)) % 2 ^ 32
  (crc >>> 1) ^^^ (0xEDB88320 &&& mask)

/-- The body of the `while (len--)` loop for one input byte: `crc = crc ^ byte` followed by the
eight passes of the inner loop. -/
def crc_byte (crc byte : Nat) : Nat :=
  crc_bit (crc_bit (crc_bit (crc_bit (crc_bit (crc_bit (crc_bit (crc_bit (crc ^^^ byte))))))))

/-- The `while (len--)` loop of `tlv_calc_crc32`: `len` bytes remain, `i` is the read index. -/
def tlv_calc_crc32_loop (buf : List Nat) : Nat → Nat → Nat → Except Err Nat
  | 0, _, crc => Except.ok crc
  | len + 1, i, crc =>
    match rd buf i with
    | Except.error e => Except.error e
    | Except.ok byte => tlv_calc_crc32_loop buf len (i + 1) (crc_byte crc byte)

/-- The function `tlv_calc_crc32(buf, len)`.  The parameter `len` is a `uint16_t`, so the
argument is reduced modulo `2^16`; the result is `~crc` on `uint32_t`. -/
def tlv_calc_crc32 (buf : List Nat) (len : Nat) : Except Err Nat :=
  match tlv_calc_crc32_loop buf (len % 65536) 0 0xFFFFFFFF with
  | Except.error e => Except.error e
  | Except.ok crc => Except.ok (0xFFFFFFFF - crc)

/-! ### Reference definition of the reflected CRC-32, following the specification text -/

/-- One reference step: shift right by one, XOR `0xEDB88320` if the bit shifted out was 1. -/
def crc32_ref_step (crc : Nat) : Nat :=
  if crc % 2 = 1 then (crc / 2) ^^^ 0xEDB88320 else crc / 2

/-- Reference treatment of one byte: XOR it into the low 8 bits, then 8 reference steps. -/
def crc32_ref_byte (crc byte : Nat) : Nat :=
  crc32_ref_step^[8] (crc ^^^ byte)

/-- Reference CRC-32: start from `0xFFFFFFFF`, fold the bytes, complement the result. -/
def crc32_ref (bytes : List Nat) : Nat :=
  0xFFFFFFFF - bytes.foldl crc32_ref_byte 0xFFFFFFFF

/-! ## Header access and validation -/

/-- A `uint16_t` load at `off` on the little-endian host the program is built for. -/
def load16 (buf : List Nat) (off : Nat) : Except Err Nat := do
  let b0 ← rd buf off
  let b1 ← rd buf (off + 1)
  pure (b0 + 256 * b1)

/-- The builtin `__builtin_bswap16`. -/
def bswap16 (x : Nat) : Nat :=
  (x % 256) * 256 + (x / 256) % 256

/-- The builtin `__builtin_bswap32`. -/
def bswap32 (x : Nat) : Nat :=
  (x % 256) * 2 ^ 24 + (x / 2 ^ 8 % 256) * 2 ^ 16 + (x / 2 ^ 16 % 256) * 2 ^ 8 + x / 2 ^ 24 % 256

/-- The macro `GET_TLV_LEN()`: `__builtin_bswap16(GET_TLV_HDR()->len)`; the member `len` of the
packed header sits at byte offset 9. -/
def GET_TLV_LEN (buf : List Nat) : Except Err Nat := do
  let raw ← load16 buf 9
  pure (bswap16 raw)

/-- The characters of the string literal `"TlvInfo"` (its terminating NUL is implicit). -/
def TlvInfo_sig : List Nat := [0x54, 0x6C, 0x76, 0x49, 0x6E, 0x66, 0x6F]

/-- The test `strcmp(s, lit) == 0` for the string starting at `buf[off]` against a literal whose
characters (all nonzero) are `lit`: bytes are compared in order, the comparison stops at the
first difference or at the literal's terminating NUL. -/
def strcmp_eq (buf : List Nat) : Nat → List Nat → Except Err Bool
  | off, [] => do
    let a ← rd buf off
    pure (a == 0)
  | off, c :: cs => do
    let a ← rd buf off
    if a ≠ c then pure false else strcmp_eq buf (off + 1) cs

/-- The function `is_valid_tlvhdr(hdr)` with `hdr = GET_TLV_HDR()`, the start of `eeprom`. -/
def is_valid_tlvhdr (buf : List Nat) : Except Err Bool := do
  let sig_ok ← strcmp_eq buf 0 TlvInfo_sig
  if !sig_ok then pure false
  else
    let raw ← load16 buf 9
    pure (decide (bswap16 raw ≤ TLV_MAX_LEN - sizeof_tlv_hdr))

/-! ## Field lookup (`tlv_find`) -/

/-- What a call of `tlv_find` leaves behind: the returned `uint16_t`, the bytes stored through
`output` and the value stored through `offset_out` (`none` where nothing was stored). -/
structure FindResult where
  ret : Nat
  output : Option (List Nat)
  offset_out : Option Nat
  deriving DecidableEq, Repr

/-- The answer of `tlv_find` when nothing was found: 0 returned, nothing stored. -/
def not_found : FindResult := ⟨0, none, none⟩

/-- The `memcpy` of `GET_TLV_DATA(off, len, output)`, guarded by `if (output)`: `output` is
`none` for a null pointer and `some cap` for a pointer to an object of `cap` bytes. -/
def GET_TLV_DATA (buf : List Nat) (off len : Nat) (output : Option Nat) :
    Except Err (Option (List Nat)) :=
  match output with
  | none => pure none
  | some cap =>
    if len ≤ cap then do
      let bytes ← rdn buf off len
      pure (some bytes)
    else throw (Err.overflow len)

/-- The `for (;;)` loop of `tlv_find`; `offset` and `tot_len` are `uint16_t`.  The member
`field->len` is read on every path (as the `memcpy` size and return value, or to move the
offset), so the model reads it right after `field->type`. -/
def tlv_find_loop (buf : List Nat) (code : Nat) (output : Option Nat) (offset_out : Bool)
    (tot_len : Nat) : Nat → Nat → Except Err FindResult
  | 0, _ => throw Err.nofuel
  | fuel + 1, offset => do
    let ftype ← rd buf offset
    let flen ← rd buf (offset + 1)
    if ftype = code then
      let out ← GET_TLV_DATA buf (offset + 2) flen output
      pure ⟨flen, out, if offset_out then some offset else none⟩
    else
      let offset' := (offset + (2 + flen)) % 65536
      if ftype = TLV_CODE_CRC_32 then pure ⟨0, none, none⟩
      else if offset' ≥ tot_len then pure ⟨0, none, none⟩
      else tlv_find_loop buf code output offset_out tot_len fuel offset'

/-- The function `tlv_find(code, output, offset_out)`.  A terminating run visits each of the
`2^16` values of `offset` at most once, so `65536` iterations are a complete budget. -/
def tlv_find (buf : List Nat) (code : Nat) (output : Option Nat) (offset_out : Bool) :
    Except Err FindResult := do
  let len ← GET_TLV_LEN buf
  let offset := sizeof_tlv_hdr
  let tot_len := (len + offset) % 65536
  tlv_find_loop buf code output offset_out tot_len 65536 offset

/-! ## CRC verification (`tlv_verify_crc32`) -/

/-- The value of the `uint32_t crc_val` after `tlv_find` stored `bytes` at its address
(little-endian host).  The object is automatic and never initialised: `crc_val` is the
indeterminate value it holds before the call, and each of its four bytes that `memcpy` does
not write keeps that content.  A copy of more than 4 bytes writes outside the object; it is
reported as `Err.overflow` by `GET_TLV_DATA` and never reaches this function. -/
def crc_val_of (crc_val : Nat) (bytes : List Nat) : Nat :=
  let b0 := bytes.getD 0 (crc_val % 256)
  let b1 := bytes.getD 1 (crc_val / 2 ^ 8 % 256)
  let b2 := bytes.getD 2 (crc_val / 2 ^ 16 % 256)
  let b3 := bytes.getD 3 (crc_val / 2 ^ 24 % 256)
  b0 + 2 ^ 8 * b1 + 2 ^ 16 * b2 + 2 ^ 24 * b3

/-- The function `tlv_verify_crc32()`.  Its local `uint32_t crc_val` is declared without an
initialiser and its address is passed to `tlv_find`; `crc_val` is the value the object holds
at that point, which the C language leaves unspecified. -/
def tlv_verify_crc32 (crc_val : Nat) (buf : List Nat) : Except Err Bool := do
  let len ← GET_TLV_LEN buf
  let crc_calc ← tlv_calc_crc32 buf (len + sizeof_tlv_hdr - 4)
  let r ← tlv_find buf TLV_CODE_CRC_32 (some 4) false
  if r.ret = 0 then pure false
  else pure (bswap32 (crc_val_of crc_val (r.output.getD [])) == crc_calc)

/-! ## Rendering (`print_type_name`, `print_general`, `print_string`, `print_mac`, `print_field`)

Standard output is modelled as the list of characters written. -/

/-- One lowercase hexadecimal digit. -/
def hex_digit (n : Nat) : Char :=
  "0123456789abcdef".toList.getD n '0'

/-- The conversion `%02x` applied to a `uint8_t` argument. -/
def fmt_02x (b : Nat) : List Char :=
  [hex_digit (b / 16 % 16), hex_digit (b % 16)]

/-- The conversion `%u`. -/
def fmt_u (n : Nat) : List Char :=
  (Nat.repr n).toList

/-- The conversion `%c` applied to a `uint8_t` argument. -/
def fmt_c (b : Nat) : Char :=
  Char.ofNat b

/-- The function `print_type_name(type)`. -/
def print_type_name (type : Nat) : List Char :=
  if type = TLV_CODE_MAC_BASE then "\tMAC Address base: ".toList
  else if type = TLV_CODE_PRODUCT_NAME then "\tProduct Name: ".toList
  else if type = TLV_CODE_PART_NUMBER then "\tPart Number: ".toList
  else if type = TLV_CODE_SERIAL_NUMBER then "\tSerial Number: ".toList
  else if type = TLV_CODE_MANUF_DATE then "\tManufacturing Date: ".toList
  else if type = TLV_CODE_DEVICE_VERSION then "\tDevice Version: ".toList
  else if type = TLV_CODE_PLATFORM_NAME then "\tPlatform Name: ".toList
  else if type = TLV_CODE_MAC_SIZE then "\tMAC Size: ".toList
  else if type = TLV_CODE_MANUF_NAME then "\tManufacturer Name: ".toList
  else if type = TLV_CODE_MANUF_COUNTRY then "\tManufacturer Country: ".toList
  else if type = TLV_CODE_VENDOR_NAME then "\tVendor Name: ".toList
  else if type = TLV_CODE_VENDOR_EXT then "\tVendor Extension: ".toList
  else if type = TLV_CODE_CRC_32 then "\tCRC32: ".toList
  else "\tUnknown type (".toList ++ fmt_02x type ++ "): ".toList

/-- The loop of `print_general` from index `i` on, with `n` passes left; `ptr` is the address
of the member `val`, that is the field offset plus 2. -/
def print_general_loop (buf : List Nat) (ptr : Nat) : Nat → Nat → Except Err (List Char)
  | 0, _ => pure []
  | n + 1, i => do
    let b ← rd buf (ptr + i)
    let sep := if i ≠ 5 then " ".toList else []
    let rest ← print_general_loop buf ptr n (i + 1)
    pure (fmt_02x b ++ sep ++ rest)

/-- The function `print_general(field)` for the field at offset `off`. -/
def print_general (buf : List Nat) (off : Nat) : Except Err (List Char) := do
  let len ← rd buf (off + 1)
  let body ← print_general_loop buf (off + 2) len 0
  pure (body ++ "\n".toList)

/-- The loop of `print_string` with `n` passes left, reading from `ptr`. -/
def print_string_loop (buf : List Nat) : Nat → Nat → Except Err (List Char)
  | _, 0 => pure []
  | ptr, n + 1 => do
    let b ← rd buf ptr
    let rest ← print_string_loop buf (ptr + 1) n
    pure (fmt_c b :: rest)

/-- The function `print_string(field)` for the field at offset `off`. -/
def print_string (buf : List Nat) (off : Nat) : Except Err (List Char) := do
  let len ← rd buf (off + 1)
  let body ← print_string_loop buf (off + 2) len
  pure (body ++ "\n".toList)

/-- The loop of `print_mac` from index `i` on, with `n` passes left. -/
def print_mac_loop (buf : List Nat) (ptr : Nat) : Nat → Nat → Except Err (List Char)
  | 0, _ => pure []
  | n + 1, i => do
    let b ← rd buf (ptr + i)
    let sep := if i ≠ 5 then ":".toList else []
    let rest ← print_mac_loop buf ptr n (i + 1)
    pure (fmt_02x b ++ sep ++ rest)

/-- The function `print_mac(field)` for the field at offset `off`. -/
def print_mac (buf : List Nat) (off : Nat) : Except Err (List Char) := do
  let len ← rd buf (off + 1)
  if len ≠ 6 then
    pure ("Invalid MAC address, expected ".toList ++ fmt_u 6 ++ " bytes, received ".toList
      ++ fmt_u len ++ "\n".toList)
  else
    let body ← print_mac_loop buf (off + 2) 6 0
    pure (body ++ "\n".toList)

/-- The function `print_field(field)` for the field at offset `off`. -/
def print_field (buf : List Nat) (off : Nat) : Except Err (List Char) := do
  let type ← rd buf off
  let label := print_type_name type
  let value ←
    if type = TLV_CODE_MAC_BASE then print_mac buf off
    else if type = TLV_CODE_PRODUCT_NAME ∨ type = TLV_CODE_SERIAL_NUMBER
        ∨ type = TLV_CODE_PLATFORM_NAME ∨ type = TLV_CODE_MANUF_COUNTRY
        ∨ type = TLV_CODE_VENDOR_NAME ∨ type = TLV_CODE_MANUF_NAME
        ∨ type = TLV_CODE_PART_NUMBER then print_string buf off
    else print_general buf off
  pure (label ++ value)

/-! ## Enumeration (`print_eeprom`) -/

/-- A field as the enumeration visits it: the offset held in `field`, and the two bytes
`field->type` and `field->len` found there. -/
structure tlv_field where
  off : Nat
  type : Nat
  len : Nat
  deriving DecidableEq, Repr

/-- The `for (;;)` loop of `print_eeprom`: each pass prints one field and moves the offset.
The result lists the visited fields with the text printed for each; the type byte is read
once more after `print_field` only to record it. -/
def print_eeprom_loop (buf : List Nat) (tot_len : Nat) :
    Nat → Nat → Except Err (List (tlv_field × List Char))
  | 0, _ => throw Err.nofuel
  | fuel + 1, offset => do
    let text ← print_field buf offset
    let ftype ← rd buf offset
    let flen ← rd buf (offset + 1)
    let offset' := (offset + (2 + flen)) % 65536
    if offset' ≥ tot_len then pure [(⟨offset, ftype, flen⟩, text)]
    else
      let rest ← print_eeprom_loop buf tot_len fuel offset'
      pure ((⟨offset, ftype, flen⟩, text) :: rest)

/-- The visited fields and their texts of a run of `print_eeprom()`. -/
def print_eeprom_rows (buf : List Nat) : Except Err (List (tlv_field × List Char)) := do
  let len ← GET_TLV_LEN buf
  let offset := sizeof_tlv_hdr
  let tot_len := (len + offset) % 65536
  print_eeprom_loop buf tot_len 65536 offset

/-- The fields a run of `print_eeprom()` visits, in order. -/
def print_eeprom_fields (buf : List Nat) : Except Err (List tlv_field) := do
  let rows ← print_eeprom_rows buf
  pure (rows.map Prod.fst)

/-- The function `print_eeprom()`: everything it writes to standard output. -/
def print_eeprom (buf : List Nat) : Except Err (List Char) := do
  let rows ← print_eeprom_rows buf
  pure ("EEPROM Contents:\n".toList ++ (rows.map Prod.snd).flatten ++ "\n".toList)

/-- The value bytes of a field: the `len` bytes that follow its type and length bytes. -/
def tlv_field.val (buf : List Nat) (f : tlv_field) : List Nat :=
  (buf.drop (f.off + 2)).take f.len

/-! ## Byte layout of records, used to describe the buffers the program is run on -/

/-- The eight signature bytes: the characters of `"TlvInfo"` and the terminating NUL. -/
def sig8 : List Nat := [0x54, 0x6C, 0x76, 0x49, 0x6E, 0x66, 0x6F, 0x00]

/-- The bytes of one field: its type code, its length byte and its value bytes. -/
def field_bytes (type : Nat) (val : List Nat) : List Nat :=
  type :: val.length :: val

/-- The bytes of a sequence of fields `(type, value)` packed without padding. -/
def fields_bytes : List (Nat × List Nat) → List Nat
  | [] => []
  | f :: fs => field_bytes f.1 f.2 ++ fields_bytes fs

/-- Big-endian bytes of a 16-bit value. -/
def be16 (x : Nat) : List Nat :=
  [x / 256 % 256, x % 256]

/-- Big-endian bytes of a 32-bit value. -/
def be32 (x : Nat) : List Nat :=
  [x / 2 ^ 24 % 256, x / 2 ^ 16 % 256, x / 2 ^ 8 % 256, x % 256]

/-- The fields the enumeration is expected to visit for the packed sequence `fs` that starts at
offset `off`: each with its offset, type code and length byte. -/
def fields_layout : Nat → List (Nat × List Nat) → List tlv_field
  | _, [] => []
  | off, f :: fs => ⟨off, f.1, f.2.length⟩ :: fields_layout (off + (2 + f.2.length)) fs

/-- The bytes of a record up to and including the type and length bytes of its CRC field:
signature, version, big-endian total length, the fields `fs`, then `0xFE, 4`. -/
def record_front (ver : Nat) (fs : List (Nat × List Nat)) : List Nat :=
  sig8 ++ [ver] ++ be16 ((fields_bytes fs).length + 6) ++ fields_bytes fs ++ [TLV_CODE_CRC_32, 4]

/-- A complete record for version `ver` and fields `fs`: the bytes of `record_front`, the
big-endian CRC-32 of those bytes, and zero padding up to the 256 bytes of the buffer. -/
def record_bytes (ver : Nat) (fs : List (Nat × List Nat)) : List Nat :=
  record_front ver fs ++ be32 (crc32_ref (record_front ver fs))
    ++ List.replicate (256 - ((record_front ver fs).length + 4)) 0

/-- The bytes `buf` with bit `k` (0 = least significant) of the byte at index `i` inverted. -/
def flip_bit (buf : List Nat) (i k : Nat) : List Nat :=
  buf.set i (buf.getD i 0 ^^^ 2 ^ k)

/-! ## Example buffers -/

/-- The eight signature bytes followed by version 1: the first nine bytes of the example
buffers below. -/
def sig_ver1 : List Nat := sig8 ++ [1]

/-- A complete record in a 256-byte buffer: header with version 1 and total length 12, the
field `{0x21, 4, "ABCD"}`, the CRC field `{0xFE, 4, 0x2732D7C2}`, zero padding. -/
def sample_record : List Nat :=
  sig_ver1 ++ [0, 12] ++ [0x21, 4, 0x41, 0x42, 0x43, 0x44] ++ [0xFE, 4, 0x27, 0x32, 0xD7, 0xC2]
    ++ List.replicate 233 0

/-- A 256-byte buffer with a valid header declaring 245 bytes of field data and, at offset 11,
a field of type 0x21 whose length byte is 255. -/
def overlong_field_buffer : List Nat :=
  sig_ver1 ++ [0, 245] ++ [0x21, 255] ++ List.replicate 243 0x41

/-- A 256-byte buffer with a valid header declaring 0 bytes of field data, followed by the
bytes `0x21, 1, 0x41`. -/
def empty_data_buffer : List Nat :=
  sig_ver1 ++ [0, 0] ++ [0x21, 1, 0x41] ++ List.replicate 242 0

/-- A 256-byte EEPROM content with a valid header declaring 16 bytes of field data: the CRC
field `{0xFE, 4, 0x12345678}` at offset 11 and, at offset 17, a field of type 0x21 whose
length byte is 255, so that its value would end at offset 273.  The CRC-32 of the first 23
bytes is 0x12345678. -/
def overlong_image : List Nat :=
  sig_ver1 ++ [0, 16] ++ [0xFE, 4, 0x12, 0x34, 0x56, 0x78] ++ [0x21, 255, 0x8E, 0x23, 0x14, 0x9F]
    ++ List.replicate 233 0

/-- A 256-byte EEPROM content with a valid header declaring 245 bytes of field data: a field
of type 0x21 with 242 value bytes at offset 11, which ends at offset 255, and the single byte
0x21 at offset 255, the last byte of the array. -/
def edge_image : List Nat :=
  sig_ver1 ++ [0, 245] ++ [0x21, 242] ++ List.replicate 242 0x41 ++ [0x21]

/-! ## The scenario buffer of the specification -/

/-- The first 17 bytes of the scenario buffer: signature, version 1, total length 13, then the
field `{0x21, 4, "ABCD"}`; these are the bytes that precede the CRC field. -/
def scenario_head : List Nat :=
  sig_ver1 ++ [0, 13] ++ [0x21, 4, 0x41, 0x42, 0x43, 0x44]

/-- The scenario buffer: `scenario_head`, then the field `{0xFE, 4, v}` where `v` is the
big-endian CRC-32 of `scenario_head`, then zeros up to 256 bytes. -/
def scenario_buffer : List Nat :=
  scenario_head ++ [0xFE, 4] ++ be32 (crc32_ref scenario_head) ++ List.replicate 233 0

/-! ## Further example buffers -/

/-- A 256-byte buffer with a valid header declaring 5 bytes of field data, followed by the
6-byte field `{0x21, 4, "ABCD"}`: the field ends at offset 17, one past the declared end 16. -/
def overshoot_buffer : List Nat :=
  sig_ver1 ++ [0, 5] ++ [0x21, 4, 0x41, 0x42, 0x43, 0x44] ++ List.replicate 239 0

/-- Hex rendering as the specification describes it, for the value bytes from index `i` on:
each byte as two hex digits followed by exactly one space, except the byte with index 5,
which is followed by nothing. -/
def spec_hex_text_from : Nat → List Nat → List Char
  | _, [] => []
  | i, b :: bs => fmt_02x b ++ (if i = 5 then [] else [' ']) ++ spec_hex_text_from (i + 1) bs

/-- Hex rendering of the value bytes `v` as the specification describes it (without the final
newline). -/
def spec_hex_text (v : List Nat) : List Char :=
  spec_hex_text_from 0 v

/-! ## The field walk of `tlv_find`, with the visited fields recorded -/

/-- The fields that the `for (;;)` loop of `tlv_find` examines, in order.  This is the loop
of `tlv_find_loop` with the same reads, tests and offset arithmetic; each pass records the
value of `offset` and the two bytes `field->type` and `field->len` read there, and the copy
to `output` is left out. -/
def tlv_find_visits (buf : List Nat) (code tot_len : Nat) :
    Nat → Nat → Except Err (List tlv_field)
  | 0, _ => throw Err.nofuel
  | fuel + 1, offset => do
    let ftype ← rd buf offset
    let flen ← rd buf (offset + 1)
    if ftype = code then pure [⟨offset, ftype, flen⟩]
    else
      let offset' := (offset + (2 + flen)) % 65536
      if ftype = TLV_CODE_CRC_32 then pure [⟨offset, ftype, flen⟩]
      else if offset' ≥ tot_len then pure [⟨offset, ftype, flen⟩]
      else
        let rest ← tlv_find_visits buf code tot_len fuel offset'
        pure (⟨offset, ftype, flen⟩ :: rest)

/-- The shape of a field walk over a record with declared length `T`: the first visited
field is at offset 11; each next field is at the previous offset plus 2 plus the previous
length byte (computed without wrap-around); the offset past any visited field is at most
`11 + T + 257`, and below that when `T >= 1`; at most `max 1 ((T + 1) / 2)` fields are
visited. -/
def walk_within (T : Nat) (fs : List tlv_field) : Prop :=
  fs.head?.map tlv_field.off = some 11
  ∧ List.Chain' (fun a b => b.off = a.off + (2 + a.len)) fs
  ∧ (∀ f ∈ fs, f.off + (2 + f.len) ≤ 11 + T + 257
      ∧ (1 ≤ T → f.off + (2 + f.len) < 11 + T + 257))
  ∧ 1 ≤ fs.length ∧ fs.length ≤ max 1 ((T + 1) / 2)

instance (T : Nat) (fs : List tlv_field) : Decidable (walk_within T fs) := by
  unfold walk_within
  infer_instance

/-- A 256-byte buffer with a valid header declaring 0 bytes of field data, followed by a field
header of type 0x24 whose length byte is 255. -/
def longest_field_buffer : List Nat :=
  sig_ver1 ++ [0, 0] ++ [0x24, 255] ++ List.replicate 243 0

/-! ## Loading the record (`i2c_open_bus`, `i2c_read`, `read_eeprom`) and `main`

The I2C device is outside the program; it is modelled as a pair of functions that may fail.
The program state that the load touches is the array `eeprom`, standard output, and (kept for
the properties below) the list of transfers requested from the device. -/

/-- The environment of the program.  `bus_open busnum` is the outcome of
`open("/dev/i2c-<busnum>", O_RDWR)`: a descriptor, or the text of `strerror(errno)`.
`transfer fd addr reg len` is the outcome of the `I2C_RDWR` ioctl that sends the register
number `reg` to the device at `addr` and reads `len` bytes back: the byte received at each
index of the message, or the text of `strerror(errno)`.  `crc_val` is the value that the
uninitialised automatic object `crc_val` of `tlv_verify_crc32` holds when that function runs;
the C language leaves it unspecified. -/
structure Transport where
  bus_open : Nat → Except (List Char) Nat
  transfer : Nat → Nat → Nat → Nat → Except (List Char) (Nat → Nat)
  crc_val : Nat

/-- The program state: the array `eeprom`, the characters written to standard output, and the
transfers `(fd, addr, reg, len)` requested so far, in order. -/
structure Machine where
  eeprom : List Nat
  out : List Char
  reads : List (Nat × Nat × Nat × Nat)
  deriving DecidableEq

/-- The state at program start: `eeprom` is a zero-initialised static array of
`TLV_MAX_LEN` bytes, nothing has been written or requested. -/
def Machine.init : Machine :=
  ⟨List.replicate TLV_MAX_LEN 0, [], []⟩

/-- The call `printf(...)` writing the characters `text`. -/
def Machine.printf (m : Machine) (text : List Char) : Machine :=
  { m with out := m.out ++ text }

/-- The array `buf` after `len` received bytes `f 0, ..., f (len - 1)` were stored from index
`off` on. -/
def i2c_store (buf : List Nat) (off len : Nat) (f : Nat → Nat) : List Nat :=
  buf.take off ++ (List.range len).map (fun i => f i % 256) ++ buf.drop (off + len)

/-- The function `i2c_read(fd, addr, reg, len, output)` with `output = eeprom + off`; `addr`
and `len` are `uint16_t`, `reg` is `uint8_t`.  A transfer of more bytes than the array holds
from `off` on writes outside `eeprom`. -/
def i2c_read (tr : Transport) (fd addr reg len off : Nat) (m : Machine) :
    Except Err (Bool × Machine) :=
  let addr := addr % 65536
  let reg := reg % 256
  let len := len % 65536
  let m := { m with reads := m.reads ++ [(fd, addr, reg, len)] }
  match tr.transfer fd addr reg len with
  | Except.error msg =>
    pure (false, m.printf ("ioctl error while reading data from I2C bus - ".toList ++ msg
      ++ "\n".toList))
  | Except.ok f =>
    if off + len ≤ m.eeprom.length then
      pure (true, { m with eeprom := i2c_store m.eeprom off len f })
    else throw (Err.overflow len)

/-- The function `i2c_open_bus(busnum)`: the descriptor, or `none` for the value -1. -/
def i2c_open_bus (tr : Transport) (busnum : Nat) (m : Machine) : Option Nat × Machine :=
  match tr.bus_open busnum with
  | Except.ok fd => (some fd, m)
  | Except.error msg =>
    (none, m.printf ("Could not open I2C device - ".toList ++ msg ++ "\n".toList))

/-- The text that `tlv_verify_crc32()` writes to standard output: the line about a missing
CRC field when `tlv_find` returns 0, nothing otherwise. -/
def tlv_verify_crc32_stdout (buf : List Nat) : Except Err (List Char) := do
  let len ← GET_TLV_LEN buf
  let _ ← tlv_calc_crc32 buf (len + sizeof_tlv_hdr - 4)
  let r ← tlv_find buf TLV_CODE_CRC_32 (some 4) false
  if r.ret = 0 then pure "No CRC32 value found in TLV..\n".toList
  else pure []

/-- The function `read_eeprom(busnum, addr)`: the returned status and the state it leaves
(`i2c_close_bus` has no effect on that state). -/
def read_eeprom (tr : Transport) (busnum addr : Nat) (m : Machine) :
    Except Err (Bool × Machine) :=
  match i2c_open_bus tr busnum m with
  | (none, m) => pure (false, m.printf "Can't read EEPROM..\n".toList)
  | (some fd, m) => do
    let (status, m) ← i2c_read tr fd addr 0 sizeof_tlv_hdr 0 m
    if !status then pure (false, m.printf "Can't read EEPROM..\n".toList)
    else
      let valid ← is_valid_tlvhdr m.eeprom
      if !valid then pure (false, m.printf "Invalid TLV header read from EEPROM!\n".toList)
      else
        let len ← GET_TLV_LEN m.eeprom
        let (status, m) ← i2c_read tr fd addr sizeof_tlv_hdr len sizeof_tlv_hdr m
        if !status then pure (false, m.printf "Can't read EEPROM..\n".toList)
        else
          let verified ← tlv_verify_crc32 tr.crc_val m.eeprom
          let text ← tlv_verify_crc32_stdout m.eeprom
          let m := m.printf text
          if !verified then
            pure (false, m.printf "Invalid TLV-CRC32 value in EEPROM!\n".toList)
          else pure (true, m)

/-- The function `print_usage(program)`. -/
def print_usage (program : List Char) : List Char :=
  "Usage:\n\n".toList ++ program ++ " -b <I2C bus number> -a <EEPROM address>\n\n".toList

/-- The function `parse_args(argc, argv)`.  The option scanner `getopt` and the conversion
`strtol` belong to the C library: `opts` lists, in order, the option characters that `getopt`
returns, each with the value `strtol` gives for its argument.  The result is the value of the
`uint16_t` globals `busnum` and `eeprom_addr`, which start as `0xFFFF`, and the state. -/
def parse_args (opts : List (Char × Int)) (busnum eeprom_addr : Nat) (m : Machine) :
    Nat × Nat × Machine :=
  match opts with
  | [] => (busnum, eeprom_addr, m)
  | (opt, val) :: rest =>
    if opt = 'b' then parse_args rest (val % 65536).toNat eeprom_addr m
    else if opt = 'a' then parse_args rest busnum (val % 65536).toNat m
    else parse_args rest busnum eeprom_addr
      (m.printf ("Unknown argument ".toList ++ [opt] ++ "\n".toList))

/-- The function `main(argc, argv)`, with `program = argv[0]`: the value it returns and the
final state. -/
def main (tr : Transport) (program : List Char) (opts : List (Char × Int)) :
    Except Err (Int × Machine) :=
  let (busnum, eeprom_addr, m) := parse_args opts 0xFFFF 0xFFFF Machine.init
  if busnum = 0xFFFF ∨ eeprom_addr = 0xFFFF then
    pure (-1, m.printf (print_usage program))
  else do
    let (loaded, m) ← read_eeprom tr busnum eeprom_addr m
    if !loaded then pure (-1, m)
    else
      let text ← print_eeprom m.eeprom
      pure (0, m.printf text)

/-- The texts that a run of `read_eeprom` which returns false can have written to standard
output, `msg` being the text of `strerror(errno)` for the failed call. -/
def load_diagnostics (msg : List Char) : List (List Char) :=
  [ "Could not open I2C device - ".toList ++ msg ++ "\n".toList ++ "Can't read EEPROM..\n".toList,
    "ioctl error while reading data from I2C bus - ".toList ++ msg ++ "\n".toList
      ++ "Can't read EEPROM..\n".toList,
    "Invalid TLV header read from EEPROM!\n".toList,
    "Invalid TLV-CRC32 value in EEPROM!\n".toList,
    "No CRC32 value found in TLV..\n".toList ++ "Invalid TLV-CRC32 value in EEPROM!\n".toList ]

/-- An environment in which every bus opens (descriptor 3), every device answers with the
bytes of `image`, starting at the register number sent, and the uninitialised `crc_val` holds
`crc_val`. -/
def device_of (image : List Nat) (crc_val : Nat) : Transport :=
  ⟨fun _ => Except.ok 3, fun _ _ reg _ => Except.ok (fun i => image.getD (reg + i) 0), crc_val⟩

/-- An environment in which every bus opens (descriptor 3) and every device answers with the
bytes of `sample_record`, starting at the register number sent. -/
def sample_transport : Transport :=
  device_of sample_record 0

/-- An environment in which no bus can be opened. -/
def closed_transport : Transport :=
  ⟨fun _ => Except.error "No such file or directory".toList,
   fun _ _ _ _ => Except.error "Bad file descriptor".toList, 0⟩

/-! ## Auxiliary definitions for the order sensitivity of the CRC (C17) -/

/-- A byte sequence of length 8 that is not a palindrome and has the same CRC-32 as its
reversal. -/
def reversal_collision : List Nat := [0, 0, 0, 0, 149, 68, 176, 51]

/-- The XOR of those entries of `gs` whose index is the position of a 1 bit of `v`: the
image of `v` under the XOR-linear map that sends `2 ^ b` to entry `b`. -/
def unmix : List Nat → Nat → Nat
  | [], _ => 0
  | g :: gs, v => (if v % 2 = 1 then g else 0) ^^^ unmix gs (v / 2)

/-- The byte sequence of length `n` that reads the same in both directions and whose byte at
distance `q` from either end is byte `q` (least significant first) of `x`. -/
def pal_bytes (n x : Nat) : List Nat :=
  (List.range n).map (fun p => x / 256 ^ (min p (n - 1 - p)) % 256)

/-- For the lengths 2 to 7, the 32 entries of an XOR-linear map that recovers `x` from the
CRC state reached from 0 over `pal_bytes n x`, for `x` below `2 ^ (8 * (n / 2))`. -/
def reversal_inverse : Nat → List Nat
  | 2 =>
    [0x00003F, 0x000034, 0x000022, 0x000031, 0x000028, 0x000025, 0x000000, 0x000000,
     0x000000, 0x000000, 0x000000, 0x000075, 0x0000EA, 0x000000, 0x000000, 0x000000,
     0x000000, 0x000000, 0x000000, 0x000000, 0x000000, 0x000000, 0x000000, 0x000000,
     0x000000, 0x000000, 0x000000, 0x000000, 0x000000, 0x000000, 0x000000, 0x000000]
  | 3 =>
    [0x000081, 0x0000A8, 0x0000FA, 0x000075, 0x0000EA, 0x000055, 0x0000AA, 0x0000D5,
     0x000000, 0x000000, 0x000000, 0x000000, 0x000000, 0x000000, 0x000000, 0x000000,
     0x000000, 0x000000, 0x000000, 0x000000, 0x000000, 0x000000, 0x000000, 0x000000,
     0x000000, 0x000000, 0x000000, 0x000000, 0x000000, 0x000000, 0x000000, 0x000000]
  | 4 =>
    [0x006E53, 0x0070D6, 0x005B3F, 0x00BBDF, 0x00DCD7, 0x00BEB7, 0x0077D6, 0x00589E,
     0x000BAF, 0x000C1C, 0x00B9E9, 0x00D51A, 0x00B66F, 0x007D24, 0x005638, 0x000000,
     0x000000, 0x000000, 0x000000, 0x000000, 0x000DA1, 0x000000, 0x000000, 0x000000,
     0x000000, 0x000000, 0x000000, 0x000000, 0x000000, 0x000000, 0x000000, 0x000000]
  | 5 =>
    [0x008E64, 0x00D294, 0x006CE7, 0x00DE5D, 0x009DEB, 0x00F219, 0x00C563, 0x00449A,
     0x008EA7, 0x003B8C, 0x009F86, 0x0019CE, 0x00DB02, 0x009755, 0x00E0F6, 0x00E72E,
     0x000000, 0x000000, 0x000000, 0x000000, 0x000000, 0x000000, 0x000000, 0x000000,
     0x000000, 0x000000, 0x000000, 0x000000, 0x000000, 0x000000, 0x000000, 0x000000]
  | 6 =>
    [0x9B34C0, 0x20C4EE, 0x67E9C3, 0xB2FFED, 0xB557C4, 0x61DD13, 0x05BF56, 0xD0A429,
     0x8C5AD6, 0x13C737, 0xA7189F, 0x03D024, 0xDC7ACD, 0xAE58F4, 0x1150F2, 0x84570A,
     0xA52A61, 0xFA0F42, 0x444504, 0xCE1989, 0xD1D208, 0x8EB694, 0x8B56B7, 0x000000,
     0x1DDFF5, 0x000000, 0x000000, 0x000000, 0x000000, 0x000000, 0x000000, 0x000000]
  | 7 =>
    [0x3C69B1, 0x372F99, 0xBCD643, 0x8F1184, 0x4D74BB, 0xFD8443, 0x25244A, 0x4A4894,
     0xE476F4, 0x39D4F6, 0x5CBC3E, 0xE68A72, 0x2C230F, 0x58461E, 0x8F971B, 0x636C57,
     0xD15247, 0x8114E1, 0xE49A35, 0x8A6D2C, 0x1FFBF9, 0x9A1D43, 0x000000, 0xB5E444,
     0x000000, 0x178AE9, 0x000000, 0x000000, 0x000000, 0x000000, 0x000000, 0x000000]
  | _ => []

/-- The finite check behind `reversal_inverse`: each single-bit input `2 ^ i` with
`i < 8 * (n / 2)` is recovered from its CRC state. -/
def reversal_check (n : Nat) : Bool :=
  (List.range (8 * (n / 2))).all fun i =>
    unmix (reversal_inverse n) ((pal_bytes n (2 ^ i)).foldl crc32_ref_byte 0) == 2 ^ i

/-! # Verified properties -/

theorem rd_eq_ok {buf : List Nat} {i : Nat} (h : i < buf.length) :
    rd buf i = Except.ok (buf[i]) := by
  simp [rd, List.getElem?_eq_getElem h]

theorem rd_eq_oob {buf : List Nat} {i : Nat} (h : buf.length ≤ i) :
    rd buf i = Except.error (Err.oob i) := by
  simp [rd, List.getElem?_eq_none h]

theorem ok_bind {α β : Type} (a : α) (f : α → Except Err β) :
    (Except.ok a >>= f) = f a := rfl

theorem error_bind {α β : Type} (e : Err) (f : α → Except Err β) :
    ((Except.error e : Except Err α) >>= f) = Except.error e := rfl

theorem pure_eq_ok {α : Type} (a : α) : (pure a : Except Err α) = Except.ok a := rfl

theorem throw_eq_error {α : Type} (e : Err) : (throw e : Except Err α) = Except.error e := rfl

/-- Reading the byte that follows a prefix `pre`. -/
theorem rd_append_cons (pre rest : List Nat) (x : Nat) :
    rd (pre ++ x :: rest) pre.length = Except.ok x := by
  rw [rd, List.getElem?_append_right (le_refl _)]
  simp

theorem rd_at (pre rest : List Nat) (x : Nat) (i : Nat) (h : i = pre.length) :
    rd (pre ++ x :: rest) i = Except.ok x := by
  subst h; exact rd_append_cons pre rest x

/-- Reading a whole block `v` that follows a prefix `pre`. -/
theorem rdn_append (v : List Nat) : ∀ (pre rest : List Nat) (off : Nat), off = pre.length →
    rdn (pre ++ v ++ rest) off v.length = Except.ok v := by
  induction v with
  | nil => intro pre rest off _; simp [rdn]
  | cons x xs ih =>
    intro pre rest off h
    have h1 : rd (pre ++ x :: xs ++ rest) off = Except.ok x := by
      have := rd_at pre (xs ++ rest) x off h
      simpa using this
    have h2 := ih (pre ++ [x]) rest (off + 1) (by simp [h])
    simp only [List.append_assoc, List.singleton_append] at h2
    simp only [List.length_cons, rdn, h1]
    simp only [List.append_assoc, List.cons_append] at h2 ⊢
    rw [h2]

/-! ### CRC-32: the C loop computes the reference definition -/

theorem crc_bit_eq_ref (crc : Nat) : crc_bit crc = crc32_ref_step crc := by
  unfold crc_bit crc32_ref_step
  have h1 : crc &&& 1 = crc % 2 := Nat.and_one_is_mod crc
  have h2 : crc >>> 1 = crc / 2 := by simp [Nat.shiftRight_eq_div_pow]
  simp only [h1, h2]
  rcases Nat.mod_two_eq_zero_or_one crc with h | h
  · simp [h]
  · have h3 : (3988292384 : Nat) &&& 4294967295 = 3988292384 := by decide
    simp [h, h3]

theorem crc_byte_eq_ref (crc byte : Nat) : crc_byte crc byte = crc32_ref_byte crc byte := by
  simp [crc_byte, crc32_ref_byte, crc_bit_eq_ref, Function.iterate_succ]

theorem tlv_calc_crc32_loop_eq (buf : List Nat) (len : Nat) :
    ∀ (i crc : Nat), i + len ≤ buf.length →
      tlv_calc_crc32_loop buf len i crc
        = Except.ok (((buf.drop i).take len).foldl crc32_ref_byte crc) := by
  induction len with
  | zero => intro i crc _; simp [tlv_calc_crc32_loop]
  | succ n ih =>
    intro i crc h
    have hi : i < buf.length := by omega
    rw [tlv_calc_crc32_loop, rd_eq_ok hi]
    simp only
    rw [ih (i + 1) _ (by omega), List.drop_eq_getElem_cons hi (l := buf)]
    simp only [List.take_succ_cons, List.foldl_cons, crc_byte_eq_ref]

theorem tlv_calc_crc32_take (buf : List Nat) (len : Nat) (h1 : len ≤ buf.length)
    (h2 : len ≤ 65535) :
    tlv_calc_crc32 buf len = Except.ok (crc32_ref (buf.take len)) := by
  unfold tlv_calc_crc32
  rw [Nat.mod_eq_of_lt (by omega), tlv_calc_crc32_loop_eq buf len 0 _ (by omega)]
  simp [crc32_ref]

set_option maxRecDepth 100000 in
/-- C1: `tlv_calc_crc32` equals the reflected CRC-32 reference definition (start from
`0xFFFFFFFF`; per byte XOR it into the low 8 bits and apply 8 steps of "shift right by one, XOR
`0xEDB88320` if the bit shifted out was 1"; complement the result) for every byte sequence of
length 0..65535.  The empty input gives `0x00000000` and the ASCII bytes `"123456789"` give
`0xCBF43926`. -/
theorem tlv_calc_crc32_refines_reference :
    (∀ bytes : List Nat, bytes.length ≤ 65535 →
      tlv_calc_crc32 bytes bytes.length = Except.ok (crc32_ref bytes))
    ∧ tlv_calc_crc32 [] 0 = Except.ok 0x00000000
    ∧ tlv_calc_crc32 [0x31, 0x32, 0x33, 0x34, 0x35, 0x36, 0x37, 0x38, 0x39] 9
        = Except.ok 0xCBF43926 := by
  refine ⟨fun bytes h => ?_, by decide, by decide⟩
  have := tlv_calc_crc32_take bytes bytes.length (le_refl _) h
  simpa using this

/-- Witness for `tlv_calc_crc32_refines_reference`: the three bytes 1, 2, 3. -/
theorem tlv_calc_crc32_refines_reference_witness :
    tlv_calc_crc32 [1, 2, 3] [1, 2, 3].length = Except.ok (crc32_ref [1, 2, 3]) :=
  tlv_calc_crc32_refines_reference.1 [1, 2, 3] (by decide)

/-! ### Header validation -/

theorem bswap16_load (b0 b1 : Nat) (h0 : b0 < 256) (h1 : b1 < 256) :
    bswap16 (b0 + 256 * b1) = b0 * 256 + b1 := by
  unfold bswap16
  omega

theorem GET_TLV_LEN_eq (buf : List Nat) (h : 11 ≤ buf.length) (hb : ∀ b ∈ buf, b < 256) :
    GET_TLV_LEN buf = Except.ok (buf.getD 9 0 * 256 + buf.getD 10 0) := by
  have h9 : 9 < buf.length := by omega
  have h10 : 10 < buf.length := by omega
  have hb9 : buf[9] < 256 := hb _ (List.getElem_mem h9)
  have hb10 : buf[10] < 256 := hb _ (List.getElem_mem h10)
  simp only [GET_TLV_LEN, load16, rd_eq_ok h9, rd_eq_ok h10, ok_bind, pure_eq_ok]
  rw [bswap16_load _ _ hb9 hb10]
  simp [List.getD_eq_getElem?_getD, List.getElem?_eq_getElem h9, List.getElem?_eq_getElem h10]

theorem is_valid_tlvhdr_eq (buf : List Nat) (h : 11 ≤ buf.length) (hb : ∀ b ∈ buf, b < 256) :
    is_valid_tlvhdr buf
      = Except.ok (decide (buf.take 8 = sig8 ∧ buf.getD 9 0 * 256 + buf.getD 10 0 ≤ 245)) := by
  match buf, h, hb with
  | b0 :: b1 :: b2 :: b3 :: b4 :: b5 :: b6 :: b7 :: b8 :: b9 :: b10 :: rest, _, hb =>
    have hb9 : b9 < 256 := hb _ (by simp)
    have hb10 : b10 < 256 := hb _ (by simp)
    simp only [is_valid_tlvhdr, strcmp_eq, TlvInfo_sig, rd, load16, ok_bind, pure_eq_ok,
      List.getElem?_cons_zero, List.getElem?_cons_succ, sig8, TLV_MAX_LEN, sizeof_tlv_hdr,
      bswap16_load _ _ hb9 hb10, List.take, List.getD_cons_zero, List.getD_cons_succ]
    by_cases e0 : b0 = 0x54
    swap
    · simp [e0, ok_bind, pure_eq_ok]
    by_cases e1 : b1 = 0x6C
    swap
    · simp [e0, e1, ok_bind, pure_eq_ok]
    by_cases e2 : b2 = 0x76
    swap
    · simp [e0, e1, e2, ok_bind, pure_eq_ok]
    by_cases e3 : b3 = 0x49
    swap
    · simp [e0, e1, e2, e3, ok_bind, pure_eq_ok]
    by_cases e4 : b4 = 0x6E
    swap
    · simp [e0, e1, e2, e3, e4, ok_bind, pure_eq_ok]
    by_cases e5 : b5 = 0x66
    swap
    · simp [e0, e1, e2, e3, e4, e5, ok_bind, pure_eq_ok]
    by_cases e6 : b6 = 0x6F
    swap
    · simp [e0, e1, e2, e3, e4, e5, e6, ok_bind, pure_eq_ok]
    by_cases e7 : b7 = 0
    swap
    · simp [e0, e1, e2, e3, e4, e5, e6, e7, ok_bind, pure_eq_ok]
    simp [e0, e1, e2, e3, e4, e5, e6, e7, ok_bind, pure_eq_ok]

/-- C2: for a header of byte values, `is_valid_tlvhdr` returns a boolean, and it accepts if and
only if the first 8 bytes are exactly `'T','l','v','I','n','f','o',0x00` and the big-endian
16-bit value in bytes 9..10 is at most 245; replacing the version byte (byte 8) never changes
the result.  The mutation `"TlvInf0"` is rejected, a declared length of 246 is rejected and a
declared length of 245 with the right signature is accepted. -/
theorem is_valid_tlvhdr_accepts_iff :
    (∀ buf : List Nat, 11 ≤ buf.length → (∀ b ∈ buf, b < 256) →
      (is_valid_tlvhdr buf = Except.ok true ∨ is_valid_tlvhdr buf = Except.ok false)
      ∧ (is_valid_tlvhdr buf = Except.ok true ↔
          buf.take 8 = [0x54, 0x6C, 0x76, 0x49, 0x6E, 0x66, 0x6F, 0x00]
          ∧ buf.getD 9 0 * 256 + buf.getD 10 0 ≤ 245)
      ∧ (∀ ver : Nat, ver < 256 → is_valid_tlvhdr (buf.set 8 ver) = is_valid_tlvhdr buf))
    ∧ is_valid_tlvhdr [0x54, 0x6C, 0x76, 0x49, 0x6E, 0x66, 0x30, 0x00, 1, 0, 6] = Except.ok false
    ∧ is_valid_tlvhdr [0x54, 0x6C, 0x76, 0x49, 0x6E, 0x66, 0x6F, 0x00, 1, 0, 246] = Except.ok false
    ∧ is_valid_tlvhdr [0x54, 0x6C, 0x76, 0x49, 0x6E, 0x66, 0x6F, 0x00, 1, 0, 245] = Except.ok true := by
  refine ⟨fun buf h hb => ⟨?_, ?_, fun ver hv => ?_⟩, by decide, by decide, by decide⟩
  · rw [is_valid_tlvhdr_eq buf h hb]
    by_cases hc : buf.take 8 = sig8 ∧ buf.getD 9 0 * 256 + buf.getD 10 0 ≤ 245
    · left; rw [decide_eq_true hc]
    · right; rw [decide_eq_false hc]
  · rw [is_valid_tlvhdr_eq buf h hb]
    simp [sig8]
  · have hb2 : ∀ b ∈ buf.set 8 ver, b < 256 := by
      intro b hmem
      rcases List.mem_or_eq_of_mem_set hmem with h1 | h1
      · exact hb b h1
      · omega
    rw [is_valid_tlvhdr_eq buf h hb, is_valid_tlvhdr_eq _ (by simpa using h) hb2]
    have t8 : (buf.set 8 ver).take 8 = buf.take 8 := by
      rw [List.set_take, List.set_eq_of_length_le (by simp)]
    simp [t8, List.getD_eq_getElem?_getD, List.getElem?_set]

/-- Witness for `is_valid_tlvhdr_accepts_iff`: changing the version byte of an accepted
11-byte header from 1 to 7 leaves the result unchanged. -/
theorem is_valid_tlvhdr_accepts_iff_witness :
    is_valid_tlvhdr ([0x54, 0x6C, 0x76, 0x49, 0x6E, 0x66, 0x6F, 0x00, 1, 0, 245].set 8 7)
      = is_valid_tlvhdr [0x54, 0x6C, 0x76, 0x49, 0x6E, 0x66, 0x6F, 0x00, 1, 0, 245] :=
  (is_valid_tlvhdr_accepts_iff.1 [0x54, 0x6C, 0x76, 0x49, 0x6E, 0x66, 0x6F, 0x00, 1, 0, 245]
    (by decide) (by decide)).2.2 7 (by decide)

/-! ### Field lookup -/

theorem tlv_find_loop_match {buf : List Nat} {code off l : Nat} (output : Option Nat)
    (oo : Bool) (tot fuel : Nat)
    (ht : rd buf off = Except.ok code) (hl : rd buf (off + 1) = Except.ok l) :
    tlv_find_loop buf code output oo tot (fuel + 1) off
      = (GET_TLV_DATA buf (off + 2) l output >>= fun out =>
          Except.ok ⟨l, out, if oo then some off else none⟩) := by
  simp only [tlv_find_loop, ht, hl, ok_bind, if_true, pure_eq_ok]

theorem tlv_find_loop_crc {buf : List Nat} {code off t l : Nat} (output : Option Nat)
    (oo : Bool) (tot fuel : Nat)
    (ht : rd buf off = Except.ok t) (hl : rd buf (off + 1) = Except.ok l)
    (hne : t ≠ code) (hcrc : t = TLV_CODE_CRC_32) :
    tlv_find_loop buf code output oo tot (fuel + 1) off = Except.ok not_found := by
  simp only [tlv_find_loop, ht, hl, ok_bind, if_neg hne, if_pos hcrc, pure_eq_ok, not_found]

theorem tlv_find_loop_end {buf : List Nat} {code off t l : Nat} (output : Option Nat)
    (oo : Bool) (tot fuel : Nat)
    (ht : rd buf off = Except.ok t) (hl : rd buf (off + 1) = Except.ok l)
    (hne : t ≠ code) (hend : tot ≤ (off + (2 + l)) % 65536) :
    tlv_find_loop buf code output oo tot (fuel + 1) off = Except.ok not_found := by
  simp only [tlv_find_loop, ht, hl, ok_bind, if_neg hne, pure_eq_ok, not_found]
  split
  · rfl
  · simp [hend]

theorem tlv_find_loop_next {buf : List Nat} {code off t l : Nat} (output : Option Nat)
    (oo : Bool) (tot fuel : Nat)
    (ht : rd buf off = Except.ok t) (hl : rd buf (off + 1) = Except.ok l)
    (hne : t ≠ code) (hcrc : t ≠ TLV_CODE_CRC_32) (hlt : (off + (2 + l)) % 65536 < tot) :
    tlv_find_loop buf code output oo tot (fuel + 1) off
      = tlv_find_loop buf code output oo tot fuel ((off + (2 + l)) % 65536) := by
  simp only [tlv_find_loop, ht, hl, ok_bind, if_neg hne, if_neg hcrc, pure_eq_ok]
  rw [if_neg (by omega)]

theorem field_bytes_length (t : Nat) (v : List Nat) : (field_bytes t v).length = 2 + v.length := by
  simp [field_bytes]; omega

/-- The two header bytes of a field laid out after `pre`. -/
theorem rd_field_type (pre rest v : List Nat) (t off : Nat) (h : off = pre.length) :
    rd (pre ++ field_bytes t v ++ rest) off = Except.ok t := by
  have := rd_at pre (v.length :: v ++ rest) t off h
  simpa [field_bytes] using this

theorem rd_field_len (pre rest v : List Nat) (t off : Nat) (h : off = pre.length) :
    rd (pre ++ field_bytes t v ++ rest) (off + 1) = Except.ok v.length := by
  have := rd_at (pre ++ [t]) (v ++ rest) v.length (off + 1) (by simp [h])
  simpa [field_bytes] using this

theorem rdn_field_val (pre rest v : List Nat) (t off : Nat) (h : off = pre.length) :
    rdn (pre ++ field_bytes t v ++ rest) (off + 2) v.length = Except.ok v := by
  have := rdn_append v (pre ++ [t, v.length]) rest (off + 2) (by simp [h])
  simpa [field_bytes] using this

/-- Skipping a run of fields none of which is the wanted one or the CRC field. -/
theorem tlv_find_loop_skip (code : Nat) (output : Option Nat) (oo : Bool) (tot : Nat)
    (fs : List (Nat × List Nat)) :
    ∀ (pre rest : List Nat) (fuel : Nat),
      (∀ f ∈ fs, f.1 ≠ code ∧ f.1 ≠ TLV_CODE_CRC_32) →
      pre.length + (fields_bytes fs).length < tot → tot ≤ 65536 →
      tlv_find_loop (pre ++ fields_bytes fs ++ rest) code output oo tot
          (fuel + fs.length) pre.length
        = tlv_find_loop (pre ++ fields_bytes fs ++ rest) code output oo tot
          fuel (pre.length + (fields_bytes fs).length) := by
  induction fs with
  | nil => intro pre rest fuel _ _ _; simp [fields_bytes]
  | cons f fs ih =>
    intro pre rest fuel hfs hlt htot
    obtain ⟨hne, hcrc⟩ := hfs f (by simp)
    have hfb : (fields_bytes (f :: fs)).length = 2 + f.2.length + (fields_bytes fs).length := by
      simp [fields_bytes, field_bytes]; omega
    have hbuf : pre ++ fields_bytes (f :: fs) ++ rest
        = pre ++ field_bytes f.1 f.2 ++ (fields_bytes fs ++ rest) := by
      simp [fields_bytes]
    have hbuf2 : pre ++ fields_bytes (f :: fs) ++ rest
        = (pre ++ field_bytes f.1 f.2) ++ fields_bytes fs ++ rest := by
      simp [fields_bytes]
    have hmod : (pre.length + (2 + f.2.length)) % 65536 = pre.length + (2 + f.2.length) :=
      Nat.mod_eq_of_lt (by omega)
    have ht := rd_field_type pre (fields_bytes fs ++ rest) f.2 f.1 pre.length rfl
    have hl := rd_field_len pre (fields_bytes fs ++ rest) f.2 f.1 pre.length rfl
    rw [← hbuf] at ht hl
    have hstep := tlv_find_loop_next output oo tot (fuel + fs.length) ht hl hne hcrc
      (by rw [hmod]; omega)
    rw [List.length_cons, ← Nat.add_assoc, hstep, hmod, hfb]
    have := ih (pre ++ field_bytes f.1 f.2) rest fuel
      (fun g hg => hfs g (by simp [hg])) (by simp [field_bytes_length]; omega) htot
    rw [← hbuf2] at this
    simp only [List.length_append, field_bytes_length] at this
    rw [show pre.length + (2 + f.2.length + (fields_bytes fs).length)
        = pre.length + (2 + f.2.length) + (fields_bytes fs).length by omega]
    exact this

theorem fields_bytes_length_ge (fs : List (Nat × List Nat)) :
    2 * fs.length ≤ (fields_bytes fs).length := by
  induction fs with
  | nil => simp [fields_bytes]
  | cons f fs ih => simp [fields_bytes, field_bytes]; omega

/-- A header accepted by `is_valid_tlvhdr` declares at most 245 bytes of field data. -/
theorem valid_len_le {buf : List Nat} {T : Nat} (hvalid : is_valid_tlvhdr buf = Except.ok true)
    (hT : GET_TLV_LEN buf = Except.ok T) : T ≤ 245 := by
  unfold is_valid_tlvhdr at hvalid
  unfold GET_TLV_LEN at hT
  cases hs : strcmp_eq buf 0 TlvInfo_sig with
  | error e => rw [hs] at hvalid; simp [error_bind] at hvalid
  | ok sig_ok =>
    rw [hs] at hvalid
    cases hr : load16 buf 9 with
    | error e => rw [hr] at hT; simp [error_bind] at hT
    | ok raw =>
      rw [hr] at hvalid hT
      simp only [ok_bind, pure_eq_ok] at hvalid hT
      cases sig_ok with
      | false => simp at hvalid
      | true =>
        simp [TLV_MAX_LEN, sizeof_tlv_hdr] at hvalid
        have : bswap16 raw = T := by injection hT
        omega

theorem tlv_find_unfold (buf : List Nat) (code : Nat) (output : Option Nat) (oo : Bool)
    {T : Nat} (hT : GET_TLV_LEN buf = Except.ok T) (hle : T ≤ 245) :
    tlv_find buf code output oo = tlv_find_loop buf code output oo (T + 11) 65536 11 := by
  have h1 : tlv_find buf code output oo
      = (GET_TLV_LEN buf >>= fun len =>
          tlv_find_loop buf code output oo ((len + 11) % 65536) 65536 11) := rfl
  have h2 : (T + 11) % 65536 = T + 11 := Nat.mod_eq_of_lt (by omega)
  rw [h1, hT, ok_bind, h2]

theorem GET_TLV_DATA_field (pre rest v : List Nat) (t off cap : Nat) (h : off = pre.length)
    (hcap : v.length ≤ cap) :
    GET_TLV_DATA (pre ++ field_bytes t v ++ rest) (off + 2) v.length (some cap)
      = Except.ok (some v) := by
  simp only [GET_TLV_DATA, if_pos hcap, rdn_field_val pre rest v t off h, ok_bind, pure_eq_ok]

/-- The lookup over a buffer laid out as header, skipped fields, a field of the wanted type
and anything after it. -/
theorem tlv_find_layout
    (buf hdr rest val : List Nat) (fs : List (Nat × List Nat)) (c cap T : Nat)
    (hT : GET_TLV_LEN buf = Except.ok T) (hle : T ≤ 245)
    (hlayout : buf = hdr ++ fields_bytes fs ++ field_bytes c val ++ rest)
    (hhdr : hdr.length = 11)
    (hfs : ∀ f ∈ fs, f.1 ≠ c ∧ f.1 ≠ TLV_CODE_CRC_32)
    (hstart : 11 + (fields_bytes fs).length < 11 + T)
    (hcap : val.length ≤ cap) :
    tlv_find buf c (some cap) true
      = Except.ok ⟨val.length, some val, some (11 + (fields_bytes fs).length)⟩ := by
  have hn := fields_bytes_length_ge fs
  rw [tlv_find_unfold buf c (some cap) true hT hle]
  have hfuel : 65536 = (65535 - fs.length + 1) + fs.length := by omega
  have hskip := tlv_find_loop_skip c (some cap) true (T + 11) fs hdr
    (field_bytes c val ++ rest) (65535 - fs.length + 1) hfs (by omega) (by omega)
  rw [hhdr, ← hfuel, ← List.append_assoc, ← hlayout] at hskip
  rw [hskip]
  have ht := rd_field_type (hdr ++ fields_bytes fs) rest val c (11 + (fields_bytes fs).length)
    (by simp [hhdr])
  have hl := rd_field_len (hdr ++ fields_bytes fs) rest val c (11 + (fields_bytes fs).length)
    (by simp [hhdr])
  have hd := GET_TLV_DATA_field (hdr ++ fields_bytes fs) rest val c
    (11 + (fields_bytes fs).length) cap (by simp [hhdr]) hcap
  rw [← hlayout] at ht hl hd
  rw [tlv_find_loop_match (some cap) true (T + 11) (65535 - fs.length) ht hl, hd]
  rfl

/-- C3: let a buffer with a valid header (declared length `T`) consist of the 11 header
bytes, packed fields `fs` none of which has type `c` or `0xFE`, a field of type `c` with value
`val` that starts before offset `11 + T`, and any further bytes `rest` (possibly more fields
of type `c`).  Then `tlv_find(c)` with non-null `output` (large enough for `val`) and
`offset_out` returns the length byte of that first field of type `c`, stores its offset in
`offset_out` and copies exactly its value bytes to `output`. -/
theorem tlv_find_returns_first_match
    (buf hdr rest val : List Nat) (fs : List (Nat × List Nat)) (c cap T : Nat)
    (hvalid : is_valid_tlvhdr buf = Except.ok true)
    (hT : GET_TLV_LEN buf = Except.ok T)
    (hlayout : buf = hdr ++ fields_bytes fs ++ field_bytes c val ++ rest)
    (hhdr : hdr.length = 11)
    (hfs : ∀ f ∈ fs, f.1 ≠ c ∧ f.1 ≠ TLV_CODE_CRC_32)
    (hstart : 11 + (fields_bytes fs).length < 11 + T)
    (hcap : val.length ≤ cap) :
    tlv_find buf c (some cap) true
      = Except.ok ⟨val.length, some val, some (11 + (fields_bytes fs).length)⟩ :=
  tlv_find_layout buf hdr rest val fs c cap T hT (valid_len_le hvalid hT) hlayout hhdr hfs
    hstart hcap

/-- A successful block read returns exactly the bytes at `off .. off + n`, all inside `buf`. -/
theorem rdn_ok_iff (buf : List Nat) (n : Nat) : ∀ (off : Nat) (bs : List Nat),
    rdn buf off n = Except.ok bs ↔ (bs = (buf.drop off).take n ∧ (n = 0 ∨ off + n ≤ buf.length)) := by
  induction n with
  | zero => intro off bs; simp [rdn, eq_comm]
  | succ n ih =>
    intro off bs
    by_cases h : off < buf.length
    · simp only [rdn, rd_eq_ok h]
      cases hr : rdn buf (off + 1) n with
      | error e =>
        have hno := fun bs => (ih (off + 1) bs).not.mp (by rw [hr]; simp)
        refine ⟨fun h => (by cases h), fun ⟨_, h2⟩ => ?_⟩
        have h3 : n = 0 ∨ off + 1 + n ≤ buf.length := by omega
        exact absurd ⟨rfl, h3⟩ (hno _)
      | ok bs2 =>
        obtain ⟨h1, h2⟩ := (ih (off + 1) bs2).mp hr
        rw [List.drop_eq_getElem_cons h (l := buf), List.take_succ_cons, ← h1]
        constructor
        · intro heq
          injection heq with heq
          exact ⟨heq.symm, by omega⟩
        · intro ⟨heq, _⟩
          rw [heq]
    · have h2 : buf.length ≤ off := by omega
      simp only [rdn, rd_eq_oob h2]
      refine ⟨fun h => (by cases h), fun ⟨_, h3⟩ => ?_⟩
      omega

theorem rdn_ok_length {buf : List Nat} {n off : Nat} {bs : List Nat}
    (h : rdn buf off n = Except.ok bs) : bs.length = n := by
  obtain ⟨h1, h2⟩ := (rdn_ok_iff buf n off bs).mp h
  rw [h1, List.length_take, List.length_drop]
  omega

theorem rd_ok_iff (buf : List Nat) (i b : Nat) :
    rd buf i = Except.ok b ↔ ∃ h : i < buf.length, buf[i] = b := by
  by_cases h : i < buf.length
  · rw [rd_eq_ok h]
    constructor
    · intro heq; injection heq with heq; exact ⟨h, heq⟩
    · intro ⟨_, heq⟩; rw [heq]
  · rw [rd_eq_oob (by omega)]
    constructor
    · intro heq; cases heq
    · intro ⟨h2, _⟩; exact absurd h2 h

/-- What a finished run of the `tlv_find` loop can return: nothing, or a field of the wanted
type that starts at the loop's initial offset or below `tot_len`. -/
theorem tlv_find_loop_inv (buf : List Nat) (code : Nat) (output : Option Nat) (oo : Bool)
    (tot : Nat) (fuel : Nat) : ∀ (off : Nat) (r : FindResult),
    tlv_find_loop buf code output oo tot fuel off = Except.ok r →
      r = not_found ∨
      ∃ p l, (p = off ∨ p < tot) ∧ rd buf p = Except.ok code
        ∧ rd buf (p + 1) = Except.ok l
        ∧ GET_TLV_DATA buf (p + 2) l output = Except.ok r.output
        ∧ r.ret = l ∧ r.offset_out = (if oo then some p else none) := by
  induction fuel with
  | zero => intro off r h; simp [tlv_find_loop, throw_eq_error] at h
  | succ fuel ih =>
    intro off r h
    cases ht : rd buf off with
    | error e => simp [tlv_find_loop, ht, error_bind] at h
    | ok t =>
      cases hl : rd buf (off + 1) with
      | error e => simp [tlv_find_loop, ht, hl, ok_bind, error_bind] at h
      | ok l =>
        by_cases hc : t = code
        · subst hc
          rw [tlv_find_loop_match output oo tot fuel ht hl] at h
          cases hd : GET_TLV_DATA buf (off + 2) l output with
          | error e => rw [hd] at h; simp [error_bind] at h
          | ok out =>
            rw [hd, ok_bind] at h
            injection h with h
            subst h
            exact Or.inr ⟨off, l, Or.inl rfl, ht, hl, hd, rfl, rfl⟩
        · by_cases hcrc : t = TLV_CODE_CRC_32
          · rw [tlv_find_loop_crc output oo tot fuel ht hl hc hcrc] at h
            injection h with h
            exact Or.inl h.symm
          · by_cases hend : tot ≤ (off + (2 + l)) % 65536
            · rw [tlv_find_loop_end output oo tot fuel ht hl hc hend] at h
              injection h with h
              exact Or.inl h.symm
            · rw [tlv_find_loop_next output oo tot fuel ht hl hc hcrc (by omega)] at h
              rcases ih _ r h with h1 | ⟨p, l2, hp2, hrest⟩
              · exact Or.inl h1
              · exact Or.inr ⟨p, l2, Or.inr (by omega), hrest⟩

set_option maxRecDepth 100000 in
/-- Witness for `tlv_find_returns_first_match`: looking up the CRC field of `sample_record`
skips the product-name field and returns the CRC field at offset 17. -/
theorem tlv_find_returns_first_match_witness :
    tlv_find sample_record 0xFE (some 4) true
      = Except.ok ⟨4, some [0x27, 0x32, 0xD7, 0xC2], some 17⟩ :=
  tlv_find_returns_first_match sample_record (sample_record.take 11)
    (sample_record.drop 23) [0x27, 0x32, 0xD7, 0xC2] [(0x21, [0x41, 0x42, 0x43, 0x44])]
    0xFE 4 12 (by decide) (by decide) (by decide) (by decide) (by decide) (by decide) (by decide)

/-! ### CRC verification -/

/-- Passing a null `offset_out` changes nothing but the stored offset. -/
theorem tlv_find_loop_null_offset_out (buf : List Nat) (code : Nat) (output : Option Nat)
    (tot : Nat) (fuel : Nat) : ∀ (off : Nat),
    tlv_find_loop buf code output false tot fuel off
      = (tlv_find_loop buf code output true tot fuel off >>= fun r =>
          Except.ok ⟨r.ret, r.output, none⟩) := by
  induction fuel with
  | zero => intro off; rfl
  | succ fuel ih =>
    intro off
    cases ht : rd buf off with
    | error e => simp [tlv_find_loop, ht, error_bind]
    | ok t =>
      cases hl : rd buf (off + 1) with
      | error e => simp [tlv_find_loop, ht, hl, ok_bind, error_bind]
      | ok l =>
        by_cases hc : t = code
        · subst hc
          rw [tlv_find_loop_match output false tot fuel ht hl,
            tlv_find_loop_match output true tot fuel ht hl]
          cases hd : GET_TLV_DATA buf (off + 2) l output with
          | error e => rfl
          | ok out => rfl
        · by_cases hcrc : t = TLV_CODE_CRC_32
          · rw [tlv_find_loop_crc output false tot fuel ht hl hc hcrc,
              tlv_find_loop_crc output true tot fuel ht hl hc hcrc]
            rfl
          · by_cases hend : tot ≤ (off + (2 + l)) % 65536
            · rw [tlv_find_loop_end output false tot fuel ht hl hc hend,
                tlv_find_loop_end output true tot fuel ht hl hc hend]
              rfl
            · rw [tlv_find_loop_next output false tot fuel ht hl hc hcrc (by omega),
                tlv_find_loop_next output true tot fuel ht hl hc hcrc (by omega)]
              exact ih _

theorem tlv_find_null_offset_out (buf : List Nat) (code : Nat) (output : Option Nat) :
    tlv_find buf code output false
      = (tlv_find buf code output true >>= fun r => Except.ok ⟨r.ret, r.output, none⟩) := by
  have h1 : ∀ oo, tlv_find buf code output oo
      = (GET_TLV_LEN buf >>= fun len =>
          tlv_find_loop buf code output oo ((len + 11) % 65536) 65536 11) := fun _ => rfl
  rw [h1, h1]
  cases GET_TLV_LEN buf with
  | error e => rfl
  | ok T =>
    rw [ok_bind, ok_bind]
    exact tlv_find_loop_null_offset_out buf code output _ 65536 11

/-- What a finished run of `tlv_find` can return. -/
theorem tlv_find_inv {buf : List Nat} {code : Nat} {output : Option Nat} {oo : Bool} {T : Nat}
    {r : FindResult} (hT : GET_TLV_LEN buf = Except.ok T) (hle : T ≤ 245)
    (h : tlv_find buf code output oo = Except.ok r) :
    r = not_found ∨
      ∃ p l, (p = 11 ∨ p < T + 11) ∧ rd buf p = Except.ok code
        ∧ rd buf (p + 1) = Except.ok l
        ∧ GET_TLV_DATA buf (p + 2) l output = Except.ok r.output
        ∧ r.ret = l ∧ r.offset_out = (if oo then some p else none) := by
  rw [tlv_find_unfold buf code output oo hT hle] at h
  exact tlv_find_loop_inv buf code output oo (T + 11) 65536 11 r h

theorem bswap32_load (b0 b1 b2 b3 : Nat) (h0 : b0 < 256) (h1 : b1 < 256) (h2 : b2 < 256)
    (h3 : b3 < 256) :
    bswap32 (b0 + 2 ^ 8 * b1 + 2 ^ 16 * b2 + 2 ^ 24 * b3)
      = b0 * 2 ^ 24 + b1 * 2 ^ 16 + b2 * 2 ^ 8 + b3 := by
  unfold bswap32
  norm_num
  omega

theorem take4_drop {buf : List Nat} {q : Nat} (h : q + 4 ≤ buf.length) :
    (buf.drop q).take 4 = [buf.getD q 0, buf.getD (q + 1) 0, buf.getD (q + 2) 0,
      buf.getD (q + 3) 0] := by
  have h0 : q < buf.length := by omega
  have h1 : q + 1 < buf.length := by omega
  have h2 : q + 2 < buf.length := by omega
  have h3 : q + 3 < buf.length := by omega
  rw [List.drop_eq_getElem_cons h0 (l := buf), List.drop_eq_getElem_cons h1 (l := buf),
    List.drop_eq_getElem_cons h2 (l := buf), List.drop_eq_getElem_cons h3 (l := buf)]
  simp only [List.take_succ_cons, List.take_zero, List.getD_eq_getElem?_getD,
    List.getElem?_eq_getElem, h0, h1, h2, h3, Option.getD_some]

/-- The run of `tlv_verify_crc32` once the CRC field has been located with length 4. -/
theorem tlv_verify_crc32_of_find (stale : Nat) {buf out : List Nat} {T p crc : Nat}
    (hbytes : ∀ b ∈ buf, b < 256)
    (hT : GET_TLV_LEN buf = Except.ok T) (hle : T ≤ 245)
    (hcrc : tlv_calc_crc32 buf (T + 11 - 4) = Except.ok crc)
    (hfind : tlv_find buf TLV_CODE_CRC_32 (some 4) true = Except.ok ⟨4, some out, some p⟩) :
    p + 6 ≤ buf.length ∧ (p = 11 ∨ p < T + 11)
    ∧ rd buf p = Except.ok TLV_CODE_CRC_32 ∧ rd buf (p + 1) = Except.ok 4
    ∧ out = [buf.getD (p + 2) 0, buf.getD (p + 3) 0, buf.getD (p + 4) 0, buf.getD (p + 5) 0]
    ∧ tlv_verify_crc32 stale buf = Except.ok (decide
        (buf.getD (p + 2) 0 * 2 ^ 24 + buf.getD (p + 3) 0 * 2 ^ 16 + buf.getD (p + 4) 0 * 2 ^ 8
          + buf.getD (p + 5) 0 = crc)) := by
  rcases tlv_find_inv hT hle hfind with h | ⟨q, l, hq, hqt, hql, hqd, hret, hoff⟩
  · simp [not_found] at h
  · simp only [if_true] at hoff hret hqd
    injection hoff with hoff
    subst hoff
    subst hret
    simp only [GET_TLV_DATA, if_true, le_refl] at hqd
    cases hr : rdn buf (p + 2) 4 with
    | error e => rw [hr] at hqd; simp [error_bind] at hqd
    | ok bs =>
      rw [hr, ok_bind, pure_eq_ok] at hqd
      injection hqd with hqd
      injection hqd with hqd
      subst hqd
      obtain ⟨hbs, hin⟩ := (rdn_ok_iff buf 4 (p + 2) bs).mp hr
      have hin2 : p + 2 + 4 ≤ buf.length := by omega
      rw [take4_drop hin2] at hbs
      simp only [Nat.add_assoc, Nat.reduceAdd] at hbs
      have e0 : ∀ i, i < buf.length → buf.getD i 0 < 256 := by
        intro i hi
        rw [List.getD_eq_getElem?_getD, List.getElem?_eq_getElem hi]
        exact hbytes _ (List.getElem_mem hi)
      have hv : tlv_verify_crc32 stale buf
          = (GET_TLV_LEN buf >>= fun len =>
              tlv_calc_crc32 buf (len + sizeof_tlv_hdr - 4) >>= fun crc_calc =>
              tlv_find buf TLV_CODE_CRC_32 (some 4) false >>= fun r =>
              if r.ret = 0 then pure false
              else pure (bswap32 (crc_val_of stale (r.output.getD [])) == crc_calc)) := rfl
      refine ⟨by omega, hq, hqt, hql, hbs, ?_⟩
      rw [hv, hT, ok_bind]
      simp only [sizeof_tlv_hdr]
      rw [hcrc, ok_bind, tlv_find_null_offset_out, hfind, ok_bind, ok_bind]
      simp only [Option.getD_some]
      rw [hbs]
      simp only [crc_val_of, pure_eq_ok, List.getD_cons_zero, List.getD_cons_succ]
      rw [bswap32_load _ _ _ _ (e0 _ (by omega)) (e0 _ (by omega)) (e0 _ (by omega))
        (e0 _ (by omega))]
      generalize buf.getD (p + 2) 0 * 2 ^ 24 + buf.getD (p + 3) 0 * 2 ^ 16
        + buf.getD (p + 4) 0 * 2 ^ 8 + buf.getD (p + 5) 0 = x
      by_cases hx : x = crc <;> simp [hx]

/-- Four stored bytes overwrite all of `crc_val`. -/
theorem crc_val_of_full (stale : Nat) {bytes : List Nat} (h : 4 ≤ bytes.length) :
    crc_val_of stale bytes = crc_val_of 0 bytes := by
  unfold crc_val_of
  simp only [List.getD_eq_getElem?_getD]
  rw [List.getElem?_eq_getElem (by omega : 0 < bytes.length),
    List.getElem?_eq_getElem (by omega : 1 < bytes.length),
    List.getElem?_eq_getElem (by omega : 2 < bytes.length),
    List.getElem?_eq_getElem (by omega : 3 < bytes.length)]
  rfl

/-- The value that the uninitialised `crc_val` held matters only when `tlv_find` stored fewer
than 4 bytes into it. -/
theorem tlv_verify_crc32_stale (stale : Nat) (buf : List Nat)
    (h : (match tlv_find buf TLV_CODE_CRC_32 (some 4) false with
          | Except.ok r => decide (r.ret = 0 ∨ 4 ≤ (r.output.getD []).length)
          | Except.error _ => true) = true) :
    tlv_verify_crc32 stale buf = tlv_verify_crc32 0 buf := by
  have hv : ∀ s, tlv_verify_crc32 s buf
      = (GET_TLV_LEN buf >>= fun len =>
          tlv_calc_crc32 buf (len + sizeof_tlv_hdr - 4) >>= fun crc_calc =>
          tlv_find buf TLV_CODE_CRC_32 (some 4) false >>= fun r =>
          if r.ret = 0 then pure false
          else pure (bswap32 (crc_val_of s (r.output.getD [])) == crc_calc)) := fun _ => rfl
  rw [hv stale, hv 0]
  cases hT : GET_TLV_LEN buf with
  | error e => rw [error_bind, error_bind]
  | ok T =>
    rw [ok_bind, ok_bind]
    cases hc : tlv_calc_crc32 buf (T + sizeof_tlv_hdr - 4) with
    | error e => rw [error_bind, error_bind]
    | ok crc =>
      rw [ok_bind, ok_bind]
      cases hf : tlv_find buf TLV_CODE_CRC_32 (some 4) false with
      | error e => rw [error_bind, error_bind]
      | ok r =>
        rw [hf] at h
        rw [ok_bind, ok_bind]
        by_cases h0 : r.ret = 0
        · rw [if_pos h0, if_pos h0]
        · rw [if_neg h0, if_neg h0]
          have h4 : 4 ≤ (r.output.getD []).length := by
            rcases of_decide_eq_true h with h1 | h1
            · exact absurd h1 h0
            · exact h1
          rw [crc_val_of_full stale h4]

/-- C4: for every 256-byte buffer with a valid header (declared length `T`) in which
`tlv_find` locates a CRC field (type `0xFE`) with length 4 at offset `p`, `tlv_verify_crc32`
returns a boolean, and it returns true if and only if `tlv_calc_crc32` over the first
`11 + T - 4` bytes equals the big-endian 32-bit integer formed from `buf[p+2..p+5]`; this
holds whatever value `stale` the uninitialised `crc_val` held. -/
theorem tlv_verify_crc32_iff_crc_matches (stale : Nat) (buf out : List Nat) (T p : Nat)
    (hsize : buf.length = 256) (hbytes : ∀ b ∈ buf, b < 256)
    (hvalid : is_valid_tlvhdr buf = Except.ok true)
    (hT : GET_TLV_LEN buf = Except.ok T)
    (hfind : tlv_find buf TLV_CODE_CRC_32 (some 4) true = Except.ok ⟨4, some out, some p⟩) :
    (tlv_verify_crc32 stale buf = Except.ok true ∨ tlv_verify_crc32 stale buf = Except.ok false)
    ∧ (tlv_verify_crc32 stale buf = Except.ok true ↔
        tlv_calc_crc32 buf (11 + T - 4)
          = Except.ok (buf.getD (p + 2) 0 * 2 ^ 24 + buf.getD (p + 3) 0 * 2 ^ 16
              + buf.getD (p + 4) 0 * 2 ^ 8 + buf.getD (p + 5) 0)) := by
  have hle := valid_len_le hvalid hT
  have hcrc := tlv_calc_crc32_take buf (T + 11 - 4) (by omega) (by omega)
  have h := (tlv_verify_crc32_of_find stale hbytes hT hle hcrc hfind).2.2.2.2.2
  rw [show 11 + T - 4 = T + 11 - 4 by omega, hcrc, h]
  generalize buf.getD (p + 2) 0 * 2 ^ 24 + buf.getD (p + 3) 0 * 2 ^ 16
    + buf.getD (p + 4) 0 * 2 ^ 8 + buf.getD (p + 5) 0 = x
  generalize crc32_ref (List.take (T + 11 - 4) buf) = y
  by_cases hx : x = y
  · simp [hx]
  · have hx2 : ¬ y = x := fun h => hx h.symm
    simp [hx, hx2]

set_option maxRecDepth 100000 in
/-- Witness for `tlv_verify_crc32_iff_crc_matches` on `sample_record` (CRC field at 17). -/
theorem tlv_verify_crc32_iff_crc_matches_witness :
    tlv_verify_crc32 0 sample_record = Except.ok true ↔
      tlv_calc_crc32 sample_record (11 + 12 - 4)
        = Except.ok (sample_record.getD (17 + 2) 0 * 2 ^ 24
            + sample_record.getD (17 + 3) 0 * 2 ^ 16
            + sample_record.getD (17 + 4) 0 * 2 ^ 8 + sample_record.getD (17 + 5) 0) :=
  (tlv_verify_crc32_iff_crc_matches 0 sample_record [0x27, 0x32, 0xD7, 0xC2] 12 17
    (by decide) (by decide) (by decide) (by decide) (by decide)).2

/-! ### Enumeration -/

theorem print_general_loop_ok (buf : List Nat) (ptr : Nat) (n : Nat) : ∀ (i : Nat),
    ptr + i + n ≤ buf.length → ∃ s, print_general_loop buf ptr n i = Except.ok s := by
  induction n with
  | zero => intro i _; exact ⟨[], rfl⟩
  | succ n ih =>
    intro i h
    obtain ⟨s, hs⟩ := ih (i + 1) (by omega)
    have hr := @rd_eq_ok buf (ptr + i) (by omega)
    have e : print_general_loop buf ptr (n + 1) i
        = Except.ok (fmt_02x buf[ptr + i] ++ (if i ≠ 5 then " ".toList else []) ++ s) := by
      simp only [print_general_loop, hr, hs, ok_bind, pure_eq_ok]
    exact ⟨_, e⟩

theorem print_string_loop_ok (buf : List Nat) (n : Nat) : ∀ (ptr : Nat),
    ptr + n ≤ buf.length → ∃ s, print_string_loop buf ptr n = Except.ok s := by
  induction n with
  | zero => intro ptr _; exact ⟨[], rfl⟩
  | succ n ih =>
    intro ptr h
    obtain ⟨s, hs⟩ := ih (ptr + 1) (by omega)
    have hr := @rd_eq_ok buf ptr (by omega)
    have e : print_string_loop buf ptr (n + 1) = Except.ok (fmt_c buf[ptr] :: s) := by
      simp only [print_string_loop, hr, hs, ok_bind, pure_eq_ok]
    exact ⟨_, e⟩

theorem print_mac_loop_ok (buf : List Nat) (ptr : Nat) (n : Nat) : ∀ (i : Nat),
    ptr + i + n ≤ buf.length → ∃ s, print_mac_loop buf ptr n i = Except.ok s := by
  induction n with
  | zero => intro i _; exact ⟨[], rfl⟩
  | succ n ih =>
    intro i h
    obtain ⟨s, hs⟩ := ih (i + 1) (by omega)
    have hr := @rd_eq_ok buf (ptr + i) (by omega)
    have e : print_mac_loop buf ptr (n + 1) i
        = Except.ok (fmt_02x buf[ptr + i] ++ (if i ≠ 5 then ":".toList else []) ++ s) := by
      simp only [print_mac_loop, hr, hs, ok_bind, pure_eq_ok]
    exact ⟨_, e⟩

/-- Printing a field whose type, length and value bytes lie inside the buffer succeeds. -/
theorem print_field_ok {buf : List Nat} {off t l : Nat} (ht : rd buf off = Except.ok t)
    (hl : rd buf (off + 1) = Except.ok l) (hin : off + 2 + l ≤ buf.length) :
    ∃ text, print_field buf off = Except.ok text := by
  obtain ⟨sg, hg⟩ := print_general_loop_ok buf (off + 2) l 0 (by omega)
  obtain ⟨ss, hs⟩ := print_string_loop_ok buf l (off + 2) (by omega)
  have hgen : print_general buf off = Except.ok (sg ++ "\n".toList) := by
    simp only [print_general, hl, hg, ok_bind, pure_eq_ok]
  have hstr : print_string buf off = Except.ok (ss ++ "\n".toList) := by
    simp only [print_string, hl, hs, ok_bind, pure_eq_ok]
  have hmac : ∃ sm, print_mac buf off = Except.ok sm := by
    by_cases h6 : l = 6
    · obtain ⟨sm, hm⟩ := print_mac_loop_ok buf (off + 2) 6 0 (by omega)
      have e : print_mac buf off = Except.ok (sm ++ "\n".toList) := by
        simp only [print_mac, hl, ok_bind, h6, ne_eq, not_true_eq_false, if_false, hm,
          pure_eq_ok]
      exact ⟨_, e⟩
    · have e : print_mac buf off = Except.ok ("Invalid MAC address, expected ".toList
          ++ fmt_u 6 ++ " bytes, received ".toList ++ fmt_u l ++ "\n".toList) := by
        simp only [print_mac, hl, ok_bind, ne_eq, h6, not_false_eq_true, if_true, pure_eq_ok]
      exact ⟨_, e⟩
  obtain ⟨sm, hm⟩ := hmac
  simp only [print_field, ht, ok_bind, hgen, hstr, hm]
  split
  · exact ⟨_, rfl⟩
  · split
    · exact ⟨_, rfl⟩
    · exact ⟨_, rfl⟩

theorem print_eeprom_loop_last {buf : List Nat} {off t l : Nat} (tot fuel : Nat)
    (ht : rd buf off = Except.ok t) (hl : rd buf (off + 1) = Except.ok l)
    (hin : off + 2 + l ≤ buf.length) (hend : tot ≤ (off + (2 + l)) % 65536) :
    ∃ text, print_eeprom_loop buf tot (fuel + 1) off = Except.ok [(⟨off, t, l⟩, text)] := by
  obtain ⟨text, hp⟩ := print_field_ok ht hl hin
  refine ⟨text, ?_⟩
  simp only [print_eeprom_loop, hp, ht, hl, ok_bind, pure_eq_ok]
  rw [if_pos hend]

theorem print_eeprom_loop_next {buf : List Nat} {off t l : Nat} (tot fuel : Nat)
    (ht : rd buf off = Except.ok t) (hl : rd buf (off + 1) = Except.ok l)
    (hin : off + 2 + l ≤ buf.length) (hlt : (off + (2 + l)) % 65536 < tot) :
    ∃ text, print_eeprom_loop buf tot (fuel + 1) off
      = (print_eeprom_loop buf tot fuel ((off + (2 + l)) % 65536) >>= fun rest =>
          Except.ok ((⟨off, t, l⟩, text) :: rest)) := by
  obtain ⟨text, hp⟩ := print_field_ok ht hl hin
  refine ⟨text, ?_⟩
  simp only [print_eeprom_loop, hp, ht, hl, ok_bind, pure_eq_ok]
  rw [if_neg (by omega)]

/-- The enumeration loop over a packed run of fields that ends exactly at `tot_len`: it visits
every field of the run, in order, and stops. -/
theorem print_eeprom_loop_layout (tot : Nat) (fs : List (Nat × List Nat)) :
    ∀ (pre rest : List Nat) (fuel : Nat), fs ≠ [] →
      pre.length + (fields_bytes fs).length = tot → tot < 65536 →
      ∃ rows, print_eeprom_loop (pre ++ fields_bytes fs ++ rest) tot (fuel + fs.length)
          pre.length = Except.ok rows
        ∧ rows.map Prod.fst = fields_layout pre.length fs := by
  induction fs with
  | nil => intro pre rest fuel h; exact absurd rfl h
  | cons f fs ih =>
    intro pre rest fuel _ htot hlt
    have hfb : (fields_bytes (f :: fs)).length = 2 + f.2.length + (fields_bytes fs).length := by
      simp [fields_bytes, field_bytes]; omega
    have hbuf : pre ++ fields_bytes (f :: fs) ++ rest
        = pre ++ field_bytes f.1 f.2 ++ (fields_bytes fs ++ rest) := by
      simp [fields_bytes]
    have hbuf2 : pre ++ fields_bytes (f :: fs) ++ rest
        = (pre ++ field_bytes f.1 f.2) ++ fields_bytes fs ++ rest := by
      simp [fields_bytes]
    have hmod : (pre.length + (2 + f.2.length)) % 65536 = pre.length + (2 + f.2.length) :=
      Nat.mod_eq_of_lt (by omega)
    have ht := rd_field_type pre (fields_bytes fs ++ rest) f.2 f.1 pre.length rfl
    have hl := rd_field_len pre (fields_bytes fs ++ rest) f.2 f.1 pre.length rfl
    rw [← hbuf] at ht hl
    have hin : pre.length + 2 + f.2.length ≤ (pre ++ fields_bytes (f :: fs) ++ rest).length := by
      simp only [List.length_append, hfb]; omega
    by_cases hfs : fs = []
    · subst hfs
      have h0 : (fields_bytes ([] : List (Nat × List Nat))).length = 0 := rfl
      obtain ⟨text, hp⟩ := print_eeprom_loop_last tot (fuel + 0) ht hl hin
        (by rw [hmod]; omega)
      exact ⟨_, hp, by simp [fields_layout]⟩
    · have hge := fields_bytes_length_ge fs
      have hpos : 0 < fs.length := List.length_pos.mpr hfs
      obtain ⟨text, hp⟩ := print_eeprom_loop_next tot (fuel + fs.length) ht hl hin
        (by rw [hmod]; omega)
      obtain ⟨rows, hrows, hmap⟩ := ih (pre ++ field_bytes f.1 f.2) rest fuel hfs
        (by simp only [List.length_append, field_bytes_length]; omega) hlt
      rw [← hbuf2] at hrows
      simp only [List.length_append, field_bytes_length] at hrows hmap
      rw [hmod, hrows, ok_bind] at hp
      refine ⟨(⟨pre.length, f.1, f.2.length⟩, text) :: rows, ?_, ?_⟩
      · rw [List.length_cons, ← Nat.add_assoc]
        exact hp
      · simp only [List.map_cons, fields_layout, hmap]

/-- The value span of every field of a packed run holds that field's value bytes. -/
theorem fields_layout_val (fs : List (Nat × List Nat)) : ∀ (pre rest : List Nat),
    (fields_layout pre.length fs).map (tlv_field.val (pre ++ fields_bytes fs ++ rest))
      = fs.map Prod.snd := by
  induction fs with
  | nil => intro pre rest; rfl
  | cons f fs ih =>
    intro pre rest
    have hbuf2 : pre ++ fields_bytes (f :: fs) ++ rest
        = (pre ++ field_bytes f.1 f.2) ++ fields_bytes fs ++ rest := by
      simp [fields_bytes]
    have hbuf3 : pre ++ fields_bytes (f :: fs) ++ rest
        = (pre ++ [f.1, f.2.length]) ++ (f.2 ++ (fields_bytes fs ++ rest)) := by
      simp [fields_bytes, field_bytes]
    have h1 := ih (pre ++ field_bytes f.1 f.2) rest
    rw [← hbuf2] at h1
    simp only [List.length_append, field_bytes_length] at h1
    simp only [fields_layout, List.map_cons, h1]
    congr 1
    simp only [tlv_field.val]
    rw [hbuf3, List.drop_left' (by simp), List.take_left' rfl]

theorem print_eeprom_fields_unfold (buf : List Nat) {T : Nat}
    (hT : GET_TLV_LEN buf = Except.ok T) (hle : T ≤ 245) :
    print_eeprom_fields buf
      = (print_eeprom_loop buf (T + 11) 65536 11 >>= fun rows =>
          Except.ok (rows.map Prod.fst)) := by
  have h1 : print_eeprom_rows buf
      = (GET_TLV_LEN buf >>= fun len =>
          print_eeprom_loop buf ((len + 11) % 65536) 65536 11) := rfl
  have h2 : (T + 11) % 65536 = T + 11 := Nat.mod_eq_of_lt (by omega)
  have h3 : print_eeprom_fields buf
      = (print_eeprom_rows buf >>= fun rows => Except.ok (rows.map Prod.fst)) := rfl
  rw [h3, h1, hT, ok_bind, h2]

/-! ### Round trip of a well-formed record -/

theorem fields_bytes_append (a b : List (Nat × List Nat)) :
    fields_bytes (a ++ b) = fields_bytes a ++ fields_bytes b := by
  induction a with
  | nil => rfl
  | cons f a ih => simp [fields_bytes, ih]

theorem fields_bytes_lt (fs : List (Nat × List Nat))
    (hfs : ∀ f ∈ fs, f.1 < 256 ∧ f.2.length < 256 ∧ ∀ b ∈ f.2, b < 256) :
    ∀ b ∈ fields_bytes fs, b < 256 := by
  induction fs with
  | nil => intro b hb; simp [fields_bytes] at hb
  | cons f fs ih =>
    intro b hb
    obtain ⟨h1, h2, h3⟩ := hfs f (by simp)
    simp only [fields_bytes, field_bytes, List.mem_append, List.mem_cons] at hb
    rcases hb with (hb | hb | hb) | hb
    · omega
    · omega
    · exact h3 b hb
    · exact ih (fun g hg => hfs g (by simp [hg])) b hb

theorem field_length_le (fs : List (Nat × List Nat)) :
    ∀ f ∈ fs, f.2.length + 2 ≤ (fields_bytes fs).length := by
  induction fs with
  | nil => intro f hf; simp at hf
  | cons g fs ih =>
    intro f hf
    simp only [fields_bytes, field_bytes, List.length_append, List.length_cons]
    rcases List.mem_cons.mp hf with h | h
    · subst h; omega
    · have := ih f h; omega

theorem be32_length (x : Nat) : (be32 x).length = 4 := rfl

theorem record_front_length (ver : Nat) (fs : List (Nat × List Nat)) :
    (record_front ver fs).length = (fields_bytes fs).length + 13 := by
  simp [record_front, sig8, be16]

theorem record_bytes_length (ver : Nat) (fs : List (Nat × List Nat))
    (hT : (fields_bytes fs).length + 6 ≤ 245) : (record_bytes ver fs).length = 256 := by
  simp only [record_bytes, List.length_append, record_front_length, be32_length,
    List.length_replicate]
  omega

theorem record_bytes_lt (ver : Nat) (fs : List (Nat × List Nat)) (hver : ver < 256)
    (hfs : ∀ f ∈ fs, f.1 < 256 ∧ f.1 ≠ TLV_CODE_CRC_32 ∧ ∀ b ∈ f.2, b < 256)
    (hT : (fields_bytes fs).length + 6 ≤ 245) :
    ∀ b ∈ record_bytes ver fs, b < 256 := by
  have hfb := fields_bytes_lt fs (fun f hf => by
    have := field_length_le fs f hf
    exact ⟨(hfs f hf).1, by omega, (hfs f hf).2.2⟩)
  intro b hb
  simp only [record_bytes, record_front, sig8, be16, be32, TLV_CODE_CRC_32, List.mem_append,
    List.mem_cons, List.mem_singleton, List.mem_replicate, List.not_mem_nil, or_false] at hb
  rcases hb with (((((hb | hb) | hb) | hb) | hb) | hb) | hb
  · omega
  · omega
  · omega
  · exact hfb b hb
  · omega
  · omega
  · omega

/-- The record seen as header, packed fields (the CRC field last) and padding. -/
theorem record_bytes_layout (ver : Nat) (fs : List (Nat × List Nat)) :
    record_bytes ver fs
      = (sig8 ++ [ver] ++ be16 ((fields_bytes fs).length + 6))
        ++ fields_bytes (fs ++ [(TLV_CODE_CRC_32, be32 (crc32_ref (record_front ver fs)))])
        ++ List.replicate (256 - ((record_front ver fs).length + 4)) 0 := by
  simp [record_bytes, record_front, fields_bytes_append, fields_bytes, field_bytes,
    be32_length]

/-- The record seen as header, the fields before the CRC field, the CRC field and padding. -/
theorem record_bytes_layout_crc (ver : Nat) (fs : List (Nat × List Nat)) :
    record_bytes ver fs
      = (sig8 ++ [ver] ++ be16 ((fields_bytes fs).length + 6)) ++ fields_bytes fs
        ++ field_bytes TLV_CODE_CRC_32 (be32 (crc32_ref (record_front ver fs)))
        ++ List.replicate (256 - ((record_front ver fs).length + 4)) 0 := by
  simp [record_bytes, record_front, field_bytes, be32_length]

theorem record_hdr_length (ver T : Nat) : (sig8 ++ [ver] ++ be16 T).length = 11 := rfl

theorem record_bytes_take (ver : Nat) (fs : List (Nat × List Nat)) :
    (record_bytes ver fs).take ((fields_bytes fs).length + 6 + 11 - 4) = record_front ver fs := by
  rw [record_bytes, List.append_assoc]
  exact List.take_left' (by rw [record_front_length]; omega)

theorem record_bytes_valid (ver : Nat) (fs : List (Nat × List Nat)) (hver : ver < 256)
    (hfs : ∀ f ∈ fs, f.1 < 256 ∧ f.1 ≠ TLV_CODE_CRC_32 ∧ ∀ b ∈ f.2, b < 256)
    (hT : (fields_bytes fs).length + 6 ≤ 245) :
    is_valid_tlvhdr (record_bytes ver fs) = Except.ok true
    ∧ GET_TLV_LEN (record_bytes ver fs) = Except.ok ((fields_bytes fs).length + 6) := by
  have hlen := record_bytes_length ver fs hT
  have hlt := record_bytes_lt ver fs hver hfs hT
  have h8 : (record_bytes ver fs).take 8 = sig8 := by
    rw [record_bytes, record_front]
    simp only [List.append_assoc]
    exact List.take_left' rfl
  have h9 : (record_bytes ver fs).getD 9 0 = 0 := by
    simp only [record_bytes, record_front, sig8, be16, List.cons_append, List.nil_append,
      List.getD_cons_succ, List.getD_cons_zero]
    omega
  have h10 : (record_bytes ver fs).getD 10 0 = (fields_bytes fs).length + 6 := by
    simp only [record_bytes, record_front, sig8, be16, List.cons_append, List.nil_append,
      List.getD_cons_succ, List.getD_cons_zero]
    omega
  constructor
  · rw [is_valid_tlvhdr_eq _ (by omega) hlt, h8, h9, h10]
    have : sig8 = sig8 ∧ 0 * 256 + ((fields_bytes fs).length + 6) ≤ 245 := ⟨rfl, by omega⟩
    rw [decide_eq_true this]
  · rw [GET_TLV_LEN_eq _ (by omega) hlt, h9, h10]
    simp

theorem be32_value (x : Nat) (hx : x < 2 ^ 32) :
    x / 2 ^ 24 % 256 * 2 ^ 24 + x / 2 ^ 16 % 256 * 2 ^ 16 + x / 2 ^ 8 % 256 * 2 ^ 8 + x % 256
      = x := by
  norm_num at hx ⊢
  omega

theorem crc32_ref_lt (bytes : List Nat) : crc32_ref bytes < 2 ^ 32 := by
  unfold crc32_ref
  norm_num
  omega

/-- The lookup of the CRC field in a well-formed record. -/
theorem record_bytes_find (ver : Nat) (fs : List (Nat × List Nat)) (hver : ver < 256)
    (hfs : ∀ f ∈ fs, f.1 < 256 ∧ f.1 ≠ TLV_CODE_CRC_32 ∧ ∀ b ∈ f.2, b < 256)
    (hT : (fields_bytes fs).length + 6 ≤ 245) :
    tlv_find (record_bytes ver fs) TLV_CODE_CRC_32 (some 4) true
      = Except.ok ⟨4, some (be32 (crc32_ref (record_front ver fs))),
          some (11 + (fields_bytes fs).length)⟩ := by
  obtain ⟨hvalid, hlenT⟩ := record_bytes_valid ver fs hver hfs hT
  have hfind := tlv_find_layout (record_bytes ver fs)
    (sig8 ++ [ver] ++ be16 ((fields_bytes fs).length + 6))
    (List.replicate (256 - ((record_front ver fs).length + 4)) 0)
    (be32 (crc32_ref (record_front ver fs))) fs TLV_CODE_CRC_32 4
    ((fields_bytes fs).length + 6) hlenT hT (record_bytes_layout_crc ver fs)
    (record_hdr_length _ _) (fun f hf => ⟨(hfs f hf).2.1, (hfs f hf).2.1⟩) (by omega)
    (by simp [be32_length])
  rw [be32_length] at hfind
  exact hfind

theorem record_bytes_crc (ver : Nat) (fs : List (Nat × List Nat))
    (hT : (fields_bytes fs).length + 6 ≤ 245) :
    tlv_calc_crc32 (record_bytes ver fs) ((fields_bytes fs).length + 6 + 11 - 4)
      = Except.ok (crc32_ref (record_front ver fs)) := by
  have hlen := record_bytes_length ver fs hT
  have hcrc := tlv_calc_crc32_take (record_bytes ver fs) ((fields_bytes fs).length + 6 + 11 - 4)
    (by omega) (by omega)
  rw [record_bytes_take] at hcrc
  exact hcrc

/-- The four bytes after the CRC field's type and length bytes hold the CRC of the prefix. -/
theorem record_bytes_stored (stale : Nat) (ver : Nat) (fs : List (Nat × List Nat)) (hver : ver < 256)
    (hfs : ∀ f ∈ fs, f.1 < 256 ∧ f.1 ≠ TLV_CODE_CRC_32 ∧ ∀ b ∈ f.2, b < 256)
    (hT : (fields_bytes fs).length + 6 ≤ 245) :
    (record_bytes ver fs).getD (11 + (fields_bytes fs).length + 2) 0 * 2 ^ 24
      + (record_bytes ver fs).getD (11 + (fields_bytes fs).length + 3) 0 * 2 ^ 16
      + (record_bytes ver fs).getD (11 + (fields_bytes fs).length + 4) 0 * 2 ^ 8
      + (record_bytes ver fs).getD (11 + (fields_bytes fs).length + 5) 0
      = crc32_ref (record_front ver fs)
    ∧ tlv_verify_crc32 stale (record_bytes ver fs) = Except.ok true := by
  have hlt := record_bytes_lt ver fs hver hfs hT
  obtain ⟨hvalid, hlenT⟩ := record_bytes_valid ver fs hver hfs hT
  obtain ⟨_, _, _, _, hout, hv⟩ := tlv_verify_crc32_of_find stale hlt hlenT (by omega)
    (record_bytes_crc ver fs hT) (record_bytes_find ver fs hver hfs hT)
  simp only [be32, List.cons.injEq, and_true] at hout
  obtain ⟨h2, h3, h4, h5⟩ := hout
  have hval : (record_bytes ver fs).getD (11 + (fields_bytes fs).length + 2) 0 * 2 ^ 24
      + (record_bytes ver fs).getD (11 + (fields_bytes fs).length + 3) 0 * 2 ^ 16
      + (record_bytes ver fs).getD (11 + (fields_bytes fs).length + 4) 0 * 2 ^ 8
      + (record_bytes ver fs).getD (11 + (fields_bytes fs).length + 5) 0
      = crc32_ref (record_front ver fs) := by
    rw [← h2, ← h3, ← h4, ← h5, be32_value _ (crc32_ref_lt _)]
  refine ⟨hval, ?_⟩
  rw [hv, decide_eq_true hval]

/-- The enumeration of a well-formed record. -/
theorem record_bytes_enumerate (ver : Nat) (fs : List (Nat × List Nat)) (hver : ver < 256)
    (hfs : ∀ f ∈ fs, f.1 < 256 ∧ f.1 ≠ TLV_CODE_CRC_32 ∧ ∀ b ∈ f.2, b < 256)
    (hT : (fields_bytes fs).length + 6 ≤ 245) :
    print_eeprom_fields (record_bytes ver fs)
        = Except.ok (fields_layout 11
            (fs ++ [(TLV_CODE_CRC_32, be32 (crc32_ref (record_front ver fs)))])) := by
  obtain ⟨hvalid, hlenT⟩ := record_bytes_valid ver fs hver hfs hT
  rw [print_eeprom_fields_unfold _ hlenT (by omega)]
  obtain ⟨rows, hrows, hmap⟩ := print_eeprom_loop_layout ((fields_bytes fs).length + 6 + 11)
    (fs ++ [(TLV_CODE_CRC_32, be32 (crc32_ref (record_front ver fs)))])
    (sig8 ++ [ver] ++ be16 ((fields_bytes fs).length + 6))
    (List.replicate (256 - ((record_front ver fs).length + 4)) 0)
    (65536 - (fs.length + 1)) (by simp)
    (by simp [fields_bytes_append, fields_bytes, field_bytes, sig8, be16, be32]; omega)
    (by omega)
  have hge := fields_bytes_length_ge fs
  rw [← record_bytes_layout, record_hdr_length] at hrows
  rw [record_hdr_length] at hmap
  have hfuel : 65536 - (fs.length + 1)
      + (fs ++ [(TLV_CODE_CRC_32, be32 (crc32_ref (record_front ver fs)))]).length
      = 65536 := by
    simp only [List.length_append, List.length_singleton]
    omega
  rw [hfuel] at hrows
  rw [hrows, ok_bind, hmap]

/-- C5 (round trip): for every version byte and every list of fields `fs` of byte values
whose types are not `0xFE` and for which `T = sum (2 + len_i) + 6 <= 245`, the buffer
`record_bytes ver fs` (signature, version, big-endian `T`, the packed fields, `0xFE, 4`, the
big-endian CRC-32 of all preceding bytes, zero padding) has 256 bytes, is accepted by
`is_valid_tlvhdr`, makes `tlv_verify_crc32` return true (whatever value `stale` the
uninitialised `crc_val` held), and is enumerated by the
`print_eeprom` walk as exactly the fields of `fs` followed by the CRC field, in order, each
with its type and length byte, the value span of each holding the original value bytes. -/
theorem record_round_trip (stale : Nat) (ver : Nat) (fs : List (Nat × List Nat))
    (hver : ver < 256)
    (hfs : ∀ f ∈ fs, f.1 < 256 ∧ f.1 ≠ TLV_CODE_CRC_32 ∧ ∀ b ∈ f.2, b < 256)
    (hT : (fields_bytes fs).length + 6 ≤ 245) :
    (record_bytes ver fs).length = 256
    ∧ is_valid_tlvhdr (record_bytes ver fs) = Except.ok true
    ∧ tlv_verify_crc32 stale (record_bytes ver fs) = Except.ok true
    ∧ print_eeprom_fields (record_bytes ver fs)
        = Except.ok (fields_layout 11
            (fs ++ [(TLV_CODE_CRC_32, be32 (crc32_ref (record_front ver fs)))]))
    ∧ (fields_layout 11 (fs ++ [(TLV_CODE_CRC_32, be32 (crc32_ref (record_front ver fs)))])).map
          (tlv_field.val (record_bytes ver fs))
        = (fs ++ [(TLV_CODE_CRC_32, be32 (crc32_ref (record_front ver fs)))]).map Prod.snd := by
  refine ⟨record_bytes_length ver fs hT, (record_bytes_valid ver fs hver hfs hT).1,
    (record_bytes_stored stale ver fs hver hfs hT).2, record_bytes_enumerate ver fs hver hfs hT, ?_⟩
  have := fields_layout_val
    (fs ++ [(TLV_CODE_CRC_32, be32 (crc32_ref (record_front ver fs)))])
    (sig8 ++ [ver] ++ be16 ((fields_bytes fs).length + 6))
    (List.replicate (256 - ((record_front ver fs).length + 4)) 0)
  rw [← record_bytes_layout, record_hdr_length] at this
  exact this

set_option maxRecDepth 100000 in
/-- Witness for `record_round_trip`: version 1 and the single field `{0x21, 4, "ABCD"}`. -/
theorem record_round_trip_witness :
    tlv_verify_crc32 0 (record_bytes 1 [(0x21, [0x41, 0x42, 0x43, 0x44])]) = Except.ok true
    ∧ print_eeprom_fields (record_bytes 1 [(0x21, [0x41, 0x42, 0x43, 0x44])])
        = Except.ok [⟨11, 0x21, 4⟩, ⟨17, 0xFE, 4⟩] :=
  ⟨(record_round_trip 0 1 [(0x21, [0x41, 0x42, 0x43, 0x44])] (by decide) (by decide)
      (by decide)).2.2.1,
   (record_round_trip 0 1 [(0x21, [0x41, 0x42, 0x43, 0x44])] (by decide) (by decide)
      (by decide)).2.2.2.1⟩

/-! ### The CRC-32 state update is injective -/

theorem crc32_ref_step_lt {c : Nat} (h : c < 2 ^ 32) : crc32_ref_step c < 2 ^ 32 := by
  unfold crc32_ref_step
  split
  · exact Nat.xor_lt_two_pow (by omega) (by norm_num)
  · omega

theorem xor_poly_ge {x : Nat} (h : x < 2 ^ 31) : 2 ^ 31 ≤ x ^^^ 0xEDB88320 := by
  apply Nat.testBit_implies_ge
  rw [Nat.testBit_xor, Nat.testBit_lt_two_pow h]
  decide

theorem crc32_ref_step_inj {c d : Nat} (hc : c < 2 ^ 32) (hd : d < 2 ^ 32)
    (h : crc32_ref_step c = crc32_ref_step d) : c = d := by
  unfold crc32_ref_step at h
  have hc2 : c / 2 < 2 ^ 31 := by omega
  have hd2 : d / 2 < 2 ^ 31 := by omega
  have hcp := xor_poly_ge hc2
  have hdp := xor_poly_ge hd2
  by_cases h1 : c % 2 = 1 <;> by_cases h2 : d % 2 = 1
  · rw [if_pos h1, if_pos h2] at h
    have := Nat.xor_left_inj.mp h
    omega
  · rw [if_pos h1, if_neg h2] at h
    omega
  · rw [if_neg h1, if_pos h2] at h
    omega
  · rw [if_neg h1, if_neg h2] at h
    omega

theorem crc32_ref_step_iter_lt (n : Nat) : ∀ {c : Nat}, c < 2 ^ 32 →
    crc32_ref_step^[n] c < 2 ^ 32 := by
  induction n with
  | zero => intro c h; exact h
  | succ n ih => intro c h; rw [Function.iterate_succ_apply]; exact ih (crc32_ref_step_lt h)

theorem crc32_ref_step_iter_inj (n : Nat) : ∀ {c d : Nat}, c < 2 ^ 32 → d < 2 ^ 32 →
    crc32_ref_step^[n] c = crc32_ref_step^[n] d → c = d := by
  induction n with
  | zero => intro c d _ _ h; exact h
  | succ n ih =>
    intro c d hc hd h
    rw [Function.iterate_succ_apply, Function.iterate_succ_apply] at h
    exact crc32_ref_step_inj hc hd (ih (crc32_ref_step_lt hc) (crc32_ref_step_lt hd) h)

theorem crc32_ref_byte_lt {c b : Nat} (hc : c < 2 ^ 32) (hb : b < 256) :
    crc32_ref_byte c b < 2 ^ 32 :=
  crc32_ref_step_iter_lt 8 (Nat.xor_lt_two_pow hc (by omega))

/-- Two different states stay different after the same byte. -/
theorem crc32_ref_byte_inj_state {c d b : Nat} (hc : c < 2 ^ 32) (hd : d < 2 ^ 32)
    (hb : b < 256) (h : crc32_ref_byte c b = crc32_ref_byte d b) : c = d := by
  have hb2 : b < 2 ^ 32 := by omega
  have := crc32_ref_step_iter_inj 8 (Nat.xor_lt_two_pow hc hb2) (Nat.xor_lt_two_pow hd hb2) h
  exact Nat.xor_left_inj.mp this

/-- Two different bytes lead one state to different states. -/
theorem crc32_ref_byte_inj_byte {c a b : Nat} (hc : c < 2 ^ 32) (ha : a < 256) (hb : b < 256)
    (h : crc32_ref_byte c a = crc32_ref_byte c b) : a = b := by
  have ha2 : a < 2 ^ 32 := by omega
  have hb2 : b < 2 ^ 32 := by omega
  have := crc32_ref_step_iter_inj 8 (Nat.xor_lt_two_pow hc ha2) (Nat.xor_lt_two_pow hc hb2) h
  exact Nat.xor_right_inj.mp this

theorem crc32_ref_foldl_lt (l : List Nat) : ∀ {c : Nat}, c < 2 ^ 32 → (∀ b ∈ l, b < 256) →
    l.foldl crc32_ref_byte c < 2 ^ 32 := by
  induction l with
  | nil => intro c hc _; exact hc
  | cons x l ih =>
    intro c hc hl
    rw [List.foldl_cons]
    exact ih (crc32_ref_byte_lt hc (hl x (by simp))) (fun b hb => hl b (by simp [hb]))

theorem crc32_ref_foldl_inj (l : List Nat) : ∀ {c d : Nat}, c < 2 ^ 32 → d < 2 ^ 32 →
    (∀ b ∈ l, b < 256) → l.foldl crc32_ref_byte c = l.foldl crc32_ref_byte d → c = d := by
  induction l with
  | nil => intro c d _ _ _ h; exact h
  | cons x l ih =>
    intro c d hc hd hl h
    rw [List.foldl_cons, List.foldl_cons] at h
    have hx := hl x (by simp)
    exact crc32_ref_byte_inj_state hc hd hx
      (ih (crc32_ref_byte_lt hc hx) (crc32_ref_byte_lt hd hx) (fun b hb => hl b (by simp [hb])) h)

/-- Changing one byte of the input changes the CRC-32. -/
theorem crc32_ref_change_byte (a z : List Nat) (x y : Nat) (ha : ∀ b ∈ a, b < 256)
    (hz : ∀ b ∈ z, b < 256) (hx : x < 256) (hy : y < 256) (hxy : x ≠ y) :
    crc32_ref (a ++ x :: z) ≠ crc32_ref (a ++ y :: z) := by
  intro h
  unfold crc32_ref at h
  simp only [List.foldl_append, List.foldl_cons] at h
  have hs : a.foldl crc32_ref_byte 0xFFFFFFFF < 2 ^ 32 := crc32_ref_foldl_lt a (by norm_num) ha
  have h1 := crc32_ref_foldl_lt z (crc32_ref_byte_lt hs hx) hz
  have h2 := crc32_ref_foldl_lt z (crc32_ref_byte_lt hs hy) hz
  have h3 : z.foldl crc32_ref_byte (crc32_ref_byte (a.foldl crc32_ref_byte 0xFFFFFFFF) x)
      = z.foldl crc32_ref_byte (crc32_ref_byte (a.foldl crc32_ref_byte 0xFFFFFFFF) y) := by
    norm_num at h1 h2
    omega
  exact hxy (crc32_ref_byte_inj_byte hs hx hy
    (crc32_ref_foldl_inj z (crc32_ref_byte_lt hs hx) (crc32_ref_byte_lt hs hy) hz h3))

/-- Inverting one of the 8 bits of a byte gives a different byte. -/
theorem flip_byte (b k : Nat) (hb : b < 256) (hk : k < 8) :
    b ^^^ 2 ^ k < 256 ∧ b ^^^ 2 ^ k ≠ b := by
  constructor
  · have h1 : (2 : Nat) ^ k < 2 ^ 8 := Nat.pow_lt_pow_right (by norm_num) hk
    exact Nat.xor_lt_two_pow (n := 8) hb h1
  · intro h
    have h2 : b ^^^ 2 ^ k = b ^^^ 0 := by rw [h, Nat.xor_zero]
    have h3 := Nat.xor_right_inj.mp h2
    have h4 : 0 < 2 ^ k := Nat.pos_pow_of_pos k (by norm_num)
    omega

/-! ### Single-bit tampering -/

theorem flip_bit_length (buf : List Nat) (i k : Nat) : (flip_bit buf i k).length = buf.length := by
  simp [flip_bit]

theorem flip_bit_getD_ne (buf : List Nat) {i j : Nat} (k : Nat) (h : i ≠ j) :
    (flip_bit buf i k).getD j 0 = buf.getD j 0 := by
  simp only [flip_bit, List.getD_eq_getElem?_getD, List.getElem?_set_ne h]

theorem flip_bit_lt (buf : List Nat) (i k : Nat) (hb : ∀ b ∈ buf, b < 256) (hk : k < 8) :
    ∀ b ∈ flip_bit buf i k, b < 256 := by
  intro b hmem
  rcases List.mem_or_eq_of_mem_set hmem with h | h
  · exact hb b h
  · by_cases hi : i < buf.length
    · have hx : buf.getD i 0 < 256 := by
        rw [List.getD_eq_getElem?_getD, List.getElem?_eq_getElem hi]
        exact hb _ (List.getElem_mem hi)
      rw [h]
      exact (flip_byte _ k hx hk).1
    · have hx : buf.getD i 0 = 0 := by
        rw [List.getD_eq_getElem?_getD, List.getElem?_eq_none (by omega)]
        rfl
      rw [h, hx]
      exact (flip_byte 0 k (by norm_num) hk).1

/-- The flipped buffer seen as the bytes before index `i`, the changed byte, the bytes after. -/
theorem flip_bit_split (buf : List Nat) {i : Nat} (k : Nat) (hi : i < buf.length) :
    buf = buf.take i ++ buf.getD i 0 :: buf.drop (i + 1)
    ∧ flip_bit buf i k = buf.take i ++ (buf.getD i 0 ^^^ 2 ^ k) :: buf.drop (i + 1) := by
  have hx : buf.getD i 0 = buf[i] := by
    rw [List.getD_eq_getElem?_getD, List.getElem?_eq_getElem hi]
    rfl
  constructor
  · rw [hx, ← List.drop_eq_getElem_cons hi, List.take_append_drop]
  · rw [flip_bit, List.set_eq_take_append_cons_drop, if_pos hi]

theorem flip_bit_append_left (a b : List Nat) {i : Nat} (k : Nat) (hi : i < a.length) :
    flip_bit (a ++ b) i k = flip_bit a i k ++ b := by
  have h1 : (a ++ b).getD i 0 = a.getD i 0 := by
    simp only [List.getD_eq_getElem?_getD, List.getElem?_append_left hi]
  rw [flip_bit, flip_bit, h1, List.set_append_left _ _ hi]

theorem flip_bit_append_right (a b : List Nat) {i : Nat} (k : Nat) (hi : a.length ≤ i) :
    flip_bit (a ++ b) i k = a ++ flip_bit b (i - a.length) k := by
  have h1 : (a ++ b).getD i 0 = b.getD (i - a.length) 0 := by
    simp only [List.getD_eq_getElem?_getD, List.getElem?_append_right hi]
  rw [flip_bit, flip_bit, h1, List.set_append_right _ _ hi]

/-- The first `n` bytes are untouched by a flip at or after index `n`. -/
theorem flip_bit_take_of_le (buf : List Nat) {i n : Nat} (k : Nat) (h : n ≤ i) :
    (flip_bit buf i k).take n = buf.take n := by
  rw [flip_bit, List.set_take, List.set_eq_of_length_le]
  rw [List.length_take]
  omega

/-- A flip inside the first `n` bytes changes the CRC-32 of those bytes. -/
theorem crc32_ref_flip (buf : List Nat) {i n : Nat} (k : Nat) (hb : ∀ b ∈ buf, b < 256)
    (hk : k < 8) (hi : i < n) (hn : n ≤ buf.length) :
    crc32_ref ((flip_bit buf i k).take n) ≠ crc32_ref (buf.take n) := by
  have hi2 : i < (buf.take n).length := by rw [List.length_take]; omega
  have htake : (flip_bit buf i k).take n = flip_bit (buf.take n) i k := by
    have hg : (buf.take n).getD i 0 = buf.getD i 0 := by
      simp only [List.getD_eq_getElem?_getD, List.getElem?_take_of_lt hi]
    rw [flip_bit, flip_bit, List.set_take, hg]
  obtain ⟨h1, h2⟩ := flip_bit_split (buf.take n) k hi2
  have hbt : ∀ b ∈ buf.take n, b < 256 := fun b hm => hb b (List.mem_of_mem_take hm)
  have hx : (buf.take n).getD i 0 < 256 := by
    rw [List.getD_eq_getElem?_getD, List.getElem?_eq_getElem hi2]
    exact hbt _ (List.getElem_mem hi2)
  obtain ⟨hf1, hf2⟩ := flip_byte _ k hx hk
  rw [htake, h2]
  intro heq
  have := crc32_ref_change_byte ((buf.take n).take i) ((buf.take n).drop (i + 1))
    ((buf.take n).getD i 0 ^^^ 2 ^ k) ((buf.take n).getD i 0)
    (fun b hm => hbt b (List.mem_of_mem_take hm))
    (fun b hm => hbt b (List.mem_of_mem_drop hm)) hf1 hx hf2
  rw [← h1] at this
  exact this heq

theorem GET_TLV_LEN_flip (buf : List Nat) {i T : Nat} (k : Nat) (hlen : 11 ≤ buf.length)
    (hb : ∀ b ∈ buf, b < 256) (hk : k < 8) (h9 : i ≠ 9) (h10 : i ≠ 10)
    (hT : GET_TLV_LEN buf = Except.ok T) :
    GET_TLV_LEN (flip_bit buf i k) = Except.ok T := by
  rw [GET_TLV_LEN_eq buf hlen hb] at hT
  rw [GET_TLV_LEN_eq _ (by rw [flip_bit_length]; exact hlen) (flip_bit_lt buf i k hb hk),
    flip_bit_getD_ne buf k h9, flip_bit_getD_ne buf k h10]
  exact hT

/-- A record whose CRC verifies, after one bit was flipped outside the two total-length bytes
in a way that leaves the lookup of the CRC field at the terminal offset `T + 5` with length 4:
the verifier answers false. -/
theorem tlv_verify_crc32_flip_false (stale : Nat) (buf out : List Nat) (T i k : Nat)
    (hlen : buf.length = 256) (hb : ∀ b ∈ buf, b < 256)
    (hT : GET_TLV_LEN buf = Except.ok T) (hle : T ≤ 245)
    (hstored : buf.getD (T + 7) 0 * 2 ^ 24 + buf.getD (T + 8) 0 * 2 ^ 16
        + buf.getD (T + 9) 0 * 2 ^ 8 + buf.getD (T + 10) 0 = crc32_ref (buf.take (T + 7)))
    (hk : k < 8) (hi : i < 11 + T) (h9 : i ≠ 9) (h10 : i ≠ 10)
    (hsame : tlv_find (flip_bit buf i k) TLV_CODE_CRC_32 (some 4) true
      = Except.ok ⟨4, some out, some (T + 5)⟩) :
    tlv_verify_crc32 stale (flip_bit buf i k) = Except.ok false := by
  have hlen2 : (flip_bit buf i k).length = 256 := by rw [flip_bit_length]; exact hlen
  have hb2 := flip_bit_lt buf i k hb hk
  have hT2 := GET_TLV_LEN_flip buf k (by omega) hb hk h9 h10 hT
  have hcrc := tlv_calc_crc32_take (flip_bit buf i k) (T + 11 - 4) (by omega) (by omega)
  obtain ⟨_, _, _, _, _, hv⟩ := tlv_verify_crc32_of_find stale hb2 hT2 hle hcrc hsame
  rw [hv]
  have e0 : ∀ j, buf.getD j 0 < 256 := by
    intro j
    by_cases hj : j < buf.length
    · rw [List.getD_eq_getElem?_getD, List.getElem?_eq_getElem hj]
      exact hb _ (List.getElem_mem hj)
    · rw [List.getD_eq_getElem?_getD, List.getElem?_eq_none (by omega)]
      norm_num
  have e1 : ∀ j, (flip_bit buf i k).getD j 0 < 256 := by
    intro j
    by_cases hj : j < (flip_bit buf i k).length
    · rw [List.getD_eq_getElem?_getD, List.getElem?_eq_getElem hj]
      exact hb2 _ (List.getElem_mem hj)
    · rw [List.getD_eq_getElem?_getD, List.getElem?_eq_none (by omega)]
      norm_num
  have hself : (flip_bit buf i k).getD i 0 ≠ buf.getD i 0 := by
    have hx : (flip_bit buf i k).getD i 0 = buf.getD i 0 ^^^ 2 ^ k := by
      simp only [flip_bit, List.getD_eq_getElem?_getD, List.getElem?_set, if_true]
      rw [if_pos (by omega)]
      rfl
    rw [hx]
    exact (flip_byte _ k (e0 i) hk).2
  have hfalse : ¬ ((flip_bit buf i k).getD (T + 5 + 2) 0 * 2 ^ 24
      + (flip_bit buf i k).getD (T + 5 + 3) 0 * 2 ^ 16
      + (flip_bit buf i k).getD (T + 5 + 4) 0 * 2 ^ 8 + (flip_bit buf i k).getD (T + 5 + 5) 0
      = crc32_ref ((flip_bit buf i k).take (T + 11 - 4))) := by
    rw [show T + 5 + 2 = T + 7 by omega, show T + 5 + 3 = T + 8 by omega,
      show T + 5 + 4 = T + 9 by omega, show T + 5 + 5 = T + 10 by omega,
      show T + 11 - 4 = T + 7 by omega]
    by_cases hcase : i < T + 7
    · -- the flipped bit is covered by the CRC; the stored value is untouched
      have hne := crc32_ref_flip buf k hb hk hcase (by omega)
      rw [flip_bit_getD_ne buf k (show i ≠ T + 7 by omega),
        flip_bit_getD_ne buf k (show i ≠ T + 8 by omega),
        flip_bit_getD_ne buf k (show i ≠ T + 9 by omega),
        flip_bit_getD_ne buf k (show i ≠ T + 10 by omega), hstored]
      exact fun h => hne h.symm
    · -- the flipped bit lies in the stored value; the covered bytes are untouched
      rw [flip_bit_take_of_le buf k (show T + 7 ≤ i by omega), ← hstored]
      have a7 := e0 (T + 7)
      have a8 := e0 (T + 8)
      have a9 := e0 (T + 9)
      have a10 := e0 (T + 10)
      have b7 := e1 (T + 7)
      have b8 := e1 (T + 8)
      have b9 := e1 (T + 9)
      have b10 := e1 (T + 10)
      have hcases : i = T + 7 ∨ i = T + 8 ∨ i = T + 9 ∨ i = T + 10 := by omega
      have q7 : i ≠ T + 7 → (flip_bit buf i k).getD (T + 7) 0 = buf.getD (T + 7) 0 :=
        fun h => flip_bit_getD_ne buf k h
      have q8 : i ≠ T + 8 → (flip_bit buf i k).getD (T + 8) 0 = buf.getD (T + 8) 0 :=
        fun h => flip_bit_getD_ne buf k h
      have q9 : i ≠ T + 9 → (flip_bit buf i k).getD (T + 9) 0 = buf.getD (T + 9) 0 :=
        fun h => flip_bit_getD_ne buf k h
      have q10 : i ≠ T + 10 → (flip_bit buf i k).getD (T + 10) 0 = buf.getD (T + 10) 0 :=
        fun h => flip_bit_getD_ne buf k h
      have r7 : i = T + 7 → (flip_bit buf i k).getD (T + 7) 0 ≠ buf.getD (T + 7) 0 :=
        fun h => h ▸ hself
      have r8 : i = T + 8 → (flip_bit buf i k).getD (T + 8) 0 ≠ buf.getD (T + 8) 0 :=
        fun h => h ▸ hself
      have r9 : i = T + 9 → (flip_bit buf i k).getD (T + 9) 0 ≠ buf.getD (T + 9) 0 :=
        fun h => h ▸ hself
      have r10 : i = T + 10 → (flip_bit buf i k).getD (T + 10) 0 ≠ buf.getD (T + 10) 0 :=
        fun h => h ▸ hself
      generalize (flip_bit buf i k).getD (T + 7) 0 = x7 at *
      generalize (flip_bit buf i k).getD (T + 8) 0 = x8 at *
      generalize (flip_bit buf i k).getD (T + 9) 0 = x9 at *
      generalize (flip_bit buf i k).getD (T + 10) 0 = x10 at *
      generalize buf.getD (T + 7) 0 = y7 at *
      generalize buf.getD (T + 8) 0 = y8 at *
      generalize buf.getD (T + 9) 0 = y9 at *
      generalize buf.getD (T + 10) 0 = y10 at *
      have p24 : (2 : Nat) ^ 24 = 16777216 := by norm_num
      have p16 : (2 : Nat) ^ 16 = 65536 := by norm_num
      have p8 : (2 : Nat) ^ 8 = 256 := by norm_num
      rw [p24, p16, p8]
      rcases hcases with h | h | h | h
      · have := r7 h; have := q8 (by omega); have := q9 (by omega); have := q10 (by omega)
        omega
      · have := r8 h; have := q7 (by omega); have := q9 (by omega); have := q10 (by omega)
        omega
      · have := r9 h; have := q7 (by omega); have := q8 (by omega); have := q10 (by omega)
        omega
      · have := r10 h; have := q7 (by omega); have := q8 (by omega); have := q9 (by omega)
        omega
  rw [decide_eq_false hfalse]

/-- A flipped well-formed record that still has the layout of a record with the CRC field in
its place fails verification. -/
theorem record_flip_false (stale : Nat) (ver : Nat) (fs : List (Nat × List Nat)) (hver : ver < 256)
    (hfs : ∀ f ∈ fs, f.1 < 256 ∧ f.1 ≠ TLV_CODE_CRC_32 ∧ ∀ b ∈ f.2, b < 256)
    (hT : (fields_bytes fs).length + 6 ≤ 245) (i k : Nat) (hk : k < 8)
    (hi : i < 11 + ((fields_bytes fs).length + 6)) (h9 : i ≠ 9) (h10 : i ≠ 10)
    (hdr rest val : List Nat) (gs : List (Nat × List Nat))
    (hlay : flip_bit (record_bytes ver fs) i k
      = hdr ++ fields_bytes gs ++ field_bytes TLV_CODE_CRC_32 val ++ rest)
    (hhdr : hdr.length = 11) (hgs : (fields_bytes gs).length = (fields_bytes fs).length)
    (hval : val.length = 4) (hno : ∀ f ∈ gs, f.1 ≠ TLV_CODE_CRC_32) :
    tlv_verify_crc32 stale (flip_bit (record_bytes ver fs) i k) = Except.ok false := by
  have hlen := record_bytes_length ver fs hT
  have hlt := record_bytes_lt ver fs hver hfs hT
  obtain ⟨hvalid, hlenT⟩ := record_bytes_valid ver fs hver hfs hT
  have hT2 := GET_TLV_LEN_flip (record_bytes ver fs) k (by omega) hlt hk h9 h10 hlenT
  have hfind := tlv_find_layout (flip_bit (record_bytes ver fs) i k) hdr rest val gs
    TLV_CODE_CRC_32 4 ((fields_bytes fs).length + 6) hT2 hT hlay hhdr
    (fun f hf => ⟨hno f hf, hno f hf⟩) (by omega) (by omega)
  rw [hval, hgs, show 11 + (fields_bytes fs).length = (fields_bytes fs).length + 6 + 5 by omega]
    at hfind
  have hst := (record_bytes_stored stale ver fs hver hfs hT).1
  rw [← record_bytes_take ver fs,
    show 11 + (fields_bytes fs).length + 2 = (fields_bytes fs).length + 6 + 7 by omega,
    show 11 + (fields_bytes fs).length + 3 = (fields_bytes fs).length + 6 + 8 by omega,
    show 11 + (fields_bytes fs).length + 4 = (fields_bytes fs).length + 6 + 9 by omega,
    show 11 + (fields_bytes fs).length + 5 = (fields_bytes fs).length + 6 + 10 by omega,
    show (fields_bytes fs).length + 6 + 11 - 4 = (fields_bytes fs).length + 6 + 7 by omega]
    at hst
  exact tlv_verify_crc32_flip_false stale (record_bytes ver fs) val ((fields_bytes fs).length + 6) i k
    hlen hlt hlenT hT hst hk hi h9 h10 hfind

theorem flip_bit_field_type (t : Nat) (v : List Nat) (k : Nat) :
    flip_bit (field_bytes t v) 0 k = field_bytes (t ^^^ 2 ^ k) v := by
  simp [flip_bit, field_bytes]

theorem flip_bit_field_val (t : Nat) (v : List Nat) (j k : Nat) :
    flip_bit (field_bytes t v) (2 + j) k = field_bytes t (flip_bit v j k) := by
  have h : 2 + j = j + 1 + 1 := by omega
  simp [flip_bit, field_bytes, h]

theorem fields_bytes_cons (t : Nat) (v : List Nat) (fs : List (Nat × List Nat)) :
    fields_bytes ((t, v) :: fs) = field_bytes t v ++ fields_bytes fs := rfl

/-- A flip inside the header bytes. -/
theorem record_flip_hdr (ver : Nat) (fs : List (Nat × List Nat)) (i k : Nat) (hi : i < 11) :
    flip_bit (record_bytes ver fs) i k
      = flip_bit (sig8 ++ [ver] ++ be16 ((fields_bytes fs).length + 6)) i k ++ fields_bytes fs
        ++ field_bytes TLV_CODE_CRC_32 (be32 (crc32_ref (record_front ver fs)))
        ++ List.replicate (256 - ((record_front ver fs).length + 4)) 0 := by
  rw [record_bytes_layout_crc, List.append_assoc, List.append_assoc,
    flip_bit_append_left _ _ k (by rw [record_hdr_length]; exact hi)]
  simp only [List.append_assoc]

/-- A flip inside the field `(t, v)` that follows the fields `fs1`, at index `d` of that
field's bytes. -/
theorem record_flip_field (ver : Nat) (fs1 fs2 : List (Nat × List Nat)) (t : Nat)
    (v : List Nat) (d k : Nat) (hd : d < 2 + v.length) :
    flip_bit (record_bytes ver (fs1 ++ (t, v) :: fs2)) (11 + (fields_bytes fs1).length + d) k
      = (sig8 ++ [ver] ++ be16 ((fields_bytes (fs1 ++ (t, v) :: fs2)).length + 6))
        ++ (fields_bytes fs1 ++ flip_bit (field_bytes t v) d k ++ fields_bytes fs2)
        ++ field_bytes TLV_CODE_CRC_32
            (be32 (crc32_ref (record_front ver (fs1 ++ (t, v) :: fs2))))
        ++ List.replicate (256 - ((record_front ver (fs1 ++ (t, v) :: fs2)).length + 4)) 0 := by
  rw [record_bytes_layout_crc, fields_bytes_append, fields_bytes_cons]
  have e : ∀ (h a b c x y : List Nat),
      h ++ (a ++ (b ++ c)) ++ x ++ y = (h ++ a) ++ (b ++ (c ++ x ++ y)) := by
    intro h a b c x y; simp only [List.append_assoc]
  rw [e, flip_bit_append_right _ _ k (by
      rw [List.length_append, record_hdr_length]; omega),
    flip_bit_append_left _ _ k (by
      rw [List.length_append, record_hdr_length, field_bytes_length]
      omega)]
  have hidx : 11 + (fields_bytes fs1).length + d
      - (sig8 ++ [ver] ++ be16 ((fields_bytes fs1 ++ (field_bytes t v ++ fields_bytes fs2)).length
          + 6) ++ fields_bytes fs1).length = d := by
    rw [List.length_append, record_hdr_length]
    omega
  rw [hidx]
  simp only [List.append_assoc]

/-- A flip inside the CRC field, at index `d` of that field's bytes. -/
theorem record_flip_crc (ver : Nat) (fs : List (Nat × List Nat)) (d k : Nat) (hd : d < 6) :
    flip_bit (record_bytes ver fs) (11 + (fields_bytes fs).length + d) k
      = (sig8 ++ [ver] ++ be16 ((fields_bytes fs).length + 6)) ++ fields_bytes fs
        ++ flip_bit (field_bytes TLV_CODE_CRC_32 (be32 (crc32_ref (record_front ver fs)))) d k
        ++ List.replicate (256 - ((record_front ver fs).length + 4)) 0 := by
  rw [record_bytes_layout_crc]
  have e : ∀ (h a x y : List Nat), h ++ a ++ x ++ y = (h ++ a) ++ (x ++ y) := by
    intro h a x y; simp only [List.append_assoc]
  rw [e, flip_bit_append_right _ _ k (by
      rw [List.length_append, record_hdr_length]; omega),
    flip_bit_append_left _ _ k (by
      rw [List.length_append, record_hdr_length, field_bytes_length, be32_length]
      omega)]
  have hidx : 11 + (fields_bytes fs).length + d
      - (sig8 ++ [ver] ++ be16 ((fields_bytes fs).length + 6) ++ fields_bytes fs).length = d := by
    rw [List.length_append, record_hdr_length]
    omega
  rw [hidx]
  simp only [List.append_assoc]

/-- The lookup over a packed run of fields that ends exactly at `tot_len` and holds neither the
wanted type nor (before its last field) a CRC field: nothing is found. -/
theorem tlv_find_layout_end (buf hdr rest : List Nat) (gs : List (Nat × List Nat))
    (t : Nat) (v : List Nat) (c T : Nat) (output : Option Nat) (oo : Bool)
    (hT : GET_TLV_LEN buf = Except.ok T) (hle : T ≤ 245)
    (hlayout : buf = hdr ++ fields_bytes gs ++ field_bytes t v ++ rest)
    (hhdr : hdr.length = 11)
    (hgs : ∀ f ∈ gs, f.1 ≠ c ∧ f.1 ≠ TLV_CODE_CRC_32) (ht : t ≠ c) (hv : v.length < 256)
    (hend : 11 + T ≤ 11 + (fields_bytes gs).length + (2 + v.length))
    (hstart : 11 + (fields_bytes gs).length < 11 + T) :
    tlv_find buf c output oo = Except.ok not_found := by
  have hn := fields_bytes_length_ge gs
  rw [tlv_find_unfold buf c output oo hT hle]
  have hfuel : 65536 = (65535 - gs.length + 1) + gs.length := by omega
  have hskip := tlv_find_loop_skip c output oo (T + 11) gs hdr
    (field_bytes t v ++ rest) (65535 - gs.length + 1) hgs (by omega) (by omega)
  rw [hhdr, ← hfuel, ← List.append_assoc, ← hlayout] at hskip
  rw [hskip]
  have h1 := rd_field_type (hdr ++ fields_bytes gs) rest v t (11 + (fields_bytes gs).length)
    (by simp [hhdr])
  have h2 := rd_field_len (hdr ++ fields_bytes gs) rest v t (11 + (fields_bytes gs).length)
    (by simp [hhdr])
  rw [← hlayout] at h1 h2
  have hmod : (11 + (fields_bytes gs).length + (2 + v.length)) % 65536
      = 11 + (fields_bytes gs).length + (2 + v.length) := Nat.mod_eq_of_lt (by omega)
  exact tlv_find_loop_end output oo (T + 11) (65535 - gs.length) h1 h2 ht (by rw [hmod]; omega)

/-- The verifier answers false when the lookup of the CRC field finds nothing. -/
theorem tlv_verify_crc32_of_not_found (stale : Nat) {buf : List Nat} {T : Nat}
    (hlen : buf.length = 256) (hT : GET_TLV_LEN buf = Except.ok T) (hle : T ≤ 245)
    (hfind : tlv_find buf TLV_CODE_CRC_32 (some 4) false = Except.ok not_found) :
    tlv_verify_crc32 stale buf = Except.ok false := by
  have hcrc := tlv_calc_crc32_take buf (T + 11 - 4) (by omega) (by omega)
  have hv : tlv_verify_crc32 stale buf
      = (GET_TLV_LEN buf >>= fun len =>
          tlv_calc_crc32 buf (len + sizeof_tlv_hdr - 4) >>= fun crc_calc =>
          tlv_find buf TLV_CODE_CRC_32 (some 4) false >>= fun r =>
          if r.ret = 0 then pure false
          else pure (bswap32 (crc_val_of stale (r.output.getD [])) == crc_calc)) := rfl
  rw [hv, hT, ok_bind]
  simp only [sizeof_tlv_hdr]
  rw [hcrc, ok_bind, hfind, ok_bind]
  rfl

theorem fields_bytes_mid (fs1 fs2 : List (Nat × List Nat)) (t : Nat) (v : List Nat) :
    fields_bytes (fs1 ++ (t, v) :: fs2)
      = fields_bytes fs1 ++ field_bytes t v ++ fields_bytes fs2 := by
  rw [fields_bytes_append, fields_bytes_cons, List.append_assoc]

/-- A flip inside a field before the CRC field that turns the field `(t, v)` into a field
`(t2, v2)` of the same length whose type is not the CRC code is detected. -/
theorem record_flip_field_false (stale : Nat) (ver : Nat) (fs1 fs2 : List (Nat × List Nat)) (t : Nat)
    (v : List Nat) (t2 : Nat) (v2 : List Nat) (d k : Nat) (hver : ver < 256)
    (hfs : ∀ f ∈ fs1 ++ (t, v) :: fs2, f.1 < 256 ∧ f.1 ≠ TLV_CODE_CRC_32 ∧ ∀ b ∈ f.2, b < 256)
    (hT : (fields_bytes (fs1 ++ (t, v) :: fs2)).length + 6 ≤ 245)
    (hk : k < 8) (hd : d < 2 + v.length)
    (hflip : flip_bit (field_bytes t v) d k = field_bytes t2 v2)
    (hv2 : v2.length = v.length) (ht2 : t2 ≠ TLV_CODE_CRC_32) :
    tlv_verify_crc32 stale
        (flip_bit (record_bytes ver (fs1 ++ (t, v) :: fs2)) (11 + (fields_bytes fs1).length + d) k)
      = Except.ok false := by
  have hfb : ∀ a w, (fields_bytes (fs1 ++ (a, w) :: fs2)).length
      = (fields_bytes fs1).length + (2 + w.length) + (fields_bytes fs2).length := by
    intro a w
    rw [fields_bytes_mid]
    simp only [List.length_append, field_bytes_length]
  have hlay := record_flip_field ver fs1 fs2 t v d k hd
  rw [hflip, ← fields_bytes_mid] at hlay
  have h1 := hfb t v
  refine record_flip_false stale ver (fs1 ++ (t, v) :: fs2) hver hfs hT _ k hk (by omega) (by omega)
    (by omega) _ _ _ (fs1 ++ (t2, v2) :: fs2) hlay (record_hdr_length _ _)
    (by rw [hfb, hfb, hv2]) (be32_length _) ?_
  intro f hf
  rcases List.mem_append.mp hf with h | h
  · exact (hfs f (List.mem_append.mpr (Or.inl h))).2.1
  · rcases List.mem_cons.mp h with h | h
    · rw [h]; exact ht2
    · exact (hfs f (List.mem_append.mpr (Or.inr (List.mem_cons_of_mem _ h)))).2.1

/-- C6 (amended): in a well-formed record (`record_bytes ver fs`, which verifies), flipping
one bit makes `tlv_verify_crc32` return false when the bit lies in the signature or version
bytes (0..8), in a field's type byte provided the flipped type is not `0xFE`, in a field's
value byte, in the type byte of the CRC field, or in one of the four CRC value bytes.  The
total-length bytes 9..10, the length bytes of the fields and of the CRC field, and type flips
that produce `0xFE` are not covered.  (`stale` is the value the uninitialised `crc_val`
held; the result does not depend on it.) -/
theorem tamper_detection (stale : Nat) (ver : Nat) (fs : List (Nat × List Nat)) (hver : ver < 256)
    (hfs : ∀ f ∈ fs, f.1 < 256 ∧ f.1 ≠ TLV_CODE_CRC_32 ∧ ∀ b ∈ f.2, b < 256)
    (hT : (fields_bytes fs).length + 6 ≤ 245) :
    (∀ i k, i < 9 → k < 8 →
      tlv_verify_crc32 stale (flip_bit (record_bytes ver fs) i k) = Except.ok false)
    ∧ (∀ fs1 fs2 t v k, fs = fs1 ++ (t, v) :: fs2 → k < 8 → t ^^^ 2 ^ k ≠ TLV_CODE_CRC_32 →
      tlv_verify_crc32 stale (flip_bit (record_bytes ver fs) (11 + (fields_bytes fs1).length) k)
        = Except.ok false)
    ∧ (∀ fs1 fs2 t v j k, fs = fs1 ++ (t, v) :: fs2 → j < v.length → k < 8 →
      tlv_verify_crc32 stale
          (flip_bit (record_bytes ver fs) (11 + (fields_bytes fs1).length + 2 + j) k)
        = Except.ok false)
    ∧ (∀ k, k < 8 →
      tlv_verify_crc32 stale (flip_bit (record_bytes ver fs) (11 + (fields_bytes fs).length) k)
        = Except.ok false)
    ∧ (∀ j k, j < 4 → k < 8 →
      tlv_verify_crc32 stale
          (flip_bit (record_bytes ver fs) (11 + (fields_bytes fs).length + 2 + j) k)
        = Except.ok false) := by
  have hlen := record_bytes_length ver fs hT
  have hlt := record_bytes_lt ver fs hver hfs hT
  obtain ⟨hvalid, hlenT⟩ := record_bytes_valid ver fs hver hfs hT
  refine ⟨?_, ?_, ?_, ?_, ?_⟩
  · intro i k hi hk
    exact record_flip_false stale ver fs hver hfs hT i k hk (by omega) (by omega) (by omega) _ _ _ fs
      (record_flip_hdr ver fs i k (by omega)) (by rw [flip_bit_length]; rfl) rfl
      (be32_length _) (fun f hf => (hfs f hf).2.1)
  · intro fs1 fs2 t v k hsplit hk hne
    subst hsplit
    have := record_flip_field_false stale ver fs1 fs2 t v (t ^^^ 2 ^ k) v 0 k hver hfs hT hk (by omega)
      (flip_bit_field_type t v k) rfl hne
    rw [Nat.add_zero] at this
    exact this
  · intro fs1 fs2 t v j k hsplit hj hk
    subst hsplit
    have := record_flip_field_false stale ver fs1 fs2 t v t (flip_bit v j k) (2 + j) k hver hfs hT hk
      (by omega) (flip_bit_field_val t v j k) (flip_bit_length v j k)
      (hfs (t, v) (by simp)).2.1
    rw [← Nat.add_assoc] at this
    exact this
  · intro k hk
    have hlay := record_flip_crc ver fs 0 k (by omega)
    rw [flip_bit_field_type, Nat.add_zero] at hlay
    have hT2 := GET_TLV_LEN_flip (record_bytes ver fs) (i := 11 + (fields_bytes fs).length) k
      (by omega) hlt hk (by omega) (by omega) hlenT
    have hne : TLV_CODE_CRC_32 ^^^ 2 ^ k ≠ TLV_CODE_CRC_32 :=
      (flip_byte TLV_CODE_CRC_32 k (by decide) hk).2
    have hfind := tlv_find_layout_end _ _ _ fs _ _ TLV_CODE_CRC_32
      ((fields_bytes fs).length + 6) (some 4) false hT2 hT hlay (record_hdr_length _ _)
      (fun f hf => ⟨(hfs f hf).2.1, (hfs f hf).2.1⟩) hne (by rw [be32_length]; omega)
      (by rw [be32_length]; omega) (by omega)
    exact tlv_verify_crc32_of_not_found stale (by rw [flip_bit_length]; exact hlen) hT2 hT hfind
  · intro j k hj hk
    have hlay := record_flip_crc ver fs (2 + j) k (by omega)
    rw [flip_bit_field_val] at hlay
    have := record_flip_false stale ver fs hver hfs hT _ k hk (by omega) (by omega) (by omega) _ _ _ fs
      hlay (record_hdr_length _ _) rfl (by rw [flip_bit_length, be32_length])
      (fun f hf => (hfs f hf).2.1)
    rw [← Nat.add_assoc] at this
    exact this

set_option maxRecDepth 1000000 in
/-- Counterexample to C6 as stated: well-formed records (built as in the round trip, so they
verify) on which one flipped bit is not answered with false.  In the first, bit 3 of byte 10
turns the total length 16 into 24 and the record still verifies; in the second, bit 7 of
byte 11 turns the type 0x7E of the first field into 0xFE, that field is taken for the CRC
field and the record still verifies; in the third, bit 3 of byte 12 turns the length 12 of
the first field into 4, the walk lands on the bytes `0xFE, 4` inside its value and the record
still verifies; in the fourth, bit 0 of the length byte of the CRC field turns 4 into 5 and
the `memcpy` of `tlv_find` writes 5 bytes into the 4-byte `crc_val`.  Each outcome is the
same for every value `stale` that the uninitialised `crc_val` may hold. -/
theorem tamper_survives_bit_flip :
    ((∀ stale, tlv_verify_crc32 stale (record_bytes 1 [(0x30, [0, 0, 0, 0, 245, 168, 4, 191])])
        = Except.ok true)
      ∧ ∀ stale, tlv_verify_crc32 stale
          (flip_bit (record_bytes 1 [(0x30, [0, 0, 0, 0, 245, 168, 4, 191])]) 10 3)
        = Except.ok true)
    ∧ ((∀ stale, tlv_verify_crc32 stale
          (record_bytes 1 [(0x7E, [65, 66, 67, 68]), (0x30, [0, 0, 0, 0, 148, 173, 43, 223])])
        = Except.ok true)
      ∧ ∀ stale, tlv_verify_crc32 stale
          (flip_bit
            (record_bytes 1 [(0x7E, [65, 66, 67, 68]), (0x30, [0, 0, 0, 0, 148, 173, 43, 223])])
            11 7)
        = Except.ok true)
    ∧ ((∀ stale, tlv_verify_crc32 stale
          (record_bytes 1 [(0x30, [0, 0, 0, 0, 254, 4, 0, 0, 143, 217, 185, 30])])
        = Except.ok true)
      ∧ ∀ stale, tlv_verify_crc32 stale
          (flip_bit (record_bytes 1 [(0x30, [0, 0, 0, 0, 254, 4, 0, 0, 143, 217, 185, 30])])
            12 3)
        = Except.ok true)
    ∧ ((∀ stale, tlv_verify_crc32 stale (record_bytes 1 [(0x21, [0x41, 0x42, 0x43, 0x44])])
        = Except.ok true)
      ∧ ∀ stale, tlv_verify_crc32 stale
          (flip_bit (record_bytes 1 [(0x21, [0x41, 0x42, 0x43, 0x44])]) 18 0)
        = Except.error (Err.overflow 5)) :=
  ⟨⟨fun stale => (tlv_verify_crc32_stale stale _ (by decide)).trans (by decide),
    fun stale => (tlv_verify_crc32_stale stale _ (by decide)).trans (by decide)⟩,
   ⟨fun stale => (tlv_verify_crc32_stale stale _ (by decide)).trans (by decide),
    fun stale => (tlv_verify_crc32_stale stale _ (by decide)).trans (by decide)⟩,
   ⟨fun stale => (tlv_verify_crc32_stale stale _ (by decide)).trans (by decide),
    fun stale => (tlv_verify_crc32_stale stale _ (by decide)).trans (by decide)⟩,
   ⟨fun stale => (tlv_verify_crc32_stale stale _ (by decide)).trans (by decide),
    fun stale => (tlv_verify_crc32_stale stale _ (by decide)).trans (by decide)⟩⟩

set_option maxRecDepth 100000 in
/-- Witness for `tamper_detection`: bit 0 of the first signature byte of the record with the
single field `{0x21, 4, "ABCD"}`. -/
theorem tamper_detection_witness :
    tlv_verify_crc32 0 (flip_bit (record_bytes 1 [(0x21, [0x41, 0x42, 0x43, 0x44])]) 0 0)
      = Except.ok false :=
  (tamper_detection 0 1 [(0x21, [0x41, 0x42, 0x43, 0x44])] (by decide) (by decide)
    (by decide)).1 0 0 (by decide) (by decide)

/-! ### Bounds of the field walk -/

set_option maxRecDepth 100000 in
/-- Nothing bounds the length byte of a visited field: `overlong_field_buffer` has 256 bytes
and a valid header, its field at offset 11 declares 255 value bytes, and both the lookup of
type 0x21 and the enumeration read `eeprom[256]`. -/
theorem walk_reads_past_buffer :
    overlong_field_buffer.length = 256
    ∧ is_valid_tlvhdr overlong_field_buffer = Except.ok true
    ∧ tlv_find overlong_field_buffer 0x21 (some 255) true = Except.error (Err.oob 256)
    ∧ print_eeprom_fields overlong_field_buffer = Except.error (Err.oob 256) := by
  decide

/-! ### What a successful verification guarantees -/

set_option maxRecDepth 1000000 in
/-- Claim C11, as stated, fails on the code.  On the 256-byte buffer with total length 13, the
field `{0x21, 4, "ABCD"}` and the CRC field holding the CRC-32 of the 17 bytes before it,
`tlv_find(0x21)` returns length 4 with the value `"ABCD"`, but `tlv_verify_crc32` returns
false (whatever the uninitialised `crc_val` held) and the enumeration visits three fields: a
field of type 0 and length 0 at offset 23 follows the CRC field, because 23 is below the
declared end 24. -/
theorem scenario_as_stated_fails :
    scenario_buffer.length = 256 ∧
    tlv_find scenario_buffer 0x21 (some 4) true
      = Except.ok ⟨4, some [0x41, 0x42, 0x43, 0x44], some 11⟩ ∧
    (∀ stale, tlv_verify_crc32 stale scenario_buffer = Except.ok false) ∧
    print_eeprom_fields scenario_buffer
      = Except.ok [⟨11, 0x21, 4⟩, ⟨17, 0xFE, 4⟩, ⟨23, 0, 0⟩] :=
  ⟨by decide, by decide,
    fun stale => (tlv_verify_crc32_stale stale _ (by decide)).trans (by decide), by decide⟩

set_option maxRecDepth 1000000 in
/-- Claim C11, amended: the scenario with total length 12 and the CRC-32 taken over the 19 bytes
that precede the CRC value (header, the field `{0x21, 4, "ABCD"}`, and the CRC field's type and
length bytes).  On that 256-byte buffer `tlv_find(0x21)` returns length 4 with the value
`"ABCD"`, `tlv_verify_crc32` returns true (whatever the uninitialised `crc_val` held), and the
enumeration visits exactly two fields, type 0x21 then type 0xFE. -/
theorem scenario_total_length_12 :
    sample_record
      = sig_ver1 ++ [0, 12] ++ [0x21, 4, 0x41, 0x42, 0x43, 0x44] ++ [0xFE, 4]
        ++ be32 (crc32_ref (sig_ver1 ++ [0, 12] ++ [0x21, 4, 0x41, 0x42, 0x43, 0x44]
          ++ [0xFE, 4]))
        ++ List.replicate 233 0 ∧
    sample_record.length = 256 ∧
    tlv_find sample_record 0x21 (some 4) true
      = Except.ok ⟨4, some [0x41, 0x42, 0x43, 0x44], some 11⟩ ∧
    (∀ stale, tlv_verify_crc32 stale sample_record = Except.ok true) ∧
    print_eeprom_fields sample_record = Except.ok [⟨11, 0x21, 4⟩, ⟨17, 0xFE, 4⟩] :=
  ⟨by decide, by decide, by decide,
    fun stale => (tlv_verify_crc32_stale stale _ (by decide)).trans (by decide), by decide⟩

/-! ## Where the enumeration stops (C12) -/

/-- The enumeration loop over a packed run of fields whose last field starts below `tot_len`
and ends at or past it: the loop visits every field of the run, in order, and stops. -/
theorem print_eeprom_loop_layout_ge (tot : Nat) (fs : List (Nat × List Nat)) :
    ∀ (pre rest : List Nat) (fuel : Nat) (t : Nat) (v : List Nat),
      pre.length + (fields_bytes fs).length < tot →
      tot ≤ pre.length + (fields_bytes fs).length + (2 + v.length) →
      pre.length + (fields_bytes fs).length + (2 + v.length) < 65536 →
      ∃ rows, print_eeprom_loop (pre ++ fields_bytes fs ++ field_bytes t v ++ rest) tot
          (fuel + (fs.length + 1)) pre.length = Except.ok rows
        ∧ rows.map Prod.fst = fields_layout pre.length (fs ++ [(t, v)]) := by
  induction fs with
  | nil =>
    intro pre rest fuel t v hlt hge h16
    simp only [fields_bytes, List.length_nil, Nat.add_zero, List.append_nil] at hlt hge h16 ⊢
    have ht := rd_field_type pre rest v t pre.length rfl
    have hl := rd_field_len pre rest v t pre.length rfl
    have hin : pre.length + 2 + v.length ≤ (pre ++ field_bytes t v ++ rest).length := by
      simp only [List.length_append, field_bytes_length]; omega
    have hmod : (pre.length + (2 + v.length)) % 65536 = pre.length + (2 + v.length) :=
      Nat.mod_eq_of_lt h16
    obtain ⟨text, hp⟩ := print_eeprom_loop_last tot (fuel + 0) ht hl hin (by rw [hmod]; omega)
    exact ⟨_, hp, by simp [fields_layout]⟩
  | cons f fs ih =>
    intro pre rest fuel t v hlt hge h16
    have hfb : (fields_bytes (f :: fs)).length = 2 + f.2.length + (fields_bytes fs).length := by
      simp [fields_bytes, field_bytes]; omega
    rw [hfb] at hlt hge h16
    have hbuf : pre ++ fields_bytes (f :: fs) ++ field_bytes t v ++ rest
        = pre ++ field_bytes f.1 f.2 ++ (fields_bytes fs ++ field_bytes t v ++ rest) := by
      simp [fields_bytes]
    have hbuf2 : pre ++ fields_bytes (f :: fs) ++ field_bytes t v ++ rest
        = (pre ++ field_bytes f.1 f.2) ++ fields_bytes fs ++ field_bytes t v ++ rest := by
      simp [fields_bytes]
    have hmod : (pre.length + (2 + f.2.length)) % 65536 = pre.length + (2 + f.2.length) :=
      Nat.mod_eq_of_lt (by omega)
    have ht := rd_field_type pre (fields_bytes fs ++ field_bytes t v ++ rest) f.2 f.1
      pre.length rfl
    have hl := rd_field_len pre (fields_bytes fs ++ field_bytes t v ++ rest) f.2 f.1
      pre.length rfl
    rw [← hbuf] at ht hl
    have hin : pre.length + 2 + f.2.length
        ≤ (pre ++ fields_bytes (f :: fs) ++ field_bytes t v ++ rest).length := by
      simp only [List.length_append, hfb]; omega
    obtain ⟨text, hp⟩ := print_eeprom_loop_next tot (fuel + (fs.length + 1)) ht hl hin
      (by rw [hmod]; omega)
    obtain ⟨rows, hrows, hmap⟩ := ih (pre ++ field_bytes f.1 f.2) rest fuel t v
      (by simp only [List.length_append, field_bytes_length]; omega)
      (by simp only [List.length_append, field_bytes_length]; omega)
      (by simp only [List.length_append, field_bytes_length]; omega)
    rw [← hbuf2] at hrows
    simp only [List.length_append, field_bytes_length] at hrows hmap
    rw [hmod, hrows, ok_bind] at hp
    refine ⟨(⟨pre.length, f.1, f.2.length⟩, text) :: rows, ?_, ?_⟩
    · rw [List.length_cons, ← Nat.add_assoc]
      exact hp
    · simp only [List.map_cons, List.cons_append, fields_layout, hmap]
      rfl

/-- The fields of a finished run of the enumeration loop: the last one ends at or past
`tot_len`, every earlier one ends below it. -/
theorem print_eeprom_loop_rows_end (buf : List Nat) (tot : Nat) (hlen : buf.length ≤ 65000)
    (hb : ∀ b ∈ buf, b < 256) (fuel : Nat) :
    ∀ (off : Nat) (rows : List (tlv_field × List Char)),
      print_eeprom_loop buf tot fuel off = Except.ok rows →
      ∃ init last, rows.map Prod.fst = init ++ [last]
        ∧ tot ≤ last.off + 2 + last.len
        ∧ ∀ g ∈ init, g.off + 2 + g.len < tot := by
  induction fuel with
  | zero => intro off rows h; simp [print_eeprom_loop, throw_eq_error] at h
  | succ fuel ih =>
    intro off rows h
    cases hp : print_field buf off with
    | error e => simp [print_eeprom_loop, hp, error_bind] at h
    | ok text =>
      cases ht : rd buf off with
      | error e => simp [print_eeprom_loop, hp, ht, ok_bind, error_bind] at h
      | ok t =>
        cases hl : rd buf (off + 1) with
        | error e => simp [print_eeprom_loop, hp, ht, hl, ok_bind, error_bind] at h
        | ok l =>
          simp only [print_eeprom_loop, hp, ht, hl, ok_bind, pure_eq_ok] at h
          obtain ⟨hoff, hval⟩ := (rd_ok_iff buf (off + 1) l).mp hl
          have hl256 : l < 256 := by
            rw [← hval]; exact hb _ (List.getElem_mem _)
          have hmod : (off + (2 + l)) % 65536 = off + (2 + l) :=
            Nat.mod_eq_of_lt (by omega)
          rw [hmod] at h
          by_cases hend : tot ≤ off + (2 + l)
          · rw [if_pos hend] at h
            injection h with h
            subst h
            refine ⟨[], ⟨off, t, l⟩, rfl, ?_, ?_⟩
            · show tot ≤ off + 2 + l
              omega
            · intro g hg; cases hg
          · rw [if_neg hend] at h
            cases hrest : print_eeprom_loop buf tot fuel (off + (2 + l)) with
            | error e => rw [hrest] at h; simp [error_bind] at h
            | ok rest =>
              rw [hrest, ok_bind] at h
              injection h with h
              subst h
              obtain ⟨init, last, hmap, hlast, hinit⟩ := ih _ rest hrest
              refine ⟨⟨off, t, l⟩ :: init, last, ?_, hlast, ?_⟩
              · simp only [List.map_cons, hmap, List.cons_append]
              · intro g hg
                rcases List.mem_cons.mp hg with h1 | h1
                · subst h1
                  show off + 2 + l < tot
                  omega
                · exact hinit g h1

/-- Claim C12, amended: for every 256-byte buffer with a valid header declaring `T >= 1` bytes
of field data, the `print_eeprom` walk ends normally as soon as the offset after a field is at
or past `11 + T`.  Over a packed run of fields inside the buffer whose last field starts below
`11 + T` and ends at or past `11 + T`, the walk returns exactly the fields of the run; and
whenever the walk returns, the last field it visited ends at or past `11 + T` and every
earlier one ends below `11 + T`.  No run fails because a field ends past `11 + T`. -/
theorem print_eeprom_ends_at_or_past_declared_end (buf : List Nat) (T : Nat)
    (hlen : buf.length = 256) (hb : ∀ b ∈ buf, b < 256)
    (hvalid : is_valid_tlvhdr buf = Except.ok true)
    (hT : GET_TLV_LEN buf = Except.ok T) (h1 : 1 ≤ T) :
    (∀ (hdr rest v : List Nat) (fs : List (Nat × List Nat)) (t : Nat),
      buf = hdr ++ fields_bytes fs ++ field_bytes t v ++ rest → hdr.length = 11 →
      11 + (fields_bytes fs).length < 11 + T →
      11 + T ≤ 11 + (fields_bytes fs).length + (2 + v.length) →
      print_eeprom_fields buf = Except.ok (fields_layout 11 (fs ++ [(t, v)])))
    ∧ (∀ visited, print_eeprom_fields buf = Except.ok visited →
      ∃ init last, visited = init ++ [last]
        ∧ 11 + T ≤ last.off + 2 + last.len
        ∧ ∀ g ∈ init, g.off + 2 + g.len < 11 + T) := by
  have hle := valid_len_le hvalid hT
  constructor
  · intro hdr rest v fs t hlayout hhdr hstart hend
    have hfl := fields_bytes_length_ge fs
    have hbl : buf.length = 11 + (fields_bytes fs).length + (2 + v.length) + rest.length := by
      rw [hlayout]
      simp only [List.length_append, field_bytes_length, hhdr]
    have hfuel : 65536 = (65536 - (fs.length + 1)) + (fs.length + 1) := by omega
    obtain ⟨rows, hrows, hmap⟩ := print_eeprom_loop_layout_ge (T + 11) fs hdr rest
      (65536 - (fs.length + 1)) t v (by omega) (by omega) (by omega)
    rw [← hfuel, ← hlayout, hhdr] at hrows
    rw [hhdr] at hmap
    rw [print_eeprom_fields_unfold buf hT hle, hrows, ok_bind, hmap]
  · intro visited hvis
    rw [print_eeprom_fields_unfold buf hT hle] at hvis
    cases hrows : print_eeprom_loop buf (T + 11) 65536 11 with
    | error e => rw [hrows] at hvis; simp [error_bind] at hvis
    | ok rows =>
      rw [hrows, ok_bind] at hvis
      injection hvis with hvis
      subst hvis
      obtain ⟨init, last, hmap, hlast, hinit⟩ :=
        print_eeprom_loop_rows_end buf (T + 11) (by omega) hb 65536 11 rows hrows
      exact ⟨init, last, hmap, by omega, fun g hg => by have := hinit g hg; omega⟩

set_option maxRecDepth 1000000 in
/-- Witness for `print_eeprom_ends_at_or_past_declared_end` on `overshoot_buffer` (total
length 5, one field of 6 bytes): the walk returns the single field at offset 11, which ends
at offset 17, past the declared end 16. -/
theorem print_eeprom_ends_at_or_past_declared_end_witness :
    print_eeprom_fields overshoot_buffer = Except.ok (fields_layout 11 ([] ++ [(0x21,
      [0x41, 0x42, 0x43, 0x44])])) :=
  (print_eeprom_ends_at_or_past_declared_end overshoot_buffer 5 (by decide) (by decide)
    (by decide) (by decide) (by decide)).1 (overshoot_buffer.take 11)
    (List.replicate 239 0) [0x41, 0x42, 0x43, 0x44] [] 0x21 (by decide) (by decide)
    (by decide) (by decide)

set_option maxRecDepth 1000000 in
/-- Claim C12, as stated, fails on the code.  On `overshoot_buffer` (256 bytes, valid header,
total length 5) the offset after the first field is 17, strictly past `11 + 5`, and
`print_eeprom` ends normally: it prints the field and the closing empty line.  On
`empty_data_buffer` (total length 0) one field is produced. -/
theorem print_eeprom_ends_past_declared_end :
    overshoot_buffer.length = 256
    ∧ is_valid_tlvhdr overshoot_buffer = Except.ok true
    ∧ GET_TLV_LEN overshoot_buffer = Except.ok 5
    ∧ print_eeprom_fields overshoot_buffer = Except.ok [⟨11, 0x21, 4⟩]
    ∧ print_eeprom overshoot_buffer
      = Except.ok "EEPROM Contents:\n\tProduct Name: ABCD\n\n".toList
    ∧ is_valid_tlvhdr empty_data_buffer = Except.ok true
    ∧ GET_TLV_LEN empty_data_buffer = Except.ok 0
    ∧ print_eeprom_fields empty_data_buffer = Except.ok [⟨11, 0x21, 1⟩] := by
  decide

/-! ## Rendering of field values (C14, C15, C16) -/

/-- The loop of `print_general` over value bytes laid out in the buffer: with the bytes `done`
already printed and the bytes `todo` left, it prints `todo` as the specification describes. -/
theorem print_general_loop_eq (todo : List Nat) : ∀ (pre done rest : List Nat),
    print_general_loop (pre ++ done ++ todo ++ rest) pre.length todo.length done.length
      = Except.ok (spec_hex_text_from done.length todo) := by
  induction todo with
  | nil => intro pre done rest; rfl
  | cons b bs ih =>
    intro pre done rest
    have hr : rd (pre ++ done ++ b :: bs ++ rest) (pre.length + done.length) = Except.ok b := by
      have := rd_at (pre ++ done) (bs ++ rest) b (pre.length + done.length) (by simp)
      simpa using this
    have hbuf : pre ++ done ++ b :: bs ++ rest = pre ++ (done ++ [b]) ++ bs ++ rest := by simp
    have h1 := ih pre (done ++ [b]) rest
    rw [← hbuf, List.length_append, List.length_singleton] at h1
    simp only [List.length_cons, print_general_loop, hr, h1, ok_bind, pure_eq_ok,
      spec_hex_text_from]
    by_cases h5 : done.length = 5
    · simp [h5]
    · simp [h5]

/-- Number of characters of the hex rendering from index `i` on. -/
theorem spec_hex_text_from_length (bs : List Nat) : ∀ (i : Nat),
    (spec_hex_text_from i bs).length
      = 3 * bs.length - (if i ≤ 5 ∧ 5 < i + bs.length then 1 else 0) := by
  induction bs with
  | nil => intro i; simp [spec_hex_text_from]
  | cons b bs ih =>
    intro i
    simp only [spec_hex_text_from, List.length_append, ih (i + 1), fmt_02x, List.length_cons,
      List.length_nil]
    by_cases h5 : i = 5
    · subst h5
      simp
      omega
    · rw [if_neg h5]
      simp only [List.length_cons, List.length_nil]
      split <;> split <;> omega

/-- The loop of `print_string` over value bytes laid out in the buffer prints each byte as
one character. -/
theorem print_string_loop_eq (v : List Nat) : ∀ (pre rest : List Nat),
    print_string_loop (pre ++ v ++ rest) pre.length v.length
      = Except.ok (v.map Char.ofNat) := by
  induction v with
  | nil => intro pre rest; rfl
  | cons b bs ih =>
    intro pre rest
    have hr : rd (pre ++ b :: bs ++ rest) pre.length = Except.ok b := by
      have := rd_at pre (bs ++ rest) b pre.length rfl
      simpa using this
    have hbuf : pre ++ b :: bs ++ rest = (pre ++ [b]) ++ bs ++ rest := by simp
    have h1 := ih (pre ++ [b]) rest
    rw [← hbuf, List.length_append, List.length_singleton] at h1
    simp only [List.length_cons, print_string_loop, hr, h1, ok_bind, pure_eq_ok, fmt_c,
      List.map_cons]

/-- Claim C15: for every field whose `n` value bytes `v` lie in the buffer, `print_general`
outputs, for each index in order, the two hex digits of the byte followed by exactly one
space unless the index is 5, and then a newline; the text before the newline has `3 n`
characters when `n <= 5` and `3 n - 1` characters when `n >= 6`. -/
theorem print_general_renders_hex (buf pre rest v : List Nat) (t : Nat)
    (hlayout : buf = pre ++ field_bytes t v ++ rest) :
    print_general buf pre.length = Except.ok (spec_hex_text v ++ ['\n'])
    ∧ (v.length ≤ 5 → (spec_hex_text v).length = 3 * v.length)
    ∧ (6 ≤ v.length → (spec_hex_text v).length = 3 * v.length - 1) := by
  have hl := rd_field_len pre rest v t pre.length rfl
  have hbuf : pre ++ field_bytes t v ++ rest = (pre ++ [t, v.length]) ++ [] ++ v ++ rest := by
    simp [field_bytes]
  have hloop := print_general_loop_eq v (pre ++ [t, v.length]) [] rest
  rw [← hbuf] at hloop
  simp only [List.length_append, List.length_cons, List.length_nil] at hloop
  have hlen := spec_hex_text_from_length v 0
  refine ⟨?_, ?_, ?_⟩
  · rw [hlayout]
    simp only [print_general, hl, ok_bind, pure_eq_ok]
    rw [show pre.length + 2 = pre.length + (0 + 1 + 1) by omega, hloop, ok_bind]
    rfl
  · intro h5
    unfold spec_hex_text
    rw [hlen, if_neg (by omega)]
    omega
  · intro h6
    unfold spec_hex_text
    rw [hlen, if_pos (by omega)]

set_option maxRecDepth 100000 in
/-- Witness for `print_general_renders_hex`: a field of type 0xFD with the seven value bytes
`de ad be ef 01 02 03` is printed as `de ad be ef 01 0203 ` and a newline, 20 characters
before the newline. -/
theorem print_general_renders_hex_witness :
    print_general ([0xFD, 7, 0xDE, 0xAD, 0xBE, 0xEF, 1, 2, 3]) 0
      = Except.ok ("de ad be ef 01 0203 ".toList ++ ['\n'])
    ∧ (spec_hex_text [0xDE, 0xAD, 0xBE, 0xEF, 1, 2, 3]).length = 3 * 7 - 1 :=
  have h := print_general_renders_hex [0xFD, 7, 0xDE, 0xAD, 0xBE, 0xEF, 1, 2, 3] [] []
    [0xDE, 0xAD, 0xBE, 0xEF, 1, 2, 3] 0xFD (by decide)
  ⟨h.1, h.2.2 (by decide)⟩

/-- The six passes of the `print_mac` loop, given the six value bytes. -/
theorem print_mac_loop_six {buf : List Nat} {ptr v0 v1 v2 v3 v4 v5 : Nat}
    (h0 : rd buf ptr = Except.ok v0) (h1 : rd buf (ptr + 1) = Except.ok v1)
    (h2 : rd buf (ptr + 2) = Except.ok v2) (h3 : rd buf (ptr + 3) = Except.ok v3)
    (h4 : rd buf (ptr + 4) = Except.ok v4) (h5 : rd buf (ptr + 5) = Except.ok v5) :
    print_mac_loop buf ptr 6 0
      = Except.ok (fmt_02x v0 ++ [':'] ++ fmt_02x v1 ++ [':'] ++ fmt_02x v2 ++ [':']
          ++ fmt_02x v3 ++ [':'] ++ fmt_02x v4 ++ [':'] ++ fmt_02x v5) := by
  have e0 : ptr + 0 = ptr := rfl
  simp only [print_mac_loop, Nat.zero_add, e0, h0, h1, h2, h3, h4, h5, ok_bind, pure_eq_ok]
  simp

/-- The text `print_mac` writes for a field whose length byte is not 6. -/
theorem print_mac_invalid {buf : List Nat} {off len : Nat}
    (hl : rd buf (off + 1) = Except.ok len) (h6 : len ≠ 6) :
    print_mac buf off
      = Except.ok ("Invalid MAC address, expected 6 bytes, received ".toList
          ++ (Nat.repr len).toList ++ ['\n']) := by
  simp only [print_mac, hl, ok_bind, ne_eq, h6, not_false_eq_true, if_true, pure_eq_ok]
  rfl

/-- Claim C14: a field of type 0x24 whose six value bytes lie in the buffer is rendered as
six two-digit hex octets separated by single colons (17 characters, no trailing colon) and
a newline.  For a field of type 0x24 with any other length byte, `print_mac` reads no value
byte and writes the single line `Invalid MAC address, expected 6 bytes, received <len>`;
the enumeration loop then goes on with the field at `offset + 2 + len` whenever that offset
is below the declared end. -/
theorem print_mac_renders_or_reports :
    (∀ (buf pre rest : List Nat) (v0 v1 v2 v3 v4 v5 : Nat),
      buf = pre ++ field_bytes TLV_CODE_MAC_BASE [v0, v1, v2, v3, v4, v5] ++ rest →
      print_mac buf pre.length
        = Except.ok (fmt_02x v0 ++ [':'] ++ fmt_02x v1 ++ [':'] ++ fmt_02x v2 ++ [':']
            ++ fmt_02x v3 ++ [':'] ++ fmt_02x v4 ++ [':'] ++ fmt_02x v5 ++ ['\n'])
      ∧ (fmt_02x v0 ++ [':'] ++ fmt_02x v1 ++ [':'] ++ fmt_02x v2 ++ [':']
            ++ fmt_02x v3 ++ [':'] ++ fmt_02x v4 ++ [':'] ++ fmt_02x v5).length = 17
      ∧ print_field buf pre.length
        = Except.ok ("\tMAC Address base: ".toList
            ++ (fmt_02x v0 ++ [':'] ++ fmt_02x v1 ++ [':'] ++ fmt_02x v2 ++ [':']
            ++ fmt_02x v3 ++ [':'] ++ fmt_02x v4 ++ [':'] ++ fmt_02x v5 ++ ['\n'])))
    ∧ (∀ (buf : List Nat) (off len : Nat),
      rd buf off = Except.ok TLV_CODE_MAC_BASE → rd buf (off + 1) = Except.ok len → len ≠ 6 →
      print_mac buf off
        = Except.ok ("Invalid MAC address, expected 6 bytes, received ".toList
            ++ (Nat.repr len).toList ++ ['\n'])
      ∧ print_field buf off
        = Except.ok ("\tMAC Address base: ".toList
            ++ ("Invalid MAC address, expected 6 bytes, received ".toList
              ++ (Nat.repr len).toList ++ ['\n']))
      ∧ ∀ (tot fuel : Nat), off + (2 + len) < tot → tot ≤ 65536 →
        print_eeprom_loop buf tot (fuel + 1) off
          = (print_eeprom_loop buf tot fuel (off + (2 + len)) >>= fun rows =>
              Except.ok ((⟨off, TLV_CODE_MAC_BASE, len⟩, "\tMAC Address base: ".toList
                ++ ("Invalid MAC address, expected 6 bytes, received ".toList
                  ++ (Nat.repr len).toList ++ ['\n'])) :: rows))) := by
  constructor
  · intro buf pre rest v0 v1 v2 v3 v4 v5 hlayout
    have ht : rd buf pre.length = Except.ok TLV_CODE_MAC_BASE := by
      rw [hlayout]; exact rd_field_type pre rest _ _ pre.length rfl
    have hl : rd buf (pre.length + 1) = Except.ok 6 := by
      rw [hlayout]; exact rd_field_len pre rest [v0, v1, v2, v3, v4, v5] _ pre.length rfl
    have h0 : rd buf (pre.length + 2) = Except.ok v0 := by
      have := rd_at (pre ++ [TLV_CODE_MAC_BASE, 6]) ([v1, v2, v3, v4, v5] ++ rest) v0
        (pre.length + 2) (by simp)
      rw [hlayout]; simpa [field_bytes] using this
    have h1 : rd buf (pre.length + 2 + 1) = Except.ok v1 := by
      have := rd_at (pre ++ [TLV_CODE_MAC_BASE, 6, v0]) ([v2, v3, v4, v5] ++ rest) v1
        (pre.length + 2 + 1) (by simp)
      rw [hlayout]; simpa [field_bytes] using this
    have h2 : rd buf (pre.length + 2 + 2) = Except.ok v2 := by
      have := rd_at (pre ++ [TLV_CODE_MAC_BASE, 6, v0, v1]) ([v3, v4, v5] ++ rest) v2
        (pre.length + 2 + 2) (by simp)
      rw [hlayout]; simpa [field_bytes] using this
    have h3 : rd buf (pre.length + 2 + 3) = Except.ok v3 := by
      have := rd_at (pre ++ [TLV_CODE_MAC_BASE, 6, v0, v1, v2]) ([v4, v5] ++ rest) v3
        (pre.length + 2 + 3) (by simp)
      rw [hlayout]; simpa [field_bytes] using this
    have h4 : rd buf (pre.length + 2 + 4) = Except.ok v4 := by
      have := rd_at (pre ++ [TLV_CODE_MAC_BASE, 6, v0, v1, v2, v3]) ([v5] ++ rest) v4
        (pre.length + 2 + 4) (by simp)
      rw [hlayout]; simpa [field_bytes] using this
    have h5 : rd buf (pre.length + 2 + 5) = Except.ok v5 := by
      have := rd_at (pre ++ [TLV_CODE_MAC_BASE, 6, v0, v1, v2, v3, v4]) rest v5
        (pre.length + 2 + 5) (by simp)
      rw [hlayout]; simpa [field_bytes] using this
    have hloop := print_mac_loop_six h0 h1 h2 h3 h4 h5
    have hmac : print_mac buf pre.length
        = Except.ok (fmt_02x v0 ++ [':'] ++ fmt_02x v1 ++ [':'] ++ fmt_02x v2 ++ [':']
            ++ fmt_02x v3 ++ [':'] ++ fmt_02x v4 ++ [':'] ++ fmt_02x v5 ++ ['\n']) := by
      simp only [print_mac, hl, ok_bind, ne_eq, not_true_eq_false, if_false, hloop,
        pure_eq_ok]
      rfl
    refine ⟨hmac, by simp [fmt_02x], ?_⟩
    simp only [print_field, ht, ok_bind, if_true, hmac, pure_eq_ok]
    rfl
  · intro buf off len ht hl h6
    have hmac := print_mac_invalid hl h6
    have hfield : print_field buf off
        = Except.ok ("\tMAC Address base: ".toList
            ++ ("Invalid MAC address, expected 6 bytes, received ".toList
              ++ (Nat.repr len).toList ++ ['\n'])) := by
      simp only [print_field, ht, ok_bind, if_true, hmac, pure_eq_ok]
      rfl
    refine ⟨hmac, hfield, ?_⟩
    intro tot fuel hlt h16
    have hmod : (off + (2 + len)) % 65536 = off + (2 + len) := Nat.mod_eq_of_lt (by omega)
    simp only [print_eeprom_loop, hfield, ht, hl, ok_bind, pure_eq_ok, hmod]
    rw [if_neg (by omega)]

set_option maxRecDepth 100000 in
/-- Witness for `print_mac_renders_or_reports`: the field `{0x24, 6, 00:11:22:aa:bb:cc}` and
a field of type 0x24 whose length byte is 5 and whose value bytes lie outside the buffer. -/
theorem print_mac_renders_or_reports_witness :
    print_mac [0x24, 6, 0x00, 0x11, 0x22, 0xAA, 0xBB, 0xCC] 0
      = Except.ok "00:11:22:aa:bb:cc\n".toList
    ∧ print_mac [0x24, 5] 0
      = Except.ok "Invalid MAC address, expected 6 bytes, received 5\n".toList :=
  ⟨(print_mac_renders_or_reports.1 [0x24, 6, 0x00, 0x11, 0x22, 0xAA, 0xBB, 0xCC] [] []
      0x00 0x11 0x22 0xAA 0xBB 0xCC (by decide)).1,
   (print_mac_renders_or_reports.2 [0x24, 5] 0 5 (by decide) (by decide) (by decide)).1⟩

set_option maxRecDepth 100000 in
/-- The label of each of the 13 defined type codes differs from the label for unknown codes. -/
theorem print_type_name_known (t : Nat)
    (h : t ∈ [0x21, 0x22, 0x23, 0x24, 0x25, 0x26, 0x28, 0x2A, 0x2B, 0x2C, 0x2D, 0xFD, 0xFE]) :
    print_type_name t ≠ '\t' :: ("Unknown type (".toList ++ fmt_02x t ++ "): ".toList) := by
  simp only [List.mem_cons, List.mem_singleton, List.not_mem_nil, or_false] at h
  rcases h with h | h | h | h | h | h | h | h | h | h | h | h | h <;> subst h <;> decide

/-- The label of every other type code. -/
theorem print_type_name_unknown (t : Nat)
    (h : t ∉ [0x21, 0x22, 0x23, 0x24, 0x25, 0x26, 0x28, 0x2A, 0x2B, 0x2C, 0x2D, 0xFD, 0xFE]) :
    print_type_name t = '\t' :: ("Unknown type (".toList ++ fmt_02x t ++ "): ".toList) := by
  simp only [List.mem_cons, List.mem_singleton, List.not_mem_nil, or_false, not_or] at h
  obtain ⟨h1, h2, h3, h4, h5, h6, h7, h8, h9, h10, h11, h12, h13⟩ := h
  simp only [print_type_name, TLV_CODE_MAC_BASE, TLV_CODE_PRODUCT_NAME, TLV_CODE_PART_NUMBER,
    TLV_CODE_SERIAL_NUMBER, TLV_CODE_MANUF_DATE, TLV_CODE_DEVICE_VERSION,
    TLV_CODE_PLATFORM_NAME, TLV_CODE_MAC_SIZE, TLV_CODE_MANUF_NAME, TLV_CODE_MANUF_COUNTRY,
    TLV_CODE_VENDOR_NAME, TLV_CODE_VENDOR_EXT, TLV_CODE_CRC_32, if_neg h1, if_neg h2,
    if_neg h3, if_neg h4, if_neg h5, if_neg h6, if_neg h7, if_neg h8, if_neg h9, if_neg h10,
    if_neg h11, if_neg h12, if_neg h13]
  rfl

/-- Claim C16: for the field at `off` with type code `t`, `print_field` writes the label of
`t` followed by the output of the MAC renderer when `t = 0x24`, of the string renderer when
`t` is one of 0x21, 0x22, 0x23, 0x28, 0x2B, 0x2C, 0x2D, and of the hex renderer for every other
code; the string renderer writes the value bytes of the field one character each, unchanged
and all of them, followed by a newline; and the label is `Unknown type (xx): ` (after the tab
that starts every label), with the code as two hex digits, exactly for the codes outside the
13 defined ones. -/
theorem print_field_dispatch (buf : List Nat) (off t : Nat) (ht : rd buf off = Except.ok t) :
    (t = 0x24 →
      print_field buf off
        = (print_mac buf off >>= fun s => Except.ok (print_type_name t ++ s)))
    ∧ (t ∈ [0x21, 0x22, 0x23, 0x28, 0x2B, 0x2C, 0x2D] →
      print_field buf off
        = (print_string buf off >>= fun s => Except.ok (print_type_name t ++ s)))
    ∧ (t ∉ [0x24, 0x21, 0x22, 0x23, 0x28, 0x2B, 0x2C, 0x2D] →
      print_field buf off
        = (print_general buf off >>= fun s => Except.ok (print_type_name t ++ s)))
    ∧ (∀ (pre rest v : List Nat), buf = pre ++ field_bytes t v ++ rest → off = pre.length →
      print_string buf off = Except.ok (v.map Char.ofNat ++ ['\n']))
    ∧ (print_type_name t = '\t' :: ("Unknown type (".toList ++ fmt_02x t ++ "): ".toList)
      ↔ t ∉ [0x21, 0x22, 0x23, 0x24, 0x25, 0x26, 0x28, 0x2A, 0x2B, 0x2C, 0x2D, 0xFD, 0xFE]) := by
  have hdef : print_field buf off
      = ((if t = TLV_CODE_MAC_BASE then print_mac buf off
          else if t = TLV_CODE_PRODUCT_NAME ∨ t = TLV_CODE_SERIAL_NUMBER
              ∨ t = TLV_CODE_PLATFORM_NAME ∨ t = TLV_CODE_MANUF_COUNTRY
              ∨ t = TLV_CODE_VENDOR_NAME ∨ t = TLV_CODE_MANUF_NAME
              ∨ t = TLV_CODE_PART_NUMBER then print_string buf off
          else print_general buf off) >>= fun s => Except.ok (print_type_name t ++ s)) := by
    simp only [print_field, ht, ok_bind, pure_eq_ok]
    split_ifs <;> rfl
  refine ⟨?_, ?_, ?_, ?_, ?_⟩
  · intro h
    rw [hdef, if_pos (by rw [h]; rfl)]
  · intro h
    simp only [List.mem_cons, List.mem_singleton, List.not_mem_nil, or_false] at h
    rw [hdef, if_neg (by simp only [TLV_CODE_MAC_BASE]; omega),
      if_pos (by
        simp only [TLV_CODE_PRODUCT_NAME, TLV_CODE_SERIAL_NUMBER, TLV_CODE_PLATFORM_NAME,
          TLV_CODE_MANUF_COUNTRY, TLV_CODE_VENDOR_NAME, TLV_CODE_MANUF_NAME,
          TLV_CODE_PART_NUMBER]
        omega)]
  · intro h
    simp only [List.mem_cons, List.mem_singleton, List.not_mem_nil, or_false, not_or] at h
    rw [hdef, if_neg (by simp only [TLV_CODE_MAC_BASE]; omega),
      if_neg (by
        simp only [TLV_CODE_PRODUCT_NAME, TLV_CODE_SERIAL_NUMBER, TLV_CODE_PLATFORM_NAME,
          TLV_CODE_MANUF_COUNTRY, TLV_CODE_VENDOR_NAME, TLV_CODE_MANUF_NAME,
          TLV_CODE_PART_NUMBER]
        omega)]
  · intro pre rest v hlayout hoff
    subst hoff
    have hl : rd buf (pre.length + 1) = Except.ok v.length := by
      rw [hlayout]; exact rd_field_len pre rest v t pre.length rfl
    have hbuf : pre ++ field_bytes t v ++ rest = (pre ++ [t, v.length]) ++ v ++ rest := by
      simp [field_bytes]
    have hloop := print_string_loop_eq v (pre ++ [t, v.length]) rest
    rw [← hbuf, ← hlayout] at hloop
    simp only [List.length_append, List.length_cons, List.length_nil] at hloop
    simp only [print_string, hl, ok_bind, pure_eq_ok]
    rw [show pre.length + 2 = pre.length + (0 + 1 + 1) by omega, hloop, ok_bind]
    rfl
  · constructor
    · intro h hmem
      exact print_type_name_known t hmem h
    · exact print_type_name_unknown t

set_option maxRecDepth 100000 in
/-- Witness for `print_field_dispatch`: the field `{0x2B, 3, "Abc"}` goes to the string
renderer and is printed as `Abc`; its label is not the one for unknown codes. -/
theorem print_field_dispatch_witness :
    print_field [0x2B, 3, 0x41, 0x62, 0x63] 0
      = (print_string [0x2B, 3, 0x41, 0x62, 0x63] 0 >>= fun s =>
          Except.ok (print_type_name 0x2B ++ s))
    ∧ print_string [0x2B, 3, 0x41, 0x62, 0x63] 0 = Except.ok ("Abc".toList ++ ['\n']) :=
  have h := print_field_dispatch [0x2B, 3, 0x41, 0x62, 0x63] 0 0x2B (by decide)
  ⟨h.2.1 (by decide), h.2.2.2.1 [] [] [0x41, 0x62, 0x63] (by decide) (by decide)⟩

/-! ## Single-bit error detection of the CRC engine (C18) -/

/-- Claim C18: for every byte sequence `b` of length at most 65535 and every bit position `j`
in it (bit `j % 8` of byte `j / 8`, which exists only if `b` has at least one byte),
`tlv_calc_crc32` over `b` with that bit flipped and over `b` both return a value, and the two
values differ. -/
theorem tlv_calc_crc32_detects_bit_flip (b : List Nat) (j : Nat) (hb : ∀ x ∈ b, x < 256)
    (h2 : b.length ≤ 65535) (hj : j < 8 * b.length) :
    ∃ c d, tlv_calc_crc32 (flip_bit b (j / 8) (j % 8)) b.length = Except.ok c
      ∧ tlv_calc_crc32 b b.length = Except.ok d ∧ c ≠ d := by
  have hi : j / 8 < b.length := by omega
  have hk : j % 8 < 8 := Nat.mod_lt _ (by norm_num)
  have hfl := flip_bit_length b (j / 8) (j % 8)
  have e1 := tlv_calc_crc32_take (flip_bit b (j / 8) (j % 8)) b.length (by omega) h2
  have e2 := tlv_calc_crc32_take b b.length (Nat.le_refl _) h2
  exact ⟨_, _, e1, e2, crc32_ref_flip b (j % 8) hb hk hi (Nat.le_refl _)⟩

set_option maxRecDepth 100000 in
/-- Witness for `tlv_calc_crc32_detects_bit_flip`: flipping bit 0 of the second byte of
`"AB"` (bit position 8), which gives `"AC"`, changes the CRC-32. -/
theorem tlv_calc_crc32_detects_bit_flip_witness :
    flip_bit [0x41, 0x42] 1 0 = [0x41, 0x43]
    ∧ tlv_calc_crc32 [0x41, 0x43] 2 ≠ tlv_calc_crc32 [0x41, 0x42] 2 := by
  obtain ⟨c, d, e1, e2, hne⟩ :=
    tlv_calc_crc32_detects_bit_flip [0x41, 0x42] 8 (by decide) (by decide) (by decide)
  have e3 : tlv_calc_crc32 [0x41, 0x43] 2 = Except.ok c := e1
  have e4 : tlv_calc_crc32 [0x41, 0x42] 2 = Except.ok d := e2
  refine ⟨by decide, ?_⟩
  rw [e3, e4]
  intro h
  injection h with h
  exact hne h

/-! ## Termination and offsets of the field walk (C19) -/

theorem rd_ne_nofuel (buf : List Nat) (i : Nat) : rd buf i ≠ Except.error Err.nofuel := by
  by_cases h : i < buf.length
  · rw [rd_eq_ok h]; intro h2; cases h2
  · rw [rd_eq_oob (by omega)]; intro h2; cases h2

theorem bind_ne_nofuel {α β : Type} {x : Except Err α} {f : α → Except Err β}
    (hx : x ≠ Except.error Err.nofuel) (hf : ∀ a, f a ≠ Except.error Err.nofuel) :
    (x >>= f) ≠ Except.error Err.nofuel := by
  cases x with
  | error e =>
    rw [error_bind]
    intro h
    injection h with h
    subst h
    exact hx rfl
  | ok a => rw [ok_bind]; exact hf a

theorem ok_ne_nofuel {α : Type} (a : α) :
    (Except.ok a : Except Err α) ≠ Except.error Err.nofuel := by
  intro h; cases h

theorem error_ne_nofuel {α β : Type} {e : Err}
    (h : (Except.error e : Except Err α) ≠ Except.error Err.nofuel) :
    (Except.error e : Except Err β) ≠ Except.error Err.nofuel := by
  intro h2
  injection h2 with h2
  subst h2
  exact h rfl

theorem rdn_ne_nofuel (buf : List Nat) (n : Nat) : ∀ (off : Nat),
    rdn buf off n ≠ Except.error Err.nofuel := by
  induction n with
  | zero => intro off h; cases h
  | succ n ih =>
    intro off
    have hr := rd_ne_nofuel buf off
    have hn := ih (off + 1)
    unfold rdn
    cases h1 : rd buf off with
    | error e => rw [h1] at hr; intro h; injection h with h; subst h; exact hr rfl
    | ok b =>
      cases h2 : rdn buf (off + 1) n with
      | error e =>
        rw [h2] at hn; intro h; injection h with h; subst h; exact hn rfl
      | ok bs => intro h; cases h

theorem GET_TLV_DATA_ne_nofuel (buf : List Nat) (off len : Nat) (output : Option Nat) :
    GET_TLV_DATA buf off len output ≠ Except.error Err.nofuel := by
  unfold GET_TLV_DATA
  cases output with
  | none => exact ok_ne_nofuel _
  | some cap =>
    by_cases h : len ≤ cap
    · simp only [if_pos h]
      exact bind_ne_nofuel (rdn_ne_nofuel buf len off) (fun _ => ok_ne_nofuel _)
    · simp only [if_neg h]
      intro h2; cases h2

theorem print_general_loop_ne_nofuel (buf : List Nat) (ptr : Nat) (n : Nat) : ∀ (i : Nat),
    print_general_loop buf ptr n i ≠ Except.error Err.nofuel := by
  induction n with
  | zero => intro i; exact ok_ne_nofuel _
  | succ n ih =>
    intro i
    unfold print_general_loop
    exact bind_ne_nofuel (rd_ne_nofuel _ _) (fun _ =>
      bind_ne_nofuel (ih (i + 1)) (fun _ => ok_ne_nofuel _))

theorem print_string_loop_ne_nofuel (buf : List Nat) (n : Nat) : ∀ (ptr : Nat),
    print_string_loop buf ptr n ≠ Except.error Err.nofuel := by
  induction n with
  | zero => intro ptr; exact ok_ne_nofuel _
  | succ n ih =>
    intro ptr
    unfold print_string_loop
    exact bind_ne_nofuel (rd_ne_nofuel _ _) (fun _ =>
      bind_ne_nofuel (ih (ptr + 1)) (fun _ => ok_ne_nofuel _))

theorem print_mac_loop_ne_nofuel (buf : List Nat) (ptr : Nat) (n : Nat) : ∀ (i : Nat),
    print_mac_loop buf ptr n i ≠ Except.error Err.nofuel := by
  induction n with
  | zero => intro i; exact ok_ne_nofuel _
  | succ n ih =>
    intro i
    unfold print_mac_loop
    exact bind_ne_nofuel (rd_ne_nofuel _ _) (fun _ =>
      bind_ne_nofuel (ih (i + 1)) (fun _ => ok_ne_nofuel _))

/-- Printing a field never runs out of fuel: its loops are bounded by the length byte. -/
theorem print_field_ne_nofuel (buf : List Nat) (off : Nat) :
    print_field buf off ≠ Except.error Err.nofuel := by
  have hg : print_general buf off ≠ Except.error Err.nofuel :=
    bind_ne_nofuel (rd_ne_nofuel _ _) (fun _ =>
      bind_ne_nofuel (print_general_loop_ne_nofuel _ _ _ _) (fun _ => ok_ne_nofuel _))
  have hs : print_string buf off ≠ Except.error Err.nofuel :=
    bind_ne_nofuel (rd_ne_nofuel _ _) (fun _ =>
      bind_ne_nofuel (print_string_loop_ne_nofuel _ _ _) (fun _ => ok_ne_nofuel _))
  have hm : print_mac buf off ≠ Except.error Err.nofuel := by
    unfold print_mac
    refine bind_ne_nofuel (rd_ne_nofuel _ _) (fun len => ?_)
    by_cases h6 : len ≠ 6
    · simp only [if_pos h6]; exact ok_ne_nofuel _
    · simp only [if_neg h6]
      exact bind_ne_nofuel (print_mac_loop_ne_nofuel _ _ _ _) (fun _ => ok_ne_nofuel _)
  unfold print_field
  refine bind_ne_nofuel (rd_ne_nofuel _ _) (fun t => ?_)
  split_ifs
  · exact bind_ne_nofuel hm (fun _ => ok_ne_nofuel _)
  · exact bind_ne_nofuel hs (fun _ => ok_ne_nofuel _)
  · exact bind_ne_nofuel hg (fun _ => ok_ne_nofuel _)

/-- A byte read from a buffer of at most 256 bytes: the index and the value are below 256. -/
theorem rd_byte {buf : List Nat} {i b : Nat} (hlen : buf.length ≤ 256)
    (hb : ∀ x ∈ buf, x < 256) (h : rd buf i = Except.ok b) : i < 256 ∧ b < 256 := by
  obtain ⟨hi, hv⟩ := (rd_ok_iff buf i b).mp h
  exact ⟨by omega, by rw [← hv]; exact hb _ (List.getElem_mem _)⟩

/-- The enumeration loop needs at most `max 1 ((tot - off + 1) / 2)` passes from offset `off`:
with that much fuel it does not run out, and more fuel does not change its result. -/
theorem print_eeprom_loop_fuel (buf : List Nat) (tot : Nat) (hlen : buf.length ≤ 256)
    (hb : ∀ x ∈ buf, x < 256) (fuel : Nat) :
    ∀ (off fuel2 : Nat), max 1 ((tot - off + 1) / 2) ≤ fuel → fuel ≤ fuel2 →
      print_eeprom_loop buf tot fuel2 off = print_eeprom_loop buf tot fuel off
      ∧ print_eeprom_loop buf tot fuel off ≠ Except.error Err.nofuel := by
  induction fuel with
  | zero => intro off fuel2 h; omega
  | succ fuel ih =>
    intro off fuel2 h1 h2
    obtain ⟨f2, rfl⟩ : ∃ f2, fuel2 = f2 + 1 := ⟨fuel2 - 1, by omega⟩
    have hpn := print_field_ne_nofuel buf off
    have hrn := rd_ne_nofuel buf off
    have hln := rd_ne_nofuel buf (off + 1)
    cases hp : print_field buf off with
    | error e =>
      rw [hp] at hpn
      simp only [print_eeprom_loop, hp, error_bind]
      exact ⟨trivial, error_ne_nofuel hpn⟩
    | ok text =>
      cases ht : rd buf off with
      | error e =>
        rw [ht] at hrn
        simp only [print_eeprom_loop, hp, ht, ok_bind, error_bind]
        exact ⟨trivial, error_ne_nofuel hrn⟩
      | ok t =>
        cases hl : rd buf (off + 1) with
        | error e =>
          rw [hl] at hln
          simp only [print_eeprom_loop, hp, ht, hl, ok_bind, error_bind]
          exact ⟨trivial, error_ne_nofuel hln⟩
        | ok l =>
          obtain ⟨ho, hl256⟩ := rd_byte hlen hb hl
          have hmod : (off + (2 + l)) % 65536 = off + (2 + l) :=
            Nat.mod_eq_of_lt (by omega)
          simp only [print_eeprom_loop, hp, ht, hl, ok_bind, pure_eq_ok, hmod]
          by_cases hend : tot ≤ off + (2 + l)
          · simp only [ge_iff_le, if_pos hend]
            exact ⟨trivial, ok_ne_nofuel _⟩
          · simp only [ge_iff_le, if_neg hend]
            obtain ⟨e1, e2⟩ := ih (off + (2 + l)) f2 (by omega) (by omega)
            rw [e1]
            exact ⟨rfl, bind_ne_nofuel e2 (fun _ => ok_ne_nofuel _)⟩

/-- The lookup loop needs at most `max 1 ((tot - off + 1) / 2)` passes from offset `off`. -/
theorem tlv_find_loop_fuel (buf : List Nat) (code : Nat) (output : Option Nat) (oo : Bool)
    (tot : Nat) (hlen : buf.length ≤ 256) (hb : ∀ x ∈ buf, x < 256) (fuel : Nat) :
    ∀ (off fuel2 : Nat), max 1 ((tot - off + 1) / 2) ≤ fuel → fuel ≤ fuel2 →
      tlv_find_loop buf code output oo tot fuel2 off
        = tlv_find_loop buf code output oo tot fuel off
      ∧ tlv_find_loop buf code output oo tot fuel off ≠ Except.error Err.nofuel := by
  induction fuel with
  | zero => intro off fuel2 h; omega
  | succ fuel ih =>
    intro off fuel2 h1 h2
    obtain ⟨f2, rfl⟩ : ∃ f2, fuel2 = f2 + 1 := ⟨fuel2 - 1, by omega⟩
    have hrn := rd_ne_nofuel buf off
    have hln := rd_ne_nofuel buf (off + 1)
    cases ht : rd buf off with
    | error e =>
      rw [ht] at hrn
      simp only [tlv_find_loop, ht, error_bind]
      exact ⟨trivial, error_ne_nofuel hrn⟩
    | ok t =>
      cases hl : rd buf (off + 1) with
      | error e =>
        rw [hl] at hln
        simp only [tlv_find_loop, ht, hl, ok_bind, error_bind]
        exact ⟨trivial, error_ne_nofuel hln⟩
      | ok l =>
        obtain ⟨ho, hl256⟩ := rd_byte hlen hb hl
        have hmod : (off + (2 + l)) % 65536 = off + (2 + l) := Nat.mod_eq_of_lt (by omega)
        by_cases hc : t = code
        · rw [← hc, tlv_find_loop_match output oo tot f2 ht hl,
            tlv_find_loop_match output oo tot fuel ht hl]
          exact ⟨rfl, bind_ne_nofuel (GET_TLV_DATA_ne_nofuel _ _ _ _)
            (fun _ => ok_ne_nofuel _)⟩
        · by_cases hcrc : t = TLV_CODE_CRC_32
          · rw [tlv_find_loop_crc output oo tot f2 ht hl hc hcrc,
              tlv_find_loop_crc output oo tot fuel ht hl hc hcrc]
            exact ⟨rfl, ok_ne_nofuel _⟩
          · by_cases hend : tot ≤ off + (2 + l)
            · rw [tlv_find_loop_end output oo tot f2 ht hl hc (by rw [hmod]; exact hend),
                tlv_find_loop_end output oo tot fuel ht hl hc (by rw [hmod]; exact hend)]
              exact ⟨rfl, ok_ne_nofuel _⟩
            · rw [tlv_find_loop_next output oo tot f2 ht hl hc hcrc (by rw [hmod]; omega),
                tlv_find_loop_next output oo tot fuel ht hl hc hcrc (by rw [hmod]; omega),
                hmod]
              exact ih (off + (2 + l)) f2 (by omega) (by omega)

/-- The recorded lookup walk needs at most `max 1 ((tot - off + 1) / 2)` passes. -/
theorem tlv_find_visits_fuel (buf : List Nat) (code tot : Nat) (hlen : buf.length ≤ 256)
    (hb : ∀ x ∈ buf, x < 256) (fuel : Nat) :
    ∀ (off fuel2 : Nat), max 1 ((tot - off + 1) / 2) ≤ fuel → fuel ≤ fuel2 →
      tlv_find_visits buf code tot fuel2 off = tlv_find_visits buf code tot fuel off
      ∧ tlv_find_visits buf code tot fuel off ≠ Except.error Err.nofuel := by
  induction fuel with
  | zero => intro off fuel2 h; omega
  | succ fuel ih =>
    intro off fuel2 h1 h2
    obtain ⟨f2, rfl⟩ : ∃ f2, fuel2 = f2 + 1 := ⟨fuel2 - 1, by omega⟩
    have hrn := rd_ne_nofuel buf off
    have hln := rd_ne_nofuel buf (off + 1)
    cases ht : rd buf off with
    | error e =>
      rw [ht] at hrn
      simp only [tlv_find_visits, ht, error_bind]
      exact ⟨trivial, error_ne_nofuel hrn⟩
    | ok t =>
      cases hl : rd buf (off + 1) with
      | error e =>
        rw [hl] at hln
        simp only [tlv_find_visits, ht, hl, ok_bind, error_bind]
        exact ⟨trivial, error_ne_nofuel hln⟩
      | ok l =>
        obtain ⟨ho, hl256⟩ := rd_byte hlen hb hl
        have hmod : (off + (2 + l)) % 65536 = off + (2 + l) := Nat.mod_eq_of_lt (by omega)
        simp only [tlv_find_visits, ht, hl, ok_bind, pure_eq_ok, hmod]
        by_cases hc : t = code
        · simp only [if_pos hc]
          exact ⟨trivial, ok_ne_nofuel _⟩
        · simp only [if_neg hc]
          by_cases hcrc : t = TLV_CODE_CRC_32
          · simp only [if_pos hcrc]
            exact ⟨trivial, ok_ne_nofuel _⟩
          · simp only [if_neg hcrc]
            by_cases hend : tot ≤ off + (2 + l)
            · simp only [ge_iff_le, if_pos hend]
              exact ⟨trivial, ok_ne_nofuel _⟩
            · simp only [ge_iff_le, if_neg hend]
              obtain ⟨e1, e2⟩ := ih (off + (2 + l)) f2 (by omega) (by omega)
              rw [e1]
              exact ⟨rfl, bind_ne_nofuel e2 (fun _ => ok_ne_nofuel _)⟩

/-- The shape of the fields recorded by a finished run of the lookup walk that starts at
`off`. -/
theorem tlv_find_visits_walk (buf : List Nat) (code tot : Nat) (hlen : buf.length ≤ 256)
    (hb : ∀ x ∈ buf, x < 256) (fuel : Nat) :
    ∀ (off : Nat) (vs : List tlv_field), tlv_find_visits buf code tot fuel off = Except.ok vs →
      vs.head?.map tlv_field.off = some off
      ∧ List.Chain' (fun a b => b.off = a.off + (2 + a.len)) vs
      ∧ (∀ f ∈ vs, (f.off = off ∨ f.off < tot) ∧ f.len < 256)
      ∧ 1 ≤ vs.length ∧ vs.length ≤ max 1 ((tot - off + 1) / 2) := by
  induction fuel with
  | zero => intro off vs h; simp [tlv_find_visits, throw_eq_error] at h
  | succ fuel ih =>
    intro off vs h
    cases ht : rd buf off with
    | error e => simp [tlv_find_visits, ht, error_bind] at h
    | ok t =>
      cases hl : rd buf (off + 1) with
      | error e => simp [tlv_find_visits, ht, hl, ok_bind, error_bind] at h
      | ok l =>
        obtain ⟨ho, hl256⟩ := rd_byte hlen hb hl
        have hmod : (off + (2 + l)) % 65536 = off + (2 + l) := Nat.mod_eq_of_lt (by omega)
        simp only [tlv_find_visits, ht, hl, ok_bind, pure_eq_ok, hmod] at h
        have hone : ∀ ws : List tlv_field, ws = [⟨off, t, l⟩] →
            ws.head?.map tlv_field.off = some off
            ∧ List.Chain' (fun a b => b.off = a.off + (2 + a.len)) ws
            ∧ (∀ f ∈ ws, (f.off = off ∨ f.off < tot) ∧ f.len < 256)
            ∧ 1 ≤ ws.length ∧ ws.length ≤ max 1 ((tot - off + 1) / 2) := by
          intro ws hws
          subst hws
          refine ⟨rfl, List.chain'_singleton _, ?_, by simp, by simp⟩
          intro f hf
          rw [List.mem_singleton] at hf
          subst hf
          exact ⟨Or.inl rfl, hl256⟩
        by_cases hc : t = code
        · rw [if_pos hc] at h
          injection h with h
          exact hone vs h.symm
        · rw [if_neg hc] at h
          by_cases hcrc : t = TLV_CODE_CRC_32
          · rw [if_pos hcrc] at h
            injection h with h
            exact hone vs h.symm
          · rw [if_neg hcrc] at h
            by_cases hend : tot ≤ off + (2 + l)
            · rw [if_pos hend] at h
              injection h with h
              exact hone vs h.symm
            · rw [if_neg hend] at h
              cases hrest : tlv_find_visits buf code tot fuel (off + (2 + l)) with
              | error e => rw [hrest] at h; simp [error_bind] at h
              | ok rest =>
                rw [hrest, ok_bind] at h
                injection h with h
                subst h
                obtain ⟨i1, i2, i3, i4, i5⟩ := ih _ rest hrest
                refine ⟨rfl, ?_, ?_, by simp, ?_⟩
                · rw [List.chain'_cons']
                  refine ⟨?_, i2⟩
                  intro y hy
                  rw [Option.mem_def] at hy
                  rw [hy] at i1
                  simp only [Option.map_some'] at i1
                  injection i1
                · intro f hf
                  rcases List.mem_cons.mp hf with h1 | h1
                  · subst h1; exact ⟨Or.inl rfl, hl256⟩
                  · obtain ⟨j1, j2⟩ := i3 f h1
                    exact ⟨Or.inr (by omega), j2⟩
                · rw [List.length_cons]
                  omega

/-- The shape of the fields visited by a finished run of the enumeration loop that starts at
`off`. -/
theorem print_eeprom_loop_walk (buf : List Nat) (tot : Nat) (hlen : buf.length ≤ 256)
    (hb : ∀ x ∈ buf, x < 256) (fuel : Nat) :
    ∀ (off : Nat) (rows : List (tlv_field × List Char)),
      print_eeprom_loop buf tot fuel off = Except.ok rows →
      (rows.map Prod.fst).head?.map tlv_field.off = some off
      ∧ List.Chain' (fun a b => b.off = a.off + (2 + a.len)) (rows.map Prod.fst)
      ∧ (∀ f ∈ rows.map Prod.fst, (f.off = off ∨ f.off < tot) ∧ f.len < 256)
      ∧ 1 ≤ (rows.map Prod.fst).length
      ∧ (rows.map Prod.fst).length ≤ max 1 ((tot - off + 1) / 2) := by
  induction fuel with
  | zero => intro off rows h; simp [print_eeprom_loop, throw_eq_error] at h
  | succ fuel ih =>
    intro off rows h
    cases hp : print_field buf off with
    | error e => simp [print_eeprom_loop, hp, error_bind] at h
    | ok text =>
      cases ht : rd buf off with
      | error e => simp [print_eeprom_loop, hp, ht, ok_bind, error_bind] at h
      | ok t =>
        cases hl : rd buf (off + 1) with
        | error e => simp [print_eeprom_loop, hp, ht, hl, ok_bind, error_bind] at h
        | ok l =>
          obtain ⟨ho, hl256⟩ := rd_byte hlen hb hl
          have hmod : (off + (2 + l)) % 65536 = off + (2 + l) :=
            Nat.mod_eq_of_lt (by omega)
          simp only [print_eeprom_loop, hp, ht, hl, ok_bind, pure_eq_ok, hmod] at h
          by_cases hend : tot ≤ off + (2 + l)
          · rw [if_pos hend] at h
            injection h with h
            subst h
            refine ⟨rfl, List.chain'_singleton _, ?_, by simp, by simp⟩
            intro f hf
            simp only [List.map_cons, List.map_nil, List.mem_singleton] at hf
            subst hf
            exact ⟨Or.inl rfl, hl256⟩
          · rw [if_neg hend] at h
            cases hrest : print_eeprom_loop buf tot fuel (off + (2 + l)) with
            | error e => rw [hrest] at h; simp [error_bind] at h
            | ok rest =>
              rw [hrest, ok_bind] at h
              injection h with h
              subst h
              obtain ⟨i1, i2, i3, i4, i5⟩ := ih _ rest hrest
              rw [List.map_cons]
              refine ⟨rfl, ?_, ?_, by simp, ?_⟩
              · rw [List.chain'_cons']
                refine ⟨?_, i2⟩
                intro y hy
                rw [Option.mem_def] at hy
                rw [hy] at i1
                simp only [Option.map_some'] at i1
                injection i1
              · intro f hf
                rcases List.mem_cons.mp hf with h1 | h1
                · subst h1; exact ⟨Or.inl rfl, hl256⟩
                · obtain ⟨j1, j2⟩ := i3 f h1
                  exact ⟨Or.inr (by omega), j2⟩
              · rw [List.length_cons]
                omega

/-- Every finished lookup has a recorded walk, which ends at the field it returned. -/
theorem tlv_find_loop_visits (buf : List Nat) (code : Nat) (output : Option Nat) (oo : Bool)
    (tot : Nat) (fuel : Nat) : ∀ (off : Nat) (r : FindResult),
    tlv_find_loop buf code output oo tot fuel off = Except.ok r →
      ∃ vs, tlv_find_visits buf code tot fuel off = Except.ok vs
        ∧ ∀ p, r.offset_out = some p → vs.getLast?.map tlv_field.off = some p := by
  induction fuel with
  | zero => intro off r h; simp [tlv_find_loop, throw_eq_error] at h
  | succ fuel ih =>
    intro off r h
    cases ht : rd buf off with
    | error e => simp [tlv_find_loop, ht, error_bind] at h
    | ok t =>
      cases hl : rd buf (off + 1) with
      | error e => simp [tlv_find_loop, ht, hl, ok_bind, error_bind] at h
      | ok l =>
        by_cases hc : t = code
        · rw [← hc, tlv_find_loop_match output oo tot fuel ht hl] at h
          refine ⟨[⟨off, t, l⟩], ?_, ?_⟩
          · simp only [tlv_find_visits, ht, hl, ok_bind, pure_eq_ok, if_pos hc]
          · intro p hp
            cases hd : GET_TLV_DATA buf (off + 2) l output with
            | error e => rw [hd] at h; simp [error_bind] at h
            | ok out =>
              rw [hd, ok_bind] at h
              injection h with h
              subst h
              cases oo with
              | false => simp at hp
              | true =>
                simp only [if_true] at hp
                injection hp with hp
                subst hp
                rfl
        · by_cases hcrc : t = TLV_CODE_CRC_32
          · rw [tlv_find_loop_crc output oo tot fuel ht hl hc hcrc] at h
            injection h with h
            subst h
            refine ⟨[⟨off, t, l⟩], ?_, ?_⟩
            · simp only [tlv_find_visits, ht, hl, ok_bind, pure_eq_ok, if_neg hc, if_pos hcrc]
            · intro p hp; simp [not_found] at hp
          · by_cases hend : tot ≤ (off + (2 + l)) % 65536
            · rw [tlv_find_loop_end output oo tot fuel ht hl hc hend] at h
              injection h with h
              subst h
              refine ⟨[⟨off, t, l⟩], ?_, ?_⟩
              · simp only [tlv_find_visits, ht, hl, ok_bind, pure_eq_ok, if_neg hc,
                  if_neg hcrc, ge_iff_le, if_pos hend]
              · intro p hp; simp [not_found] at hp
            · rw [tlv_find_loop_next output oo tot fuel ht hl hc hcrc (by omega)] at h
              obtain ⟨vs, hvs, hlast⟩ := ih _ r h
              refine ⟨⟨off, t, l⟩ :: vs, ?_, ?_⟩
              · simp only [tlv_find_visits, ht, hl, ok_bind, pure_eq_ok, if_neg hc,
                  if_neg hcrc, ge_iff_le, if_neg hend, hvs]
              · intro p hp
                have := hlast p hp
                cases vs with
                | nil => simp at this
                | cons v vs => rw [List.getLast?_cons_cons]; exact this

theorem print_eeprom_rows_unfold (buf : List Nat) {T : Nat}
    (hT : GET_TLV_LEN buf = Except.ok T) (hle : T ≤ 245) :
    print_eeprom_rows buf = print_eeprom_loop buf (T + 11) 65536 11 := by
  have h1 : print_eeprom_rows buf
      = (GET_TLV_LEN buf >>= fun len =>
          print_eeprom_loop buf ((len + 11) % 65536) 65536 11) := rfl
  have h2 : (T + 11) % 65536 = T + 11 := Nat.mod_eq_of_lt (by omega)
  rw [h1, hT, ok_bind, h2]

/-- From the shape of a walk that starts at offset 11 with end `T + 11` to `walk_within`. -/
theorem walk_within_of_shape {T : Nat} {fs : List tlv_field}
    (h : fs.head?.map tlv_field.off = some 11
      ∧ List.Chain' (fun a b => b.off = a.off + (2 + a.len)) fs
      ∧ (∀ f ∈ fs, (f.off = 11 ∨ f.off < T + 11) ∧ f.len < 256)
      ∧ 1 ≤ fs.length ∧ fs.length ≤ max 1 ((T + 11 - 11 + 1) / 2)) :
    walk_within T fs := by
  obtain ⟨h1, h2, h3, h4, h5⟩ := h
  refine ⟨h1, h2, ?_, h4, ?_⟩
  · intro f hf
    obtain ⟨j1, j2⟩ := h3 f hf
    constructor
    · omega
    · intro hT1; omega
  · have e : T + 11 - 11 = T := by omega
    rw [e] at h5
    exact h5

/-- Claim C19, amended: for every 256-byte buffer with a valid header (declared length `T`)
and every type code, `tlv_find` and the loop of `print_eeprom` finish within
`max 1 ((T + 1) / 2)` passes (that much fuel, or any larger amount, gives the result of the
function, which is never the out-of-fuel value).  The fields visited by a finished walk of
either loop start at offset 11, each next offset is the previous one plus 2 plus the length
byte with no 16-bit wrap-around, the offset past any visited field is at most `11 + T + 257`
(below it when `T >= 1`), and between 1 and `max 1 ((T + 1) / 2)` fields are visited.  A
finished `tlv_find` has such a walk, ending at the field it reports. -/
theorem field_walk_terminates (buf : List Nat) (T c : Nat) (output : Option Nat) (oo : Bool)
    (hlen : buf.length = 256) (hb : ∀ x ∈ buf, x < 256)
    (hvalid : is_valid_tlvhdr buf = Except.ok true)
    (hT : GET_TLV_LEN buf = Except.ok T) :
    (∀ fuel, max 1 ((T + 1) / 2) ≤ fuel →
      tlv_find_loop buf c output oo (T + 11) fuel 11 = tlv_find buf c output oo)
    ∧ tlv_find buf c output oo ≠ Except.error Err.nofuel
    ∧ (∀ fuel, max 1 ((T + 1) / 2) ≤ fuel →
      print_eeprom_loop buf (T + 11) fuel 11 = print_eeprom_rows buf)
    ∧ print_eeprom_rows buf ≠ Except.error Err.nofuel
    ∧ (∀ fuel, max 1 ((T + 1) / 2) ≤ fuel →
      tlv_find_visits buf c (T + 11) fuel 11
        = tlv_find_visits buf c (T + 11) (max 1 ((T + 1) / 2)) 11)
    ∧ tlv_find_visits buf c (T + 11) (max 1 ((T + 1) / 2)) 11 ≠ Except.error Err.nofuel
    ∧ (∀ vs, tlv_find_visits buf c (T + 11) (max 1 ((T + 1) / 2)) 11 = Except.ok vs →
      walk_within T vs)
    ∧ (∀ r, tlv_find buf c output oo = Except.ok r →
      ∃ vs, tlv_find_visits buf c (T + 11) (max 1 ((T + 1) / 2)) 11 = Except.ok vs
        ∧ ∀ p, r.offset_out = some p → vs.getLast?.map tlv_field.off = some p)
    ∧ (∀ fs, print_eeprom_fields buf = Except.ok fs → walk_within T fs) := by
  have hle := valid_len_le hvalid hT
  have hl256 : buf.length ≤ 256 := by omega
  have hN : max 1 ((T + 11 - 11 + 1) / 2) = max 1 ((T + 1) / 2) := by
    have e : T + 11 - 11 = T := by omega
    rw [e]
  have hN2 : max 1 ((T + 1) / 2) ≤ 65536 := by omega
  have hfind := tlv_find_unfold buf c output oo hT hle
  have hrows := print_eeprom_rows_unfold buf hT hle
  have f1 := fun fuel2 (h : max 1 ((T + 1) / 2) ≤ fuel2) =>
    tlv_find_loop_fuel buf c output oo (T + 11) hl256 hb (max 1 ((T + 1) / 2)) 11 fuel2
      (by rw [hN]) h
  have f2 := fun fuel2 (h : max 1 ((T + 1) / 2) ≤ fuel2) =>
    print_eeprom_loop_fuel buf (T + 11) hl256 hb (max 1 ((T + 1) / 2)) 11 fuel2
      (by rw [hN]) h
  have f3 := fun fuel2 (h : max 1 ((T + 1) / 2) ≤ fuel2) =>
    tlv_find_visits_fuel buf c (T + 11) hl256 hb (max 1 ((T + 1) / 2)) 11 fuel2
      (by rw [hN]) h
  have hwalk : ∀ vs, tlv_find_visits buf c (T + 11) (max 1 ((T + 1) / 2)) 11 = Except.ok vs →
      walk_within T vs := fun vs hvs =>
    walk_within_of_shape (tlv_find_visits_walk buf c (T + 11) hl256 hb _ 11 vs hvs)
  refine ⟨?_, ?_, ?_, ?_, ?_, (f3 _ (Nat.le_refl _)).2, hwalk, ?_, ?_⟩
  · intro fuel h
    rw [hfind, (f1 fuel h).1, (f1 65536 hN2).1]
  · rw [hfind, (f1 65536 hN2).1]
    exact (f1 65536 hN2).2
  · intro fuel h
    rw [hrows, (f2 fuel h).1, (f2 65536 hN2).1]
  · rw [hrows, (f2 65536 hN2).1]
    exact (f2 65536 hN2).2
  · intro fuel h
    exact (f3 fuel h).1
  · intro r hr
    rw [hfind] at hr
    obtain ⟨vs, hvs, hlast⟩ := tlv_find_loop_visits buf c output oo (T + 11) 65536 11 r hr
    rw [(f3 65536 hN2).1] at hvs
    exact ⟨vs, hvs, hlast⟩
  · intro fs hfs
    rw [print_eeprom_fields_unfold buf hT hle] at hfs
    cases hr : print_eeprom_loop buf (T + 11) 65536 11 with
    | error e => rw [hr] at hfs; simp [error_bind] at hfs
    | ok rows =>
      rw [hr, ok_bind] at hfs
      injection hfs with hfs
      subst hfs
      exact walk_within_of_shape (print_eeprom_loop_walk buf (T + 11) hl256 hb 65536 11 rows hr)

set_option maxRecDepth 1000000 in
/-- Witness for `field_walk_terminates` on `sample_record` (total length 12): the lookup of
the CRC code finishes within 6 passes, and the two fields of the enumeration form a walk
within the bounds. -/
theorem field_walk_terminates_witness :
    tlv_find_loop sample_record 0xFE (some 4) true (12 + 11) 6 11
      = tlv_find sample_record 0xFE (some 4) true
    ∧ walk_within 12 [⟨11, 0x21, 4⟩, ⟨17, 0xFE, 4⟩] :=
  have h := field_walk_terminates sample_record 12 0xFE (some 4) true (by decide) (by decide)
    (by decide) (by decide)
  ⟨h.1 6 (by decide), h.2.2.2.2.2.2.2.2 [⟨11, 0x21, 4⟩, ⟨17, 0xFE, 4⟩] (by decide)⟩

set_option maxRecDepth 1000000 in
/-- Claim C19, as stated, fails on the code.  On `longest_field_buffer` (256 bytes, valid
header, total length 0, a field header `{0x24, 255}` at offset 11) the lookup of type 0x21 and
the enumeration both visit the field at offset 11 and move the offset to 268, which is equal
to, not below, `11 + 0 + 257`. -/
theorem walk_offset_reaches_bound :
    longest_field_buffer.length = 256
    ∧ is_valid_tlvhdr longest_field_buffer = Except.ok true
    ∧ GET_TLV_LEN longest_field_buffer = Except.ok 0
    ∧ tlv_find longest_field_buffer 0x21 none true = Except.ok not_found
    ∧ tlv_find_visits longest_field_buffer 0x21 (0 + 11) 65536 11
      = Except.ok [⟨11, 0x24, 255⟩]
    ∧ print_eeprom_fields longest_field_buffer = Except.ok [⟨11, 0x24, 255⟩]
    ∧ ¬ (11 + (2 + 255) < 11 + 0 + 257) := by
  decide

/-! ## Load-time error propagation (C13) -/

theorem i2c_store_length (buf : List Nat) (off len : Nat) (f : Nat → Nat)
    (h : off + len ≤ buf.length) : (i2c_store buf off len f).length = buf.length := by
  simp only [i2c_store, List.length_append, List.length_take, List.length_map,
    List.length_range, List.length_drop]
  omega

/-- The bytes of the array after a transfer: the received bytes at `off .. off + len - 1`,
the old bytes elsewhere. -/
theorem i2c_store_getD (buf : List Nat) (off len : Nat) (f : Nat → Nat)
    (h : off + len ≤ buf.length) (i : Nat) :
    (i2c_store buf off len f).getD i 0
      = if off ≤ i ∧ i < off + len then f (i - off) % 256 else buf.getD i 0 := by
  have h1 : (buf.take off).length = off := by rw [List.length_take]; omega
  simp only [i2c_store, List.getD_eq_getElem?_getD]
  by_cases hlo : i < off
  · rw [List.append_assoc, List.getElem?_append_left (by omega), List.getElem?_take_of_lt hlo,
      if_neg (by omega)]
  · by_cases hhi : i < off + len
    · rw [List.append_assoc, List.getElem?_append_right (by omega), h1,
        List.getElem?_append_left (by simp; omega), if_pos (by omega)]
      simp [List.getElem?_range (show i - off < len by omega)]
    · rw [List.getElem?_append_right (by simp; omega), if_neg (by omega)]
      simp only [List.length_append, List.length_map, List.length_range, h1,
        List.getElem?_drop]
      congr 2
      omega

/-- A transfer that the device refuses: `i2c_read` prints the ioctl diagnostic and returns
false; the array is unchanged. -/
theorem i2c_read_error (tr : Transport) (fd addr reg len off : Nat) (m : Machine)
    (msg : List Char) (ha : addr < 65536) (hr : reg < 256) (hl : len < 65536)
    (h : tr.transfer fd addr reg len = Except.error msg) :
    i2c_read tr fd addr reg len off m
      = Except.ok (false, ⟨m.eeprom,
          m.out ++ ("ioctl error while reading data from I2C bus - ".toList ++ msg
            ++ "\n".toList),
          m.reads ++ [(fd, addr, reg, len)]⟩) := by
  simp only [i2c_read, Nat.mod_eq_of_lt ha, Nat.mod_eq_of_lt hr, Nat.mod_eq_of_lt hl, h,
    Machine.printf, pure_eq_ok]

/-- A transfer that succeeds: `i2c_read` stores the received bytes and returns true. -/
theorem i2c_read_ok (tr : Transport) (fd addr reg len off : Nat) (m : Machine)
    (f : Nat → Nat) (ha : addr < 65536) (hr : reg < 256) (hl : len < 65536)
    (hfit : off + len ≤ m.eeprom.length)
    (h : tr.transfer fd addr reg len = Except.ok f) :
    i2c_read tr fd addr reg len off m
      = Except.ok (true, ⟨i2c_store m.eeprom off len f, m.out,
          m.reads ++ [(fd, addr, reg, len)]⟩) := by
  simp only [i2c_read, Nat.mod_eq_of_lt ha, Nat.mod_eq_of_lt hr, Nat.mod_eq_of_lt hl, h,
    if_pos hfit, pure_eq_ok]

/-- The bus cannot be opened. -/
theorem read_eeprom_open_error (tr : Transport) (busnum addr : Nat) (m : Machine)
    (msg : List Char) (h : tr.bus_open busnum = Except.error msg) :
    read_eeprom tr busnum addr m
      = Except.ok (false, ⟨m.eeprom,
          m.out ++ ("Could not open I2C device - ".toList ++ msg ++ "\n".toList)
            ++ "Can't read EEPROM..\n".toList, m.reads⟩) := by
  simp only [read_eeprom, i2c_open_bus, h, Machine.printf, pure_eq_ok]

/-- The header read fails. -/
theorem read_eeprom_header_error (tr : Transport) (busnum addr fd : Nat) (m : Machine)
    (msg : List Char) (ha : addr < 65536) (h : tr.bus_open busnum = Except.ok fd)
    (h1 : tr.transfer fd addr 0 11 = Except.error msg) :
    read_eeprom tr busnum addr m
      = Except.ok (false, ⟨m.eeprom,
          m.out ++ ("ioctl error while reading data from I2C bus - ".toList ++ msg
            ++ "\n".toList) ++ "Can't read EEPROM..\n".toList,
          m.reads ++ [(fd, addr, 0, 11)]⟩) := by
  have e := i2c_read_error tr fd addr 0 11 0 m msg ha (by norm_num) (by norm_num) h1
  simp only [read_eeprom, i2c_open_bus, h, sizeof_tlv_hdr, e, ok_bind, Machine.printf,
    pure_eq_ok, Bool.not_false, if_true]

/-- The header is read and `is_valid_tlvhdr` rejects it: only the header transfer was
requested. -/
theorem read_eeprom_header_invalid (tr : Transport) (busnum addr fd : Nat) (m : Machine)
    (f1 : Nat → Nat) (ha : addr < 65536) (hlen : m.eeprom.length = 256)
    (h : tr.bus_open busnum = Except.ok fd)
    (h1 : tr.transfer fd addr 0 11 = Except.ok f1)
    (h2 : is_valid_tlvhdr (i2c_store m.eeprom 0 11 f1) = Except.ok false) :
    read_eeprom tr busnum addr m
      = Except.ok (false, ⟨i2c_store m.eeprom 0 11 f1,
          m.out ++ "Invalid TLV header read from EEPROM!\n".toList,
          m.reads ++ [(fd, addr, 0, 11)]⟩) := by
  have e := i2c_read_ok tr fd addr 0 11 0 m f1 ha (by norm_num) (by norm_num) (by omega) h1
  simp only [read_eeprom, i2c_open_bus, h, sizeof_tlv_hdr, e, ok_bind, Machine.printf,
    pure_eq_ok, Bool.not_true, Bool.false_eq_true, if_false, h2, Bool.not_false, if_true]

/-- The header is valid and the read of the field data fails. -/
theorem read_eeprom_data_error (tr : Transport) (busnum addr fd T : Nat) (m : Machine)
    (f1 : Nat → Nat) (msg : List Char) (ha : addr < 65536) (hlen : m.eeprom.length = 256)
    (h : tr.bus_open busnum = Except.ok fd)
    (h1 : tr.transfer fd addr 0 11 = Except.ok f1)
    (h2 : is_valid_tlvhdr (i2c_store m.eeprom 0 11 f1) = Except.ok true)
    (h3 : GET_TLV_LEN (i2c_store m.eeprom 0 11 f1) = Except.ok T)
    (h4 : tr.transfer fd addr 11 T = Except.error msg) :
    read_eeprom tr busnum addr m
      = Except.ok (false, ⟨i2c_store m.eeprom 0 11 f1,
          m.out ++ ("ioctl error while reading data from I2C bus - ".toList ++ msg
            ++ "\n".toList) ++ "Can't read EEPROM..\n".toList,
          m.reads ++ [(fd, addr, 0, 11)] ++ [(fd, addr, 11, T)]⟩) := by
  have hT := valid_len_le h2 h3
  have e := i2c_read_ok tr fd addr 0 11 0 m f1 ha (by norm_num) (by norm_num) (by omega) h1
  have e2 := i2c_read_error tr fd addr 11 T 11
    ⟨i2c_store m.eeprom 0 11 f1, m.out, m.reads ++ [(fd, addr, 0, 11)]⟩ msg ha
    (by norm_num) (by omega) h4
  simp only [read_eeprom, i2c_open_bus, h, sizeof_tlv_hdr, e, ok_bind, Machine.printf,
    pure_eq_ok, Bool.not_true, Bool.false_eq_true, if_false, h2, h3, e2, Bool.not_false,
    if_true]

/-- The header is valid and the field data is read: the status is the result of
`tlv_verify_crc32`, whose output is printed, followed by a diagnostic when it is false. -/
theorem read_eeprom_loaded (tr : Transport) (busnum addr fd T : Nat) (m : Machine)
    (f1 f2 : Nat → Nat) (verified : Bool) (text : List Char) (ha : addr < 65536)
    (hlen : m.eeprom.length = 256)
    (h : tr.bus_open busnum = Except.ok fd)
    (h1 : tr.transfer fd addr 0 11 = Except.ok f1)
    (h2 : is_valid_tlvhdr (i2c_store m.eeprom 0 11 f1) = Except.ok true)
    (h3 : GET_TLV_LEN (i2c_store m.eeprom 0 11 f1) = Except.ok T)
    (h4 : tr.transfer fd addr 11 T = Except.ok f2)
    (h5 : tlv_verify_crc32 tr.crc_val (i2c_store (i2c_store m.eeprom 0 11 f1) 11 T f2)
      = Except.ok verified)
    (h6 : tlv_verify_crc32_stdout (i2c_store (i2c_store m.eeprom 0 11 f1) 11 T f2)
      = Except.ok text) :
    read_eeprom tr busnum addr m
      = Except.ok (verified, ⟨i2c_store (i2c_store m.eeprom 0 11 f1) 11 T f2,
          m.out ++ text
            ++ (if verified then [] else "Invalid TLV-CRC32 value in EEPROM!\n".toList),
          m.reads ++ [(fd, addr, 0, 11)] ++ [(fd, addr, 11, T)]⟩) := by
  have hT := valid_len_le h2 h3
  have hl1 := i2c_store_length m.eeprom 0 11 f1 (by omega)
  have e := i2c_read_ok tr fd addr 0 11 0 m f1 ha (by norm_num) (by norm_num) (by omega) h1
  have e2 := i2c_read_ok tr fd addr 11 T 11
    ⟨i2c_store m.eeprom 0 11 f1, m.out, m.reads ++ [(fd, addr, 0, 11)]⟩ f2 ha
    (by norm_num) (by omega) (by show 11 + T ≤ (i2c_store m.eeprom 0 11 f1).length; omega) h4
  cases verified with
  | false =>
    simp only [read_eeprom, i2c_open_bus, h, sizeof_tlv_hdr, e, ok_bind, Machine.printf,
      pure_eq_ok, Bool.not_true, Bool.false_eq_true, if_false, h2, h3, e2, h5, h6,
      Bool.not_false, if_true]
  | true =>
    simp only [read_eeprom, i2c_open_bus, h, sizeof_tlv_hdr, e, ok_bind, Machine.printf,
      pure_eq_ok, Bool.not_true, Bool.false_eq_true, if_false, h2, h3, e2, h5, h6,
      List.append_nil, if_true]

/-- What `tlv_verify_crc32` prints, given that it returns: nothing when it returns true, at
most the line about the missing CRC field when it returns false. -/
theorem tlv_verify_crc32_stdout_of_result {stale : Nat} {buf : List Nat} {verified : Bool}
    (h : tlv_verify_crc32 stale buf = Except.ok verified) :
    ∃ text, tlv_verify_crc32_stdout buf = Except.ok text
      ∧ (verified = true → text = [])
      ∧ (text = [] ∨ text = "No CRC32 value found in TLV..\n".toList) := by
  unfold tlv_verify_crc32 at h
  unfold tlv_verify_crc32_stdout
  cases hT : GET_TLV_LEN buf with
  | error e => rw [hT] at h; simp [error_bind] at h
  | ok T =>
    rw [hT, ok_bind] at h
    rw [ok_bind]
    cases hc : tlv_calc_crc32 buf (T + sizeof_tlv_hdr - 4) with
    | error e => rw [hc] at h; simp [error_bind] at h
    | ok crc =>
      rw [hc, ok_bind] at h
      rw [ok_bind]
      cases hf : tlv_find buf TLV_CODE_CRC_32 (some 4) false with
      | error e => rw [hf] at h; simp [error_bind] at h
      | ok r =>
        rw [hf, ok_bind] at h
        rw [ok_bind]
        by_cases h0 : r.ret = 0
        · rw [if_pos h0] at h
          rw [if_pos h0]
          injection h with h
          refine ⟨_, rfl, ?_, Or.inr rfl⟩
          intro hv
          rw [hv] at h
          cases h
        · rw [if_neg h0]
          exact ⟨_, rfl, fun _ => rfl, Or.inl rfl⟩

theorem parse_args_inv (opts : List (Char × Int)) : ∀ (busnum eeprom_addr : Nat) (m : Machine),
    busnum < 65536 → eeprom_addr < 65536 →
      (parse_args opts busnum eeprom_addr m).1 < 65536
      ∧ (parse_args opts busnum eeprom_addr m).2.1 < 65536
      ∧ (parse_args opts busnum eeprom_addr m).2.2.eeprom = m.eeprom
      ∧ ((∀ o ∈ opts, o.1 ≠ 'b') → (parse_args opts busnum eeprom_addr m).1 = busnum)
      ∧ ((∀ o ∈ opts, o.1 ≠ 'a') → (parse_args opts busnum eeprom_addr m).2.1 = eeprom_addr) := by
  induction opts with
  | nil => intro b a m hb ha; exact ⟨hb, ha, rfl, fun _ => rfl, fun _ => rfl⟩
  | cons o opts ih =>
    intro b a m hb ha
    obtain ⟨opt, val⟩ := o
    have hv : (val % 65536).toNat < 65536 := by omega
    unfold parse_args
    by_cases h1 : opt = 'b'
    · simp only [if_pos h1]
      obtain ⟨i1, i2, i3, i4, i5⟩ := ih (val % 65536).toNat a m hv ha
      refine ⟨i1, i2, i3, ?_, ?_⟩
      · intro hno
        exact absurd h1 (hno (opt, val) (List.mem_cons_self _ _))
      · intro hno
        exact i5 (fun o ho => hno o (List.mem_cons_of_mem _ ho))
    · simp only [if_neg h1]
      by_cases h2 : opt = 'a'
      · simp only [if_pos h2]
        obtain ⟨i1, i2, i3, i4, i5⟩ := ih b (val % 65536).toNat m hb hv
        refine ⟨i1, i2, i3, ?_, ?_⟩
        · intro hno
          exact i4 (fun o ho => hno o (List.mem_cons_of_mem _ ho))
        · intro hno
          exact absurd h2 (hno (opt, val) (List.mem_cons_self _ _))
      · simp only [if_neg h2]
        obtain ⟨i1, i2, i3, i4, i5⟩ := ih b a
          (m.printf ("Unknown argument ".toList ++ [opt] ++ "\n".toList)) hb ha
        refine ⟨i1, i2, i3, ?_, ?_⟩
        · intro hno
          exact i4 (fun o ho => hno o (List.mem_cons_of_mem _ ho))
        · intro hno
          exact i5 (fun o ho => hno o (List.mem_cons_of_mem _ ho))

/-- The outcomes of `read_eeprom`: it returns true exactly on the path on which the bus
opens, both transfers succeed, the header is valid and the CRC verifies; on every path on
which it returns false it has printed one of its diagnostics and nothing else. -/
theorem read_eeprom_cases (tr : Transport) (busnum addr : Nat) (m : Machine)
    (ha : addr < 65536) (hlen : m.eeprom.length = 256) (status : Bool) (m1 : Machine)
    (h : read_eeprom tr busnum addr m = Except.ok (status, m1)) :
    (status = true →
      ∃ fd f1 T f2, tr.bus_open busnum = Except.ok fd
        ∧ tr.transfer fd addr 0 11 = Except.ok f1
        ∧ is_valid_tlvhdr (i2c_store m.eeprom 0 11 f1) = Except.ok true
        ∧ GET_TLV_LEN (i2c_store m.eeprom 0 11 f1) = Except.ok T
        ∧ tr.transfer fd addr 11 T = Except.ok f2
        ∧ tlv_verify_crc32 tr.crc_val (i2c_store (i2c_store m.eeprom 0 11 f1) 11 T f2) = Except.ok true
        ∧ m1 = ⟨i2c_store (i2c_store m.eeprom 0 11 f1) 11 T f2, m.out,
            m.reads ++ [(fd, addr, 0, 11)] ++ [(fd, addr, 11, T)]⟩)
    ∧ (status = false →
      ∃ msg, m1.out = m.out ++ ("Could not open I2C device - ".toList ++ msg ++ "\n".toList)
            ++ "Can't read EEPROM..\n".toList
        ∨ m1.out = m.out ++ ("ioctl error while reading data from I2C bus - ".toList ++ msg
            ++ "\n".toList) ++ "Can't read EEPROM..\n".toList
        ∨ m1.out = m.out ++ "Invalid TLV header read from EEPROM!\n".toList
        ∨ m1.out = m.out ++ "Invalid TLV-CRC32 value in EEPROM!\n".toList
        ∨ m1.out = m.out ++ "No CRC32 value found in TLV..\n".toList
            ++ "Invalid TLV-CRC32 value in EEPROM!\n".toList) := by
  cases hopen : tr.bus_open busnum with
  | error msg =>
    rw [read_eeprom_open_error tr busnum addr m msg hopen] at h
    injection h with h
    injection h with hs hm
    subst hs; subst hm
    exact ⟨fun hc => (by cases hc), fun _ => ⟨msg, Or.inl rfl⟩⟩
  | ok fd =>
    cases h1 : tr.transfer fd addr 0 11 with
    | error msg =>
      rw [read_eeprom_header_error tr busnum addr fd m msg ha hopen h1] at h
      injection h with h
      injection h with hs hm
      subst hs; subst hm
      exact ⟨fun hc => (by cases hc), fun _ => ⟨msg, Or.inr (Or.inl rfl)⟩⟩
    | ok f1 =>
      have e := i2c_read_ok tr fd addr 0 11 0 m f1 ha (by norm_num) (by norm_num)
        (by omega) h1
      cases h2 : is_valid_tlvhdr (i2c_store m.eeprom 0 11 f1) with
      | error e2 =>
        simp [read_eeprom, i2c_open_bus, hopen, sizeof_tlv_hdr, e, ok_bind, h2,
          error_bind] at h
      | ok valid =>
        cases valid with
        | false =>
          rw [read_eeprom_header_invalid tr busnum addr fd m f1 ha hlen hopen h1 h2] at h
          injection h with h
          injection h with hs hm
          subst hs; subst hm
          exact ⟨fun hc => (by cases hc), fun _ => ⟨[], Or.inr (Or.inr (Or.inl rfl))⟩⟩
        | true =>
          cases h3 : GET_TLV_LEN (i2c_store m.eeprom 0 11 f1) with
          | error e3 =>
            simp [read_eeprom, i2c_open_bus, hopen, sizeof_tlv_hdr, e, ok_bind, h2, h3,
              error_bind] at h
          | ok T =>
            have hT := valid_len_le h2 h3
            cases h4 : tr.transfer fd addr 11 T with
            | error msg =>
              rw [read_eeprom_data_error tr busnum addr fd T m f1 msg ha hlen hopen h1 h2 h3
                h4] at h
              injection h with h
              injection h with hs hm
              subst hs; subst hm
              exact ⟨fun hc => (by cases hc), fun _ => ⟨msg, Or.inr (Or.inl rfl)⟩⟩
            | ok f2 =>
              have hl1 := i2c_store_length m.eeprom 0 11 f1 (by omega)
              have e4 := i2c_read_ok tr fd addr 11 T 11
                ⟨i2c_store m.eeprom 0 11 f1, m.out, m.reads ++ [(fd, addr, 0, 11)]⟩ f2 ha
                (by norm_num) (by omega)
                (by show 11 + T ≤ (i2c_store m.eeprom 0 11 f1).length; omega) h4
              cases h5 : tlv_verify_crc32 tr.crc_val (i2c_store (i2c_store m.eeprom 0 11 f1) 11 T f2) with
              | error e5 =>
                simp [read_eeprom, i2c_open_bus, hopen, sizeof_tlv_hdr, e, ok_bind, h2, h3,
                  e4, h5, error_bind] at h
              | ok verified =>
                obtain ⟨text, h6, h7, h8⟩ := tlv_verify_crc32_stdout_of_result h5
                rw [read_eeprom_loaded tr busnum addr fd T m f1 f2 verified text ha hlen hopen
                  h1 h2 h3 h4 h5 h6] at h
                injection h with h
                injection h with hs hm
                subst hs; subst hm
                constructor
                · intro hv
                  subst hv
                  refine ⟨fd, f1, T, f2, rfl, h1, h2, h3, h4, h5, ?_⟩
                  rw [h7 rfl]
                  simp
                · intro hv
                  subst hv
                  refine ⟨[], ?_⟩
                  rcases h8 with h8 | h8
                  · subst h8
                    exact Or.inr (Or.inr (Or.inr (Or.inl (by simp))))
                  · subst h8
                    exact Or.inr (Or.inr (Or.inr (Or.inr (by simp))))

/-- The body of `main` in terms of the values that `parse_args` leaves. -/
theorem main_eq (tr : Transport) (program : List Char) (opts : List (Char × Int)) :
    main tr program opts
      = (if (parse_args opts 0xFFFF 0xFFFF Machine.init).1 = 0xFFFF
            ∨ (parse_args opts 0xFFFF 0xFFFF Machine.init).2.1 = 0xFFFF then
          Except.ok (-1, (parse_args opts 0xFFFF 0xFFFF Machine.init).2.2.printf
            (print_usage program))
        else
          read_eeprom tr (parse_args opts 0xFFFF 0xFFFF Machine.init).1
              (parse_args opts 0xFFFF 0xFFFF Machine.init).2.1
              (parse_args opts 0xFFFF 0xFFFF Machine.init).2.2 >>= fun r =>
            if r.1 = false then Except.ok (-1, r.2)
            else print_eeprom r.2.eeprom >>= fun text => Except.ok (0, r.2.printf text)) := by
  unfold main
  generalize parse_args opts 0xFFFF 0xFFFF Machine.init = p
  obtain ⟨b, a, m⟩ := p
  simp only []
  split_ifs with h1
  · rfl
  · congr 1
    funext r
    obtain ⟨s, m1⟩ := r
    cases s <;> rfl

/-- Claim C13.  Let `busnum`, `addr` and the state `m0` be what `parse_args` leaves.  Then
`read_eeprom` returns true if and only if the bus opens, the 11-byte header transfer
succeeds, `is_valid_tlvhdr` accepts the loaded header, the transfer of the `T` remaining
bytes succeeds and `tlv_verify_crc32` returns true; it then has printed nothing, requested
exactly those two transfers, and `eeprom` holds the header bytes at offsets `0 .. 10`, the
`T` received bytes at offsets `11 .. 11 + T - 1` and its old content behind them.  When the header is
rejected only the header transfer has been requested.  `main` returns -1 after printing the
usage text when the bus number or the address option is missing; it returns -1 with only
load diagnostics printed when `read_eeprom` returns false; it runs `print_eeprom` and returns
0 when `read_eeprom` returns true, and in no other case. -/
theorem load_errors_abort_run (tr : Transport) (program : List Char)
    (opts : List (Char × Int)) (busnum addr : Nat) (m0 : Machine)
    (hp : parse_args opts 0xFFFF 0xFFFF Machine.init = (busnum, addr, m0)) :
    ((∃ m1, read_eeprom tr busnum addr m0 = Except.ok (true, m1)) ↔
      ∃ fd f1 T f2, tr.bus_open busnum = Except.ok fd
        ∧ tr.transfer fd addr 0 11 = Except.ok f1
        ∧ is_valid_tlvhdr (i2c_store m0.eeprom 0 11 f1) = Except.ok true
        ∧ GET_TLV_LEN (i2c_store m0.eeprom 0 11 f1) = Except.ok T
        ∧ tr.transfer fd addr 11 T = Except.ok f2
        ∧ tlv_verify_crc32 tr.crc_val (i2c_store (i2c_store m0.eeprom 0 11 f1) 11 T f2)
          = Except.ok true)
    ∧ (∀ m1, read_eeprom tr busnum addr m0 = Except.ok (true, m1) →
      ∃ fd f1 T f2, tr.transfer fd addr 0 11 = Except.ok f1
        ∧ tr.transfer fd addr 11 T = Except.ok f2
        ∧ m1 = ⟨i2c_store (i2c_store m0.eeprom 0 11 f1) 11 T f2, m0.out,
            m0.reads ++ [(fd, addr, 0, 11)] ++ [(fd, addr, 11, T)]⟩
        ∧ ∀ i, m1.eeprom.getD i 0
            = if 11 ≤ i ∧ i < 11 + T then f2 (i - 11) % 256
              else if i < 11 then f1 i % 256 else m0.eeprom.getD i 0)
    ∧ (∀ fd f1, tr.bus_open busnum = Except.ok fd → tr.transfer fd addr 0 11 = Except.ok f1 →
      is_valid_tlvhdr (i2c_store m0.eeprom 0 11 f1) = Except.ok false →
      read_eeprom tr busnum addr m0
        = Except.ok (false, ⟨i2c_store m0.eeprom 0 11 f1,
            m0.out ++ "Invalid TLV header read from EEPROM!\n".toList,
            m0.reads ++ [(fd, addr, 0, 11)]⟩))
    ∧ (((∀ o ∈ opts, o.1 ≠ 'b') ∨ (∀ o ∈ opts, o.1 ≠ 'a')) →
      main tr program opts = Except.ok (-1, m0.printf (print_usage program)))
    ∧ (busnum ≠ 0xFFFF → addr ≠ 0xFFFF → ∀ m1 text,
      read_eeprom tr busnum addr m0 = Except.ok (true, m1) →
      print_eeprom m1.eeprom = Except.ok text →
      main tr program opts = Except.ok (0, m1.printf text))
    ∧ (busnum ≠ 0xFFFF → addr ≠ 0xFFFF → ∀ m1,
      read_eeprom tr busnum addr m0 = Except.ok (false, m1) →
      main tr program opts = Except.ok (-1, m1)
        ∧ ∃ msg, ∃ d ∈ load_diagnostics msg, m1.out = m0.out ++ d)
    ∧ (∀ ret mf, main tr program opts = Except.ok (ret, mf) →
      (ret = 0 ∨ ret = -1)
      ∧ (ret = 0 → busnum ≠ 0xFFFF ∧ addr ≠ 0xFFFF
          ∧ ∃ m1 text, read_eeprom tr busnum addr m0 = Except.ok (true, m1)
            ∧ print_eeprom m1.eeprom = Except.ok text ∧ mf = m1.printf text)
      ∧ (ret = -1 → mf = m0.printf (print_usage program)
          ∨ read_eeprom tr busnum addr m0 = Except.ok (false, mf))) := by
  obtain ⟨i1, ha, i3, i4, i5⟩ := parse_args_inv opts 0xFFFF 0xFFFF Machine.init
    (by norm_num) (by norm_num)
  rw [hp] at i1 ha i3 i4 i5
  simp only [] at i1 ha i3 i4 i5
  have hlen : m0.eeprom.length = 256 := by
    rw [i3]; exact List.length_replicate 256 0
  have hmain := main_eq tr program opts
  rw [hp] at hmain
  simp only [] at hmain
  refine ⟨⟨?_, ?_⟩, ?_, ?_, ?_, ?_, ?_, ?_⟩
  · intro ⟨m1, h⟩
    obtain ⟨fd, f1, T, f2, c1, c2, c3, c4, c5, c6, _⟩ :=
      (read_eeprom_cases tr busnum addr m0 ha hlen true m1 h).1 rfl
    exact ⟨fd, f1, T, f2, c1, c2, c3, c4, c5, c6⟩
  · intro ⟨fd, f1, T, f2, c1, c2, c3, c4, c5, c6⟩
    obtain ⟨text, h6, _, _⟩ := tlv_verify_crc32_stdout_of_result c6
    exact ⟨_, read_eeprom_loaded tr busnum addr fd T m0 f1 f2 true text ha hlen c1 c2 c3 c4
      c5 c6 h6⟩
  · intro m1 h
    obtain ⟨fd, f1, T, f2, c1, c2, c3, c4, c5, c6, c7⟩ :=
      (read_eeprom_cases tr busnum addr m0 ha hlen true m1 h).1 rfl
    refine ⟨fd, f1, T, f2, c2, c5, c7, ?_⟩
    intro i
    have hT := valid_len_le c3 c4
    have hl1 := i2c_store_length m0.eeprom 0 11 f1 (by omega)
    rw [c7]
    show (i2c_store (i2c_store m0.eeprom 0 11 f1) 11 T f2).getD i 0 = _
    rw [i2c_store_getD _ 11 T f2 (by omega) i, i2c_store_getD _ 0 11 f1 (by omega) i]
    by_cases h1 : 11 ≤ i ∧ i < 11 + T
    · rw [if_pos h1, if_pos h1]
    · rw [if_neg h1, if_neg h1]
      by_cases h2 : i < 11
      · rw [if_pos ⟨Nat.zero_le _, by omega⟩, if_pos h2, Nat.sub_zero]
      · rw [if_neg (by omega), if_neg h2]
  · intro fd f1 c1 c2 c3
    exact read_eeprom_header_invalid tr busnum addr fd m0 f1 ha hlen c1 c2 c3
  · intro hmiss
    have hff : busnum = 0xFFFF ∨ addr = 0xFFFF := by
      rcases hmiss with h | h
      · exact Or.inl (i4 h)
      · exact Or.inr (i5 h)
    rw [hmain, if_pos hff]
  · intro hb hadr m1 text h1 h2
    rw [hmain, if_neg (by rintro (h | h); exact hb h; exact hadr h), h1, ok_bind]
    simp only [Bool.true_eq_false, if_false, h2, ok_bind]
  · intro hb hadr m1 h1
    constructor
    · rw [hmain, if_neg (by rintro (h | h); exact hb h; exact hadr h), h1, ok_bind]
      simp only [if_true]
    · obtain ⟨msg, hd⟩ := (read_eeprom_cases tr busnum addr m0 ha hlen false m1 h1).2 rfl
      refine ⟨msg, ?_⟩
      rcases hd with hd | hd | hd | hd | hd
      · exact ⟨_, List.mem_cons_self _ _, by rw [hd, List.append_assoc]⟩
      · exact ⟨_, List.mem_cons_of_mem _ (List.mem_cons_self _ _),
          by rw [hd, List.append_assoc]⟩
      · exact ⟨_, List.mem_cons_of_mem _ (List.mem_cons_of_mem _ (List.mem_cons_self _ _)),
          hd⟩
      · exact ⟨_, List.mem_cons_of_mem _ (List.mem_cons_of_mem _ (List.mem_cons_of_mem _
          (List.mem_cons_self _ _))), hd⟩
      · exact ⟨_, List.mem_cons_of_mem _ (List.mem_cons_of_mem _ (List.mem_cons_of_mem _
          (List.mem_cons_of_mem _ (List.mem_cons_self _ _)))),
          by rw [hd, List.append_assoc]⟩
  · intro ret mf h
    rw [hmain] at h
    by_cases hff : busnum = 0xFFFF ∨ addr = 0xFFFF
    · rw [if_pos hff] at h
      injection h with h
      injection h with hr hm
      subst hr; subst hm
      refine ⟨Or.inr rfl, ?_, fun _ => Or.inl rfl⟩
      intro h0
      exact absurd h0 (by decide)
    · rw [if_neg hff] at h
      cases hr : read_eeprom tr busnum addr m0 with
      | error e => rw [hr] at h; simp [error_bind] at h
      | ok r =>
        obtain ⟨status, m1⟩ := r
        rw [hr, ok_bind] at h
        cases status with
        | false =>
          simp only [if_true] at h
          injection h with h
          injection h with hr2 hm
          subst hr2; subst hm
          refine ⟨Or.inr rfl, ?_, fun _ => Or.inr rfl⟩
          intro h0
          exact absurd h0 (by decide)
        | true =>
          simp only [Bool.true_eq_false, if_false] at h
          cases ht : print_eeprom m1.eeprom with
          | error e => rw [ht] at h; simp [error_bind] at h
          | ok text =>
            rw [ht, ok_bind] at h
            injection h with h
            injection h with hr2 hm
            subst hr2; subst hm
            refine ⟨Or.inl rfl, ?_, ?_⟩
            · intro _
              exact ⟨fun hb => hff (Or.inl hb), fun hadr => hff (Or.inr hadr), m1, text, rfl,
                ht, rfl⟩
            · intro h0
              exact absurd h0 (by decide)

set_option maxRecDepth 1000000 in
/-- Witness for `load_errors_abort_run`: with options `-b 0 -a 80` and a device that answers
with the bytes of `sample_record`, `main` returns 0 and prints the two fields; with the
address option missing it returns -1 and prints the usage text. -/
theorem load_errors_abort_run_witness :
    main sample_transport "tlv_parser".toList [('b', 0), ('a', 80)]
      = Except.ok (0, ⟨sample_record,
          "EEPROM Contents:\n\tProduct Name: ABCD\n\tCRC32: 27 32 d7 c2 \n\n".toList,
          [(3, 80, 0, 11), (3, 80, 11, 12)]⟩)
    ∧ main closed_transport "tlv_parser".toList [('b', 0)]
      = Except.ok (-1, Machine.init.printf (print_usage "tlv_parser".toList)) :=
  ⟨(load_errors_abort_run sample_transport "tlv_parser".toList [('b', 0), ('a', 80)] 0 80
      Machine.init (by decide)).2.2.2.2.1 (by decide) (by decide)
      ⟨sample_record, [], [(3, 80, 0, 11), (3, 80, 11, 12)]⟩
      "EEPROM Contents:\n\tProduct Name: ABCD\n\tCRC32: 27 32 d7 c2 \n\n".toList
      (by decide) (by decide),
   (load_errors_abort_run closed_transport "tlv_parser".toList [('b', 0)] 0 0xFFFF
      Machine.init (by decide)).2.2.2.1 (Or.inr (by decide))⟩

/-! ## Order sensitivity of the CRC (C17) -/

/-- One reference step distributes over XOR. -/
theorem crc32_ref_step_xor (x y : Nat) :
    crc32_ref_step (x ^^^ y) = crc32_ref_step x ^^^ crc32_ref_step y := by
  have hm : (x ^^^ y) % 2 = (x % 2 + y % 2) % 2 := by
    have h := Nat.testBit_xor x y 0
    simp only [Nat.testBit_zero] at h
    rcases Nat.mod_two_eq_zero_or_one x with hx | hx <;>
      rcases Nat.mod_two_eq_zero_or_one y with hy | hy <;>
      rcases Nat.mod_two_eq_zero_or_one (x ^^^ y) with hz | hz <;>
      simp [hx, hy, hz] at h ⊢
  unfold crc32_ref_step
  rw [Nat.xor_div_two, hm]
  rcases Nat.mod_two_eq_zero_or_one x with hx | hx <;>
    rcases Nat.mod_two_eq_zero_or_one y with hy | hy <;>
    simp only [hx, hy, Nat.add_zero, Nat.zero_add, Nat.zero_mod, Nat.one_mod,
      Nat.reduceAdd, Nat.mod_self, if_true, if_false, Nat.zero_ne_one, one_ne_zero]
  · rw [Nat.xor_assoc]
  · rw [Nat.xor_assoc, Nat.xor_assoc, Nat.xor_comm (y / 2)]
  · rw [Nat.xor_assoc, Nat.xor_comm (y / 2) 3988292384, ← Nat.xor_assoc 3988292384,
      Nat.xor_self, Nat.zero_xor]

theorem crc32_ref_step_iter_xor (n : Nat) : ∀ (x y : Nat),
    crc32_ref_step^[n] (x ^^^ y) = crc32_ref_step^[n] x ^^^ crc32_ref_step^[n] y := by
  induction n with
  | zero => intro x y; rfl
  | succ n ih =>
    intro x y
    simp only [Function.iterate_succ_apply, crc32_ref_step_xor, ih]

theorem crc32_ref_byte_xor (c d a b : Nat) :
    crc32_ref_byte (c ^^^ d) (a ^^^ b) = crc32_ref_byte c a ^^^ crc32_ref_byte d b := by
  unfold crc32_ref_byte
  rw [← crc32_ref_step_iter_xor]
  congr 1
  rw [Nat.xor_assoc, Nat.xor_assoc, ← Nat.xor_assoc d a b, Nat.xor_comm d a, Nat.xor_assoc]

/-- The CRC state is linear over XOR in the start state and the bytes taken together. -/
theorem crc32_ref_foldl_xor (l : List Nat) : ∀ (l2 : List Nat) (c d : Nat),
    l.length = l2.length →
    (List.zipWith (fun a b => a ^^^ b) l l2).foldl crc32_ref_byte (c ^^^ d)
      = l.foldl crc32_ref_byte c ^^^ l2.foldl crc32_ref_byte d := by
  induction l with
  | nil =>
    intro l2 c d h
    cases l2 with
    | nil => rfl
    | cons b l2 => simp at h
  | cons a l ih =>
    intro l2 c d h
    cases l2 with
    | nil => simp at h
    | cons b l2 =>
      simp only [List.zipWith_cons_cons, List.foldl_cons, crc32_ref_byte_xor]
      exact ih l2 _ _ (by simpa using h)

/-- The map `unmix gs` is linear over XOR. -/
theorem unmix_xor (gs : List Nat) : ∀ (v w : Nat),
    unmix gs (v ^^^ w) = unmix gs v ^^^ unmix gs w := by
  induction gs with
  | nil => intro v w; simp [unmix]
  | cons g gs ih =>
    intro v w
    have hm : (v ^^^ w) % 2 = (v % 2 + w % 2) % 2 := by
      have h := Nat.testBit_xor v w 0
      simp only [Nat.testBit_zero] at h
      rcases Nat.mod_two_eq_zero_or_one v with hx | hx <;>
        rcases Nat.mod_two_eq_zero_or_one w with hy | hy <;>
        rcases Nat.mod_two_eq_zero_or_one (v ^^^ w) with hz | hz <;>
        simp [hx, hy, hz] at h ⊢
    simp only [unmix, Nat.xor_div_two, ih, hm]
    rcases Nat.mod_two_eq_zero_or_one v with hx | hx <;>
      rcases Nat.mod_two_eq_zero_or_one w with hy | hy <;>
      simp only [hx, hy, Nat.add_zero, Nat.zero_add, Nat.zero_mod, Nat.one_mod,
        Nat.reduceAdd, Nat.mod_self, if_true, if_false, Nat.zero_ne_one, one_ne_zero,
        Nat.zero_xor]
    all_goals
      apply Nat.eq_of_testBit_eq
      intro i
      simp only [Nat.testBit_xor]
      cases g.testBit i <;> cases (unmix gs (v / 2)).testBit i <;>
        cases (unmix gs (w / 2)).testBit i <;> rfl

/-- A function on numbers that is linear over XOR and fixes the powers `2 ^ i` with `i < K`
fixes every number below `2 ^ K`. -/
theorem linear_id (f : Nat → Nat) (hlin : ∀ x y, f (x ^^^ y) = f x ^^^ f y) (K : Nat) :
    (∀ i < K, f (2 ^ i) = 2 ^ i) → ∀ x < 2 ^ K, f x = x := by
  have h0 : f 0 = 0 := by
    have h := hlin 0 0
    rw [Nat.xor_self] at h
    rw [h, Nat.xor_self]
  induction K with
  | zero =>
    intro _ x hx
    have : x = 0 := by simpa using hx
    subst this
    exact h0
  | succ K ih =>
    intro hb x hx
    have ihK := ih (fun i hi => hb i (by omega))
    by_cases hlt : x < 2 ^ K
    · exact ihK x hlt
    · have hdec : x = (x % 2 ^ K) ^^^ 2 ^ K := by
        apply Nat.eq_of_testBit_eq
        intro i
        rw [Nat.testBit_xor, Nat.testBit_mod_two_pow, Nat.testBit_two_pow]
        by_cases hi : i < K
        · simp [hi, show K ≠ i by omega]
        · by_cases hiK : i = K
          · subst hiK
            have hdiv : x / 2 ^ i = 1 := by
              have h1 : x / 2 ^ i < 2 := by
                rw [Nat.div_lt_iff_lt_mul (Nat.pos_pow_of_pos _ (by norm_num))]
                rw [Nat.pow_succ] at hx
                omega
              have h2 : 0 < x / 2 ^ i :=
                Nat.div_pos (by omega) (Nat.pos_pow_of_pos _ (by norm_num))
              omega
            simp [Nat.testBit_to_div_mod, hdiv]
          · have hx2 : x < 2 ^ i :=
              Nat.lt_of_lt_of_le hx (Nat.pow_le_pow_right (by norm_num) (by omega))
            simp [hi, show K ≠ i by omega, Nat.testBit_lt_two_pow hx2]
      have hlo : x % 2 ^ K < 2 ^ K := Nat.mod_lt _ (Nat.pos_pow_of_pos _ (by norm_num))
      have e1 : f x = f (x % 2 ^ K) ^^^ f (2 ^ K) := by
        conv => lhs; rw [hdec]
        exact hlin _ _
      rw [e1, ihK _ hlo, hb K (by omega)]
      exact hdec.symm

/-- Extracting a byte distributes over XOR. -/
theorem byte_xor (x y k : Nat) :
    (x ^^^ y) / 256 ^ k % 256 = (x / 256 ^ k % 256) ^^^ (y / 256 ^ k % 256) := by
  have h256 : (256 : Nat) = 2 ^ 8 := by norm_num
  rw [h256, ← Nat.pow_mul]
  apply Nat.eq_of_testBit_eq
  intro i
  simp only [Nat.testBit_xor, Nat.testBit_mod_two_pow, ← Nat.shiftRight_eq_div_pow,
    Nat.testBit_shiftRight]
  cases decide (i < 8) <;> simp

theorem pal_bytes_length (n x : Nat) : (pal_bytes n x).length = n := by
  simp [pal_bytes]

theorem zipWith_diag {α β : Type} (f : α → α → β) (l : List α) :
    List.zipWith f l l = l.map (fun a => f a a) := by
  induction l with
  | nil => rfl
  | cons a l ih => simp only [List.zipWith_cons_cons, List.map_cons, ih]

theorem pal_bytes_xor (n x y : Nat) :
    pal_bytes n (x ^^^ y)
      = List.zipWith (fun a b => a ^^^ b) (pal_bytes n x) (pal_bytes n y) := by
  unfold pal_bytes
  rw [List.zipWith_map, zipWith_diag]
  apply List.map_congr_left
  intro p _
  exact byte_xor x y _

/-- The CRC state reached from 0 over `pal_bytes n x` is linear over XOR in `x`. -/
theorem pal_state_xor (n x y : Nat) :
    (pal_bytes n (x ^^^ y)).foldl crc32_ref_byte 0
      = (pal_bytes n x).foldl crc32_ref_byte 0 ^^^ (pal_bytes n y).foldl crc32_ref_byte 0 := by
  have h := crc32_ref_foldl_xor (pal_bytes n x) (pal_bytes n y) 0 0
    (by rw [pal_bytes_length, pal_bytes_length])
  rw [Nat.xor_self] at h
  rw [pal_bytes_xor, h]

/-- Where the finite check succeeds, only `x = 0` leads from state 0 back to state 0. -/
theorem reversal_kernel (n : Nat) (hcheck : reversal_check n = true) :
    ∀ x < 2 ^ (8 * (n / 2)), (pal_bytes n x).foldl crc32_ref_byte 0 = 0 → x = 0 := by
  intro x hx hzero
  have hc : ∀ i < 8 * (n / 2),
      unmix (reversal_inverse n) ((pal_bytes n (2 ^ i)).foldl crc32_ref_byte 0) = 2 ^ i := by
    intro i hi
    unfold reversal_check at hcheck
    rw [List.all_eq_true] at hcheck
    exact beq_iff_eq.mp (hcheck i (List.mem_range.mpr hi))
  have hlin : ∀ a b,
      unmix (reversal_inverse n) ((pal_bytes n (a ^^^ b)).foldl crc32_ref_byte 0)
        = unmix (reversal_inverse n) ((pal_bytes n a).foldl crc32_ref_byte 0)
          ^^^ unmix (reversal_inverse n) ((pal_bytes n b).foldl crc32_ref_byte 0) := by
    intro a b
    rw [pal_state_xor, unmix_xor]
  have h := linear_id
    (fun a => unmix (reversal_inverse n) ((pal_bytes n a).foldl crc32_ref_byte 0))
    hlin (8 * (n / 2)) hc x hx
  simp only [hzero] at h
  have hu : unmix (reversal_inverse n) 0 = 0 := by
    have h2 := unmix_xor (reversal_inverse n) 0 0
    rw [Nat.xor_self] at h2
    rw [h2, Nat.xor_self]
  rw [hu] at h
  exact h.symm

set_option maxRecDepth 1000000 in
/-- The finite check succeeds for the lengths 2 to 7. -/
theorem reversal_check_ok :
    reversal_check 2 = true ∧ reversal_check 3 = true ∧ reversal_check 4 = true
    ∧ reversal_check 5 = true ∧ reversal_check 6 = true ∧ reversal_check 7 = true := by
  decide

theorem pal_kernel_2 (e0 : Nat) (h0 : e0 < 256)
    (h : [e0, e0].foldl crc32_ref_byte 0 = 0) : e0 = 0 := by
  have hp : pal_bytes 2 e0 = [e0, e0] := by
    have hr : List.range 2 = [0, 1] := by decide
    simp only [pal_bytes, hr, List.map_cons, List.map_nil]
    norm_num
    omega
  exact reversal_kernel 2 reversal_check_ok.1 e0 (by norm_num; omega) (by rw [hp]; exact h)

theorem pal_kernel_3 (e0 : Nat) (h0 : e0 < 256)
    (h : [e0, 0, e0].foldl crc32_ref_byte 0 = 0) : e0 = 0 := by
  have hp : pal_bytes 3 e0 = [e0, 0, e0] := by
    have hr : List.range 3 = [0, 1, 2] := by decide
    simp only [pal_bytes, hr, List.map_cons, List.map_nil]
    norm_num
    refine ⟨?_, ?_⟩ <;> omega
  exact reversal_kernel 3 reversal_check_ok.2.1 e0 (by norm_num; omega) (by rw [hp]; exact h)

theorem pal_kernel_4 (e0 e1 : Nat) (h0 : e0 < 256) (h1 : e1 < 256)
    (h : [e0, e1, e1, e0].foldl crc32_ref_byte 0 = 0) : e0 = 0 ∧ e1 = 0 := by
  have hp : pal_bytes 4 (e0 + 256 * e1) = [e0, e1, e1, e0] := by
    have hr : List.range 4 = [0, 1, 2, 3] := by decide
    simp only [pal_bytes, hr, List.map_cons, List.map_nil]
    norm_num
    refine ⟨?_, ?_⟩ <;> omega
  have hx := reversal_kernel 4 reversal_check_ok.2.2.1 (e0 + 256 * e1)
    (by norm_num; omega) (by rw [hp]; exact h)
  omega

theorem pal_kernel_5 (e0 e1 : Nat) (h0 : e0 < 256) (h1 : e1 < 256)
    (h : [e0, e1, 0, e1, e0].foldl crc32_ref_byte 0 = 0) : e0 = 0 ∧ e1 = 0 := by
  have hp : pal_bytes 5 (e0 + 256 * e1) = [e0, e1, 0, e1, e0] := by
    have hr : List.range 5 = [0, 1, 2, 3, 4] := by decide
    simp only [pal_bytes, hr, List.map_cons, List.map_nil]
    norm_num
    refine ⟨?_, ?_, ?_⟩ <;> omega
  have hx := reversal_kernel 5 reversal_check_ok.2.2.2.1 (e0 + 256 * e1)
    (by norm_num; omega) (by rw [hp]; exact h)
  omega

theorem pal_kernel_6 (e0 e1 e2 : Nat) (h0 : e0 < 256) (h1 : e1 < 256) (h2 : e2 < 256)
    (h : [e0, e1, e2, e2, e1, e0].foldl crc32_ref_byte 0 = 0) :
    e0 = 0 ∧ e1 = 0 ∧ e2 = 0 := by
  have hp : pal_bytes 6 (e0 + 256 * e1 + 65536 * e2) = [e0, e1, e2, e2, e1, e0] := by
    have hr : List.range 6 = [0, 1, 2, 3, 4, 5] := by decide
    simp only [pal_bytes, hr, List.map_cons, List.map_nil]
    norm_num
    refine ⟨?_, ?_, ?_⟩ <;> omega
  have hx := reversal_kernel 6 reversal_check_ok.2.2.2.2.1 (e0 + 256 * e1 + 65536 * e2)
    (by norm_num; omega) (by rw [hp]; exact h)
  omega

theorem pal_kernel_7 (e0 e1 e2 : Nat) (h0 : e0 < 256) (h1 : e1 < 256) (h2 : e2 < 256)
    (h : [e0, e1, e2, 0, e2, e1, e0].foldl crc32_ref_byte 0 = 0) :
    e0 = 0 ∧ e1 = 0 ∧ e2 = 0 := by
  have hp : pal_bytes 7 (e0 + 256 * e1 + 65536 * e2) = [e0, e1, e2, 0, e2, e1, e0] := by
    have hr : List.range 7 = [0, 1, 2, 3, 4, 5, 6] := by decide
    simp only [pal_bytes, hr, List.map_cons, List.map_nil]
    norm_num
    refine ⟨?_, ?_, ?_, ?_⟩ <;> omega
  have hx := reversal_kernel 7 reversal_check_ok.2.2.2.2.2 (e0 + 256 * e1 + 65536 * e2)
    (by norm_num; omega) (by rw [hp]; exact h)
  omega

/-- A sequence and its reversal with the same CRC state: the XOR of the two leads from state
0 to state 0. -/
theorem reverse_state_zero (b : List Nat)
    (h : b.reverse.foldl crc32_ref_byte 0xFFFFFFFF = b.foldl crc32_ref_byte 0xFFFFFFFF) :
    (List.zipWith (fun x y => x ^^^ y) b b.reverse).foldl crc32_ref_byte 0 = 0 := by
  have hx := crc32_ref_foldl_xor b b.reverse 0xFFFFFFFF 0xFFFFFFFF (by simp)
  rw [Nat.xor_self, h, Nat.xor_self] at hx
  exact hx

theorem byte_xor_lt {a b : Nat} (ha : a < 256) (hb : b < 256) : a ^^^ b < 256 :=
  Nat.xor_lt_two_pow (n := 8) ha hb

/-- For byte sequences of length 2 to 7, equal CRC states after the sequence and after its
reversal force the sequence to be a palindrome. -/
theorem reverse_state_eq (b : List Nat) (hb : ∀ x ∈ b, x < 256) (h2 : 2 ≤ b.length)
    (h7 : b.length ≤ 7)
    (h : b.reverse.foldl crc32_ref_byte 0xFFFFFFFF = b.foldl crc32_ref_byte 0xFFFFFFFF) :
    b.reverse = b := by
  have hz := reverse_state_zero b h
  rcases b with _ | ⟨b0, _ | ⟨b1, _ | ⟨b2, _ | ⟨b3, _ | ⟨b4, _ | ⟨b5, _ | ⟨b6, _ | ⟨b7, b⟩⟩⟩⟩⟩⟩⟩⟩
  · simp at h2
  · simp at h2
  · have l0 := hb b0 (by simp)
    have l1 := hb b1 (by simp)
    simp only [List.reverse_cons, List.reverse_nil, List.nil_append, List.cons_append,
      List.zipWith_cons_cons, List.zipWith_nil_right, Nat.xor_comm b1 b0] at hz
    have k := pal_kernel_2 (b0 ^^^ b1) (byte_xor_lt l0 l1) hz
    have e0 := Nat.xor_eq_zero.mp k
    subst e0
    rfl
  · have l0 := hb b0 (by simp)
    have l2 := hb b2 (by simp)
    simp only [List.reverse_cons, List.reverse_nil, List.nil_append, List.cons_append,
      List.zipWith_cons_cons, List.zipWith_nil_right, Nat.xor_comm b2 b0, Nat.xor_self] at hz
    have k := pal_kernel_3 (b0 ^^^ b2) (byte_xor_lt l0 l2) hz
    have e0 := Nat.xor_eq_zero.mp k
    subst e0
    rfl
  · have l0 := hb b0 (by simp)
    have l1 := hb b1 (by simp)
    have l2 := hb b2 (by simp)
    have l3 := hb b3 (by simp)
    simp only [List.reverse_cons, List.reverse_nil, List.nil_append, List.cons_append,
      List.zipWith_cons_cons, List.zipWith_nil_right, Nat.xor_comm b3 b0,
      Nat.xor_comm b2 b1] at hz
    obtain ⟨k0, k1⟩ := pal_kernel_4 (b0 ^^^ b3) (b1 ^^^ b2) (byte_xor_lt l0 l3)
      (byte_xor_lt l1 l2) hz
    have e0 := Nat.xor_eq_zero.mp k0
    have e1 := Nat.xor_eq_zero.mp k1
    subst e0; subst e1
    rfl
  · have l0 := hb b0 (by simp)
    have l1 := hb b1 (by simp)
    have l3 := hb b3 (by simp)
    have l4 := hb b4 (by simp)
    simp only [List.reverse_cons, List.reverse_nil, List.nil_append, List.cons_append,
      List.zipWith_cons_cons, List.zipWith_nil_right, Nat.xor_comm b4 b0,
      Nat.xor_comm b3 b1, Nat.xor_self] at hz
    obtain ⟨k0, k1⟩ := pal_kernel_5 (b0 ^^^ b4) (b1 ^^^ b3) (byte_xor_lt l0 l4)
      (byte_xor_lt l1 l3) hz
    have e0 := Nat.xor_eq_zero.mp k0
    have e1 := Nat.xor_eq_zero.mp k1
    subst e0; subst e1
    rfl
  · have l0 := hb b0 (by simp)
    have l1 := hb b1 (by simp)
    have l2 := hb b2 (by simp)
    have l3 := hb b3 (by simp)
    have l4 := hb b4 (by simp)
    have l5 := hb b5 (by simp)
    simp only [List.reverse_cons, List.reverse_nil, List.nil_append, List.cons_append,
      List.zipWith_cons_cons, List.zipWith_nil_right, Nat.xor_comm b5 b0,
      Nat.xor_comm b4 b1, Nat.xor_comm b3 b2] at hz
    obtain ⟨k0, k1, k2⟩ := pal_kernel_6 (b0 ^^^ b5) (b1 ^^^ b4) (b2 ^^^ b3)
      (byte_xor_lt l0 l5) (byte_xor_lt l1 l4) (byte_xor_lt l2 l3) hz
    have e0 := Nat.xor_eq_zero.mp k0
    have e1 := Nat.xor_eq_zero.mp k1
    have e2 := Nat.xor_eq_zero.mp k2
    subst e0; subst e1; subst e2
    rfl
  · have l0 := hb b0 (by simp)
    have l1 := hb b1 (by simp)
    have l2 := hb b2 (by simp)
    have l4 := hb b4 (by simp)
    have l5 := hb b5 (by simp)
    have l6 := hb b6 (by simp)
    simp only [List.reverse_cons, List.reverse_nil, List.nil_append, List.cons_append,
      List.zipWith_cons_cons, List.zipWith_nil_right, Nat.xor_comm b6 b0,
      Nat.xor_comm b5 b1, Nat.xor_comm b4 b2, Nat.xor_self] at hz
    obtain ⟨k0, k1, k2⟩ := pal_kernel_7 (b0 ^^^ b6) (b1 ^^^ b5) (b2 ^^^ b4)
      (byte_xor_lt l0 l6) (byte_xor_lt l1 l5) (byte_xor_lt l2 l4) hz
    have e0 := Nat.xor_eq_zero.mp k0
    have e1 := Nat.xor_eq_zero.mp k1
    have e2 := Nat.xor_eq_zero.mp k2
    subst e0; subst e1; subst e2
    rfl
  · simp at h7

/-- Claim C17, amended: for every byte sequence `b` of length 2 to 7 that is not a
palindrome, `tlv_calc_crc32` over the reversal of `b` and over `b` both return a value, and
the two values differ. -/
theorem tlv_calc_crc32_order_sensitive (b : List Nat) (hb : ∀ x ∈ b, x < 256)
    (h2 : 2 ≤ b.length) (h7 : b.length ≤ 7) (hne : b.reverse ≠ b) :
    ∃ c d, tlv_calc_crc32 b.reverse b.length = Except.ok c
      ∧ tlv_calc_crc32 b b.length = Except.ok d ∧ c ≠ d := by
  have e1 := tlv_calc_crc32_take b.reverse b.length (by simp) (by omega)
  have e2 := tlv_calc_crc32_take b b.length (Nat.le_refl _) (by omega)
  have t1 : b.reverse.take b.length = b.reverse := List.take_of_length_le (by simp)
  have t2 : b.take b.length = b := List.take_of_length_le (Nat.le_refl _)
  rw [t1] at e1
  rw [t2] at e2
  refine ⟨_, _, e1, e2, ?_⟩
  intro heq
  have hbr : ∀ x ∈ b.reverse, x < 256 := fun x hx => hb x (List.mem_reverse.mp hx)
  have s1 := crc32_ref_foldl_lt b.reverse (c := 0xFFFFFFFF) (by norm_num) hbr
  have s2 := crc32_ref_foldl_lt b (c := 0xFFFFFFFF) (by norm_num) hb
  unfold crc32_ref at heq
  exact hne (reverse_state_eq b hb h2 h7 (by omega))

set_option maxRecDepth 100000 in
/-- Witness for `tlv_calc_crc32_order_sensitive` on the two bytes `"AB"`. -/
theorem tlv_calc_crc32_order_sensitive_witness :
    tlv_calc_crc32 [0x42, 0x41] 2 ≠ tlv_calc_crc32 [0x41, 0x42] 2 := by
  obtain ⟨c, d, e1, e2, hne⟩ :=
    tlv_calc_crc32_order_sensitive [0x41, 0x42] (by decide) (by decide) (by decide)
      (by decide)
  have e3 : tlv_calc_crc32 [0x42, 0x41] 2 = Except.ok c := e1
  have e4 : tlv_calc_crc32 [0x41, 0x42] 2 = Except.ok d := e2
  rw [e3, e4]
  intro h
  injection h with h
  exact hne h

set_option maxRecDepth 100000 in
/-- Claim C17, as stated, fails on the code: the 8-byte sequence `reversal_collision` is not
a palindrome, and `tlv_calc_crc32` returns the same value 0xC33A244D for it and for its
reversal. -/
theorem tlv_calc_crc32_reversal_collision :
    reversal_collision.length = 8
    ∧ (∀ x ∈ reversal_collision, x < 256)
    ∧ reversal_collision.reverse ≠ reversal_collision
    ∧ tlv_calc_crc32 reversal_collision 8 = Except.ok 0xC33A244D
    ∧ tlv_calc_crc32 reversal_collision.reverse 8 = Except.ok 0xC33A244D := by
  decide

/-! ## Reads outside the array on a loaded device (C7) -/

/-- The body of `main` once both options were given. -/
theorem main_of_args (tr : Transport) (program : List Char) (opts : List (Char × Int))
    (busnum addr : Nat) (m0 : Machine)
    (hp : parse_args opts 0xFFFF 0xFFFF Machine.init = (busnum, addr, m0))
    (hb : busnum ≠ 0xFFFF) (ha : addr ≠ 0xFFFF) :
    main tr program opts
      = (read_eeprom tr busnum addr m0 >>= fun r =>
          if r.1 = false then Except.ok (-1, r.2)
          else print_eeprom r.2.eeprom >>= fun text => Except.ok (0, r.2.printf text)) := by
  rw [main_eq, hp]
  simp only []
  rw [if_neg (by rintro (h | h); exact hb h; exact ha h)]

/-- The header is valid and the field data is read, but `tlv_verify_crc32` reads outside the
array: so does `read_eeprom`. -/
theorem read_eeprom_verify_error (tr : Transport) (busnum addr fd T : Nat) (m : Machine)
    (f1 f2 : Nat → Nat) (e : Err) (ha : addr < 65536)
    (hlen : m.eeprom.length = 256)
    (h : tr.bus_open busnum = Except.ok fd)
    (h1 : tr.transfer fd addr 0 11 = Except.ok f1)
    (h2 : is_valid_tlvhdr (i2c_store m.eeprom 0 11 f1) = Except.ok true)
    (h3 : GET_TLV_LEN (i2c_store m.eeprom 0 11 f1) = Except.ok T)
    (h4 : tr.transfer fd addr 11 T = Except.ok f2)
    (h5 : tlv_verify_crc32 tr.crc_val (i2c_store (i2c_store m.eeprom 0 11 f1) 11 T f2)
      = Except.error e) :
    read_eeprom tr busnum addr m = Except.error e := by
  have hT := valid_len_le h2 h3
  have hl1 := i2c_store_length m.eeprom 0 11 f1 (by omega)
  have e1 := i2c_read_ok tr fd addr 0 11 0 m f1 ha (by norm_num) (by norm_num) (by omega) h1
  have e2 := i2c_read_ok tr fd addr 11 T 11
    ⟨i2c_store m.eeprom 0 11 f1, m.out, m.reads ++ [(fd, addr, 0, 11)]⟩ f2 ha
    (by norm_num) (by omega) (by show 11 + T ≤ (i2c_store m.eeprom 0 11 f1).length; omega) h4
  simp only [read_eeprom, i2c_open_bus, h, sizeof_tlv_hdr, e1, ok_bind, Machine.printf,
    pure_eq_ok, Bool.not_true, Bool.false_eq_true, if_false, h2, h3, e2, h5, error_bind]

set_option maxRecDepth 1000000 in
/-- The array after the two transfers from a device that holds `overlong_image`. -/
theorem overlong_image_stored :
    i2c_store (i2c_store Machine.init.eeprom 0 11 (fun i => overlong_image.getD (0 + i) 0))
      11 16 (fun i => overlong_image.getD (11 + i) 0) = overlong_image := by
  decide

set_option maxRecDepth 1000000 in
/-- The array after the two transfers from a device that holds `edge_image`. -/
theorem edge_image_stored :
    i2c_store (i2c_store Machine.init.eeprom 0 11 (fun i => edge_image.getD (0 + i) 0))
      11 245 (fun i => edge_image.getD (11 + i) 0) = edge_image := by
  decide

set_option maxRecDepth 1000000 in
/-- A device that holds `overlong_image` is loaded and accepted, whatever `crc_val` held. -/
theorem overlong_image_loaded (stale : Nat) :
    read_eeprom (device_of overlong_image stale) 0 80 Machine.init
      = Except.ok (true, ⟨overlong_image, [], [(3, 80, 0, 11), (3, 80, 11, 16)]⟩) := by
  have h := read_eeprom_loaded (device_of overlong_image stale) 0 80 3 16 Machine.init
    (fun i => overlong_image.getD (0 + i) 0) (fun i => overlong_image.getD (11 + i) 0)
    true [] (by decide) (by decide) rfl rfl (by decide) (by decide) rfl
    (by
      rw [overlong_image_stored]
      exact (tlv_verify_crc32_stale stale _ (by decide)).trans (by decide))
    (by rw [overlong_image_stored]; decide)
  rw [overlong_image_stored] at h
  exact h

set_option maxRecDepth 1000000 in
/-- Loading a device that holds `edge_image` reads outside the array, whatever `crc_val`
held. -/
theorem edge_image_load_fails (stale : Nat) :
    read_eeprom (device_of edge_image stale) 0 80 Machine.init
      = Except.error (Err.oob 256) :=
  read_eeprom_verify_error (device_of edge_image stale) 0 80 3 245 Machine.init
    (fun i => edge_image.getD (0 + i) 0) (fun i => edge_image.getD (11 + i) 0)
    (Err.oob 256) (by decide) (by decide) rfl rfl (by decide) (by decide) rfl
    (by
      rw [edge_image_stored]
      exact (tlv_verify_crc32_stale stale _ (by decide)).trans (by decide))

set_option maxRecDepth 1000000 in
/-- C7 (the code at the failing inputs).  `overlong_image` is a 256-byte EEPROM content with a
valid header (`T = 16`) and a correct CRC field; its field at offset 17 declares 255 value
bytes, which would end at offset 273, past `11 + T = 27` and past the array.  Run with
`-b 0 -a 80` on a device holding it, `main` loads it, `tlv_verify_crc32` accepts it (whatever
the uninitialised `crc_val` held), and `print_eeprom` reads `eeprom[256]`, outside the array,
instead of rejecting the field.  `edge_image` has a valid header (`T = 245`) and a field that ends at offset
255, so that the next field starts at the last byte of the array: `tlv_find(0xFE)`, which
`main` runs through `tlv_verify_crc32`, reads the length byte `eeprom[256]`. -/
theorem main_reads_past_eeprom :
    (overlong_image.length = 256
      ∧ is_valid_tlvhdr overlong_image = Except.ok true
      ∧ GET_TLV_LEN overlong_image = Except.ok 16
      ∧ (∀ stale, tlv_verify_crc32 stale overlong_image = Except.ok true)
      ∧ (∀ stale, read_eeprom (device_of overlong_image stale) 0 80 Machine.init
          = Except.ok (true, ⟨overlong_image, [], [(3, 80, 0, 11), (3, 80, 11, 16)]⟩))
      ∧ print_eeprom_fields overlong_image = Except.error (Err.oob 256)
      ∧ print_eeprom overlong_image = Except.error (Err.oob 256)
      ∧ (∀ stale, main (device_of overlong_image stale) "tlv_parser".toList
          [('b', 0), ('a', 80)] = Except.error (Err.oob 256)))
    ∧ (edge_image.length = 256
      ∧ is_valid_tlvhdr edge_image = Except.ok true
      ∧ GET_TLV_LEN edge_image = Except.ok 245
      ∧ tlv_find edge_image TLV_CODE_CRC_32 (some 4) false = Except.error (Err.oob 256)
      ∧ (∀ stale, tlv_verify_crc32 stale edge_image = Except.error (Err.oob 256))
      ∧ (∀ stale, main (device_of edge_image stale) "tlv_parser".toList
          [('b', 0), ('a', 80)] = Except.error (Err.oob 256))) := by
  refine ⟨⟨by decide, by decide, by decide,
    fun stale => (tlv_verify_crc32_stale stale _ (by decide)).trans (by decide),
    overlong_image_loaded, by decide, by decide, ?_⟩,
    ⟨by decide, by decide, by decide, by decide,
    fun stale => (tlv_verify_crc32_stale stale _ (by decide)).trans (by decide), ?_⟩⟩
  · intro stale
    rw [main_of_args (device_of overlong_image stale) "tlv_parser".toList [('b', 0), ('a', 80)]
      0 80 Machine.init (by decide) (by decide) (by decide), overlong_image_loaded stale,
      ok_bind]
    rfl
  · intro stale
    rw [main_of_args (device_of edge_image stale) "tlv_parser".toList [('b', 0), ('a', 80)]
      0 80 Machine.init (by decide) (by decide) (by decide), edge_image_load_fails stale,
      error_bind]

/-! ## Lookups over the declared field data (C9, C10) -/

end TlvParser
